import Mathlib

/-!
# cm::optional (Source/cm_optional.hxx): a shallow embedding

The fallback implementation of `cm::optional<T>` (the branch compiled when
`CMake_HAVE_CXX_OPTIONAL` is not defined) is embedded as state-passing code.

* A container is the pair of its two data members, `_has_value` and the
  union `_mem`.  The union either holds a live `T` (`some v`) or is raw,
  dead storage (`none`).  Nothing ties the two members together: that the
  flag tells the truth about the storage is a property to be proved.
* Member functions take `this` (and `other`) as references.  Two containers,
  `Ref.a` and `Ref.b`, live in a `World`; passing the same reference twice
  models aliasing (`x.swap(x)`, `x = x`).
* `T` is a parameter together with its constituent operations (`TOps`):
  constructors, assignments, swap and destructor, any of which may throw.
* A call ends normally, with an exception, in `std::terminate` (an exception
  that reaches a `noexcept` boundary), or in undefined behaviour (a dead
  object is read, assigned, swapped or destroyed).  The world survives an
  exception, as it does in C++.
* Every step that matters for the lifetime of the contained value is written
  to an event log.
-/

namespace cm

/-- A reference to one of the two containers of the world. -/
inductive Ref where
  | a
  | b
  deriving DecidableEq, Repr

/-- The data members of `optional<T>`: `bool _has_value = false;` and the
union `_mem`, whose member `value` is a live `T` or dead storage.  The
stateless `std::allocator<T> _allocator` carries no data. -/
structure optional (T : Type) where
  _has_value : Bool
  _mem : Option T
  deriving DecidableEq, Repr

/-- What can be thrown: `cm::bad_optional_access`, or an error `e` raised by
one of the operations of `T`. -/
inductive Exc (E : Type) where
  | bad_optional_access
  | raised (e : E)
  deriving DecidableEq, Repr

/-- How a call ends. -/
inductive Outcome (E α : Type) where
  | ok (x : α)
  | throw (x : Exc E)
  | terminate
  | undefined
  deriving DecidableEq, Repr

/-- The steps recorded in the log. -/
inductive Event (T E : Type) where
  /-- The member `_has_value` of `r` was written. -/
  | flag (r : Ref) (b : Bool)
  /-- Unchecked dereference `operator*` was invoked on `r` while its flag was `engaged`. -/
  | deref (r : Ref) (engaged : Bool)
  /-- A constructor of `T` completed in the storage of `r`, which was `live` before. -/
  | construct (r : Ref) (live : Bool) (v : T)
  /-- The destructor of `T` ran on the object `v` held in the storage of `r`. -/
  | destroy (r : Ref) (v : T)
  /-- An assignment operator of `T` ran on the object of `r`, leaving `v`. -/
  | assign (r : Ref) (v : T)
  /-- The swap of `T` ran on the objects of `r` and `s`. -/
  | swap (r s : Ref)
  /-- An operation of `T` threw `e`. -/
  | fail (e : E)
  deriving DecidableEq, Repr

/-- Two containers and the log (most recent event last). -/
structure World (T E : Type) where
  a : optional T
  b : optional T
  log : List (Event T E)
  deriving DecidableEq, Repr

/-- The constituent operations of `T`.  `U` is the type of the raw values
`T` is constructible and assignable from.  An assignment or swap returns the
objects as it leaves them together with the error it threw, if any; a
constructor that throws leaves no object; a move also returns the
moved-from source.  A move assignment of an object to itself has one object
to leave, so it is an operation of its own. -/
structure TOps (T U E : Type) where
  /-- Construct by `T(const T&)`. -/
  copyCtor : T → Except E T
  /-- Construct by `T(T&&)`: the new object, and the source afterwards. -/
  moveCtor : T → Except E T × T
  /-- Construct by `T(U&&)`. -/
  convCtor : U → Except E T
  /-- Assign by `T::operator=(const T&)` on a target and a source: the target afterwards. -/
  copyAssign : T → T → T × Option E
  /-- Assign by `T::operator=(T&&)`: the target and the source afterwards. -/
  moveAssign : T → T → T × T × Option E
  /-- Assign by `T::operator=(U&)`: the target afterwards. -/
  convAssign : T → U → T × Option E
  /-- The `swap(T&, T&)` found by `using std::swap`. -/
  swap : T → T → T × T × Option E
  /-- The destructor `~T()`. -/
  dtor : T → Option E
  /-- Assign by `T::operator=(T&&)` an object to itself: the object afterwards. -/
  selfMoveAssign : T → T × Option E

/-- The argument packs `emplace` is called with: a `const T&` or a `T&&`
bound to the value stored in a container, or anything else, forwarded to the
converting constructor of `T`. -/
inductive Args (U : Type) where
  | lvalue (p : Ref)
  | rvalue (p : Ref)
  | forward (u : U)
  deriving DecidableEq, Repr

namespace World

variable {T E : Type}

/-- Look a container up. -/
def get (w : World T E) : Ref → optional T
  | .a => w.a
  | .b => w.b

/-- Replace a container. -/
def set (w : World T E) (r : Ref) (o : optional T) : World T E :=
  match r with
  | .a => { w with a := o }
  | .b => { w with b := o }

/-- Append an event to the log. -/
def emit (w : World T E) (ev : Event T E) : World T E :=
  { w with log := w.log ++ [ev] }

/-- Append events to the log. -/
def logs (w : World T E) (evs : List (Event T E)) : World T E :=
  { w with log := w.log ++ evs }

end World

/-- A computation over the world: the world is returned whatever the outcome. -/
def M (T E α : Type) : Type := World T E → Outcome E α × World T E

namespace M

variable {T E α β : Type}

/-- Normal return. -/
def ret (x : α) : M T E α := fun w => (.ok x, w)

/-- Sequencing: anything but a normal return ends the computation. -/
def bind (m : M T E α) (f : α → M T E β) : M T E β := fun w =>
  match m w with
  | (.ok x, w1) => f x w1
  | (.throw e, w1) => (.throw e, w1)
  | (.terminate, w1) => (.terminate, w1)
  | (.undefined, w1) => (.undefined, w1)

instance : Monad (M T E) where
  pure := ret
  bind := bind

/-- The C++ statement `throw e;`. -/
def raise (e : Exc E) : M T E α := fun w => (.throw e, w)

/-- A function declared `noexcept`: an exception leaving it calls `std::terminate`. -/
def noexcept (m : M T E α) : M T E α := fun w =>
  match m w with
  | (.throw _, w1) => (.terminate, w1)
  | r => r

/-- Write an event to the log. -/
def emit (ev : Event T E) : M T E Unit := fun w => (.ok (), w.emit ev)

/-- Read a container. -/
def read (r : Ref) : M T E (optional T) := fun w => (.ok (w.get r), w)

/-- Write the member `_has_value` of `r`. -/
def set_has_value (r : Ref) (b : Bool) : M T E Unit := fun w =>
  (.ok (), (w.set r { w.get r with _has_value := b }).emit (.flag r b))

/-- Write the storage of `r`. -/
def set_mem (r : Ref) (m : Option T) : M T E Unit := fun w =>
  (.ok (), w.set r { w.get r with _mem := m })

/-- Use the object a reference to `_mem.value` of `p` designates: undefined
behaviour when no object lives there. -/
def load (p : Ref) : M T E T := fun w =>
  match (w.get p)._mem with
  | some v => (.ok v, w)
  | none => (.undefined, w)

end M

open M

section members

variable {T U E : Type}

/-- Source: `bool optional<T>::has_value() const noexcept { return this->_has_value; }` -/
def has_value (this : Ref) : M T E Bool := noexcept do
  let o ← read this
  return o._has_value

/-- Source: `optional<T>::operator bool() const noexcept { return this->has_value(); }` -/
def operator_bool (this : Ref) : M T E Bool := noexcept (has_value this)

/-- Source: `operator*() &` and `const&`: `return this->_mem.value;`.  The
result is a reference to the storage of `this`; nothing is read. -/
def operator_star (this : Ref) : M T E Ref := do
  let o ← read this
  emit (.deref this o._has_value)
  return this

/-- Source: `operator*() &&` and `const&&`: `return std::move(**this);` -/
def operator_star_move (this : Ref) : M T E Ref := operator_star this

/-- Source: `operator->()`: `return &**this;` -/
def operator_arrow (this : Ref) : M T E Ref := operator_star this

/-- Source: `value() &` and `const&`:
`if (!this->has_value()) { throw cm::bad_optional_access{}; } return **this;` -/
def value (this : Ref) : M T E Ref := do
  if !(← has_value this) then
    raise .bad_optional_access
  else
    operator_star this

/-- An operation of `T` that hands nothing out has run: it threw, or not. -/
def T_throw (err : Option E) : M T E Unit :=
  match err with
  | none => return ()
  | some e => do emit (.fail e); raise (.raised e)

/-- A constructor of `T` has run outside the container: it made an object, or threw. -/
def T_made (r : Except E T) : M T E T :=
  match r with
  | .ok v => return v
  | .error e => do emit (.fail e); raise (.raised e)

/-- A constructor of `T` has run in the storage at `p`, which was `live`
before: it made an object there, or threw. -/
def T_made_at (p : Ref) (live : Bool) (r : Except E T) : M T E Unit :=
  match r with
  | .ok v => do set_mem p (some v); emit (.construct p live v)
  | .error e => do emit (.fail e); raise (.raised e)

/-- The call `allocator_traits::destroy(_allocator, p)`: runs `~T()` on the
object at `p`, whose lifetime ends whether or not the destructor throws. -/
def destroy (ops : TOps T U E) (p : Ref) : M T E Unit := do
  let v ← load p
  set_mem p none
  emit (.destroy p v)
  T_throw (ops.dtor v)

/-- The call `allocator_traits::construct(_allocator, p, args...)`: runs the
constructor of `T` the arguments select, in the storage at `p`. -/
def construct (ops : TOps T U E) (p : Ref) (args : Args U) : M T E Unit := do
  let live := (← read p)._mem.isSome
  match args with
  | .lvalue q => do
    let s ← load q
    T_made_at p live (ops.copyCtor s)
  | .rvalue q => do
    let s ← load q
    set_mem q (some (ops.moveCtor s).2)
    T_made_at p live (ops.moveCtor s).1
  | .forward u =>
    T_made_at p live (ops.convCtor u)

/-- Source:
```
void optional<T>::reset() noexcept {
  if (this->has_value()) {
    this->_has_value = false;
    allocator_traits::destroy(this->_allocator, &**this);
  }
}
``` -/
def reset (ops : TOps T U E) (this : Ref) : M T E Unit := noexcept do
  if (← has_value this) then
    set_has_value this false
    let p ← operator_star this
    destroy ops p
  else
    return ()

/-- Source:
```
T& optional<T>::emplace(Args&&... args) {
  this->reset();
  allocator_traits::construct(this->_allocator, &**this, std::forward<Args>(args)...);
  this->_has_value = true;
  return this->value();
}
``` -/
def emplace (ops : TOps T U E) (this : Ref) (args : Args U) : M T E Ref := do
  reset ops this
  let p ← operator_star this
  construct ops p args
  set_has_value this true
  value this

/-- The expression `d = s` on two `T` objects, `s` a `const T&`. -/
def T_copy_assign (ops : TOps T U E) (d s : Ref) : M T E Unit := do
  let dv ← load d
  let sv ← load s
  set_mem d (some (ops.copyAssign dv sv).1)
  emit (.assign d (ops.copyAssign dv sv).1)
  T_throw (ops.copyAssign dv sv).2

/-- The expression `d = std::move(s)` on two `T` objects.  When both
references designate one object, the move assignment of `T` runs on that
object alone and leaves it as `T` defines (a `std::vector` is left empty). -/
def T_move_assign (ops : TOps T U E) (d s : Ref) : M T E Unit := do
  let dv ← load d
  let sv ← load s
  if d = s then
    set_mem d (some (ops.selfMoveAssign dv).1)
    emit (.assign d (ops.selfMoveAssign dv).1)
    T_throw (ops.selfMoveAssign dv).2
  else
    set_mem s (some (ops.moveAssign dv sv).2.1)
    set_mem d (some (ops.moveAssign dv sv).1)
    emit (.assign d (ops.moveAssign dv sv).1)
    T_throw (ops.moveAssign dv sv).2.2

/-- The expression `d = v` on a `T` object and a raw value `v`, an lvalue. -/
def T_conv_assign (ops : TOps T U E) (d : Ref) (v : U) : M T E Unit := do
  let dv ← load d
  set_mem d (some (ops.convAssign dv v).1)
  emit (.assign d (ops.convAssign dv v).1)
  T_throw (ops.convAssign dv v).2

/-- The call `swap(x, y)` on two `T` objects. -/
def T_swap (ops : TOps T U E) (x y : Ref) : M T E Unit := do
  let xv ← load x
  let yv ← load y
  set_mem y (some (ops.swap xv yv).2.1)
  set_mem x (some (ops.swap xv yv).1)
  emit (.swap x y)
  T_throw (ops.swap xv yv).2.2

/-- Source: `optional& operator=(nullopt_t) noexcept { this->reset(); return *this; }` -/
def assign_nullopt (ops : TOps T U E) (this : Ref) : M T E Ref := noexcept do
  reset ops this
  return this

/-- Source:
```
optional& operator=(const optional& other) {
  if (other.has_value()) {
    if (this->has_value()) { this->value() = *other; }
    else { this->emplace(*other); }
  } else { this->reset(); }
  return *this;
}
```
The order in which the two operands of `=` are evaluated is unspecified
before C++17 and right to left since; the right operand is taken first
here, and the claims below hold for either order of the two dereferences. -/
def assign_copy (ops : TOps T U E) (this other : Ref) : M T E Ref := do
  if (← has_value other) then
    if (← has_value this) then
      let s ← operator_star other
      let d ← value this
      T_copy_assign ops d s
    else
      let s ← operator_star other
      let _ ← emplace ops this (.lvalue s)
  else
    reset ops this
  return this

/-- Source:
```
optional& operator=(optional&& other) noexcept {
  if (other.has_value()) {
    if (this->has_value()) { this->value() = std::move(*other); }
    else { this->emplace(std::move(*other)); }
  } else { this->reset(); }
  return *this;
}
```
The order in which the two operands of `=` are evaluated is unspecified
before C++17 and right to left since; the right operand is taken first
here, and the claims below hold for either order of the two dereferences. -/
def assign_move (ops : TOps T U E) (this other : Ref) : M T E Ref := noexcept do
  if (← has_value other) then
    if (← has_value this) then
      let s ← operator_star other
      let d ← value this
      T_move_assign ops d s
    else
      let s ← operator_star other
      let _ ← emplace ops this (.rvalue s)
  else
    reset ops this
  return this

/-- Source:
```
optional& operator=(U&& v) {
  if (this->has_value()) { this->value() = v; }
  else { this->emplace(std::forward<U>(v)); }
  return *this;
}
``` -/
def assign_conv (ops : TOps T U E) (this : Ref) (v : U) : M T E Ref := do
  if (← has_value this) then
    let d ← value this
    T_conv_assign ops d v
  else
    let _ ← emplace ops this (.forward v)
  return this

/-- The value a function returning `T` hands out, built by the copy
constructor of `T` from the object at `p`. -/
def T_return_copy (ops : TOps T U E) (p : Ref) : M T E T := do
  let v ← load p
  T_made (ops.copyCtor v)

/-- The value a function returning `T` hands out, built by the move
constructor of `T` from the object at `p`. -/
def T_return_move (ops : TOps T U E) (p : Ref) : M T E T := do
  let v ← load p
  set_mem p (some (ops.moveCtor v).2)
  T_made (ops.moveCtor v).1

/-- The value `static_cast<T>(std::forward<U>(default_value))`. -/
def T_return_conv (ops : TOps T U E) (u : U) : M T E T :=
  T_made (ops.convCtor u)

/-- Source: `value_or(U&& default_value) const&`:
`return bool(*this) ? **this : static_cast<T>(std::forward<U>(default_value));` -/
def value_or (ops : TOps T U E) (this : Ref) (default_value : U) : M T E T := do
  if (← operator_bool this) then
    let p ← operator_star this
    T_return_copy ops p
  else
    T_return_conv ops default_value

/-- Source: `value_or(U&& default_value) &&`:
`return bool(*this) ? std::move(**this) : static_cast<T>(std::forward<U>(default_value));` -/
def value_or_move (ops : TOps T U E) (this : Ref) (default_value : U) : M T E T := do
  if (← operator_bool this) then
    let p ← operator_star this
    T_return_move ops p
  else
    T_return_conv ops default_value

/-- Source:
```
void optional<T>::swap(optional& other) noexcept {
  if (this->has_value()) {
    if (other.has_value()) { using std::swap; swap(**this, *other); }
    else { other.emplace(std::move(**this)); this->reset(); }
  } else if (other.has_value()) {
    this->emplace(std::move(*other)); other.reset();
  }
}
``` -/
def swap (ops : TOps T U E) (this other : Ref) : M T E Unit := noexcept do
  if (← has_value this) then
    if (← has_value other) then
      let x ← operator_star this
      let y ← operator_star other
      T_swap ops x y
    else
      let x ← operator_star this
      let _ ← emplace ops other (.rvalue x)
      reset ops this
  else if (← has_value other) then
    let y ← operator_star other
    let _ ← emplace ops this (.rvalue y)
    reset ops other
  else
    return ()

/-- Member initialisation of a new object at `this`: the default member
initialiser `_has_value = false`, and `_mem_union() noexcept {}`, which
constructs no `T`. -/
def init (this : Ref) : M T E Unit := fun w =>
  (.ok (), w.set this { _has_value := false, _mem := none })

/-- Source: `optional() noexcept = default;` -/
def optional_default (this : Ref) : M T E Unit := noexcept (init this)

/-- Source: `optional<T>::optional(nullopt_t) noexcept {}` -/
def optional_nullopt (this : Ref) : M T E Unit := noexcept do
  init this
  return ()

/-- Source: `optional<T>::optional(const optional& other) { *this = other; }` -/
def optional_copy (ops : TOps T U E) (this other : Ref) : M T E Unit := do
  init this
  let _ ← assign_copy ops this other

/-- Source: `optional<T>::optional(optional&& other) noexcept { *this = std::move(other); }` -/
def optional_move (ops : TOps T U E) (this other : Ref) : M T E Unit := noexcept do
  init this
  let _ ← assign_move ops this other

/-- Source: `optional(cm::in_place_t, Args&&... args) { this->emplace(std::forward<Args>(args)...); }` -/
def optional_in_place (ops : TOps T U E) (this : Ref) (args : Args U) : M T E Unit := do
  init this
  let _ ← emplace ops this args

/-- Source: `optional<T>::optional(U&& v) { this->emplace(std::forward<U>(v)); }` -/
def optional_conv (ops : TOps T U E) (this : Ref) (v : U) : M T E Unit := do
  init this
  let _ ← emplace ops this (.forward v)

/-- Source: `optional<T>::~optional() { this->reset(); }`; a destructor is `noexcept`. -/
def optional_dtor (ops : TOps T U E) (this : Ref) : M T E Unit := noexcept do
  reset ops this

/-- Source: `make_optional(T&& value)`:
`return optional<decay<T>>(std::forward<T>(value));`, built in the caller's object `result`. -/
def make_optional (ops : TOps T U E) (result : Ref) (value : U) : M T E Unit :=
  optional_conv ops result value

/-- Source: `make_optional<T>(Args&&... args)`:
`return optional<T>(in_place, std::forward<Args>(args)...);` -/
def make_optional_in_place (ops : TOps T U E) (result : Ref) (args : Args U) : M T E Unit :=
  optional_in_place ops result args

end members

/-! ## Properties of `T`, of a container, and the public operations -/

section model

variable {T U E : Type}

/-- The lifetime invariant of one container: an object lives in the storage
exactly when the flag is set. -/
def optional.wf (o : optional T) : Prop := o._has_value = o._mem.isSome

instance (o : optional T) : Decidable o.wf := by
  unfold optional.wf; infer_instance

/-- Both containers of the world satisfy the lifetime invariant. -/
def World.wf (w : World T E) : Prop := w.a.wf ∧ w.b.wf

instance (w : World T E) : Decidable w.wf := by
  unfold World.wf; infer_instance

/-- The container is engaged and holds `v`. -/
def optional.holds (o : optional T) (v : T) : Prop := o = ⟨true, some v⟩

/-- The container is disengaged, its storage dead. -/
def optional.empty (o : optional T) : Prop := o = ⟨false, none⟩

/-- None of the operations of `T` throws. -/
structure TOps.NoFail (ops : TOps T U E) : Prop where
  copyCtor : ∀ v, ∃ r, ops.copyCtor v = .ok r
  moveCtor : ∀ v, ∃ r, (ops.moveCtor v).1 = .ok r
  convCtor : ∀ u, ∃ r, ops.convCtor u = .ok r
  copyAssign : ∀ d s, (ops.copyAssign d s).2 = none
  moveAssign : ∀ d s, (ops.moveAssign d s).2.2 = none
  convAssign : ∀ d u, (ops.convAssign d u).2 = none
  swap : ∀ x y, (ops.swap x y).2.2 = none
  dtor : ∀ v, ops.dtor v = none
  selfMoveAssign : ∀ v, (ops.selfMoveAssign v).2 = none

/-- The type `T` is a regular value type: no operation throws, a copy or a
move yields the value of its source, an assignment leaves the value of its
source in the target, swap exchanges the two values, and a raw value `u`
converts to `conv u`.  What a move leaves in its source, and what a move
assignment of an object to itself leaves, is not constrained. -/
structure TOps.Regular (ops : TOps T U E) (conv : U → T) : Prop where
  copyCtor : ∀ v, ops.copyCtor v = .ok v
  moveCtor : ∀ v, (ops.moveCtor v).1 = .ok v
  convCtor : ∀ u, ops.convCtor u = .ok (conv u)
  copyAssign : ∀ d s, ops.copyAssign d s = (s, none)
  moveAssign : ∀ d s, (ops.moveAssign d s).1 = s ∧ (ops.moveAssign d s).2.2 = none
  convAssign : ∀ d u, ops.convAssign d u = (conv u, none)
  swap : ∀ x y, ops.swap x y = (y, x, none)
  dtor : ∀ v, ops.dtor v = none
  selfMoveAssign : ∀ v, (ops.selfMoveAssign v).2 = none

/-- The public operations of a container whose behaviour is defined in every
state, with the arguments that do not refer into a container. -/
inductive Op (U : Type) where
  | ctor_default
  | ctor_nullopt
  | ctor_copy
  | ctor_move
  | ctor_in_place (u : U)
  | ctor_conv (u : U)
  | make_optional (u : U)
  | make_optional_in_place (u : U)
  | assign_nullopt
  | assign_copy
  | assign_move
  | assign_conv (u : U)
  | emplace (u : U)
  | reset
  | swap
  | has_value
  | operator_bool
  | value
  | value_or (u : U)
  | value_or_move (u : U)
  deriving DecidableEq, Repr

/-- Forget the result of a call. -/
def discard {α : Type} (m : M T E α) : M T E Unit := do
  let _ ← m
  return ()

/-- Call an operation on `this`, with `other` as the second container where
the operation takes one. -/
def Op.run (ops : TOps T U E) (this other : Ref) : Op U → M T E Unit
  | .ctor_default => cm.optional_default this
  | .ctor_nullopt => cm.optional_nullopt this
  | .ctor_copy => cm.optional_copy ops this other
  | .ctor_move => cm.optional_move ops this other
  | .ctor_in_place u => cm.optional_in_place ops this (.forward u)
  | .ctor_conv u => cm.optional_conv ops this u
  | .make_optional u => cm.make_optional ops this u
  | .make_optional_in_place u => cm.make_optional_in_place ops this (.forward u)
  | .assign_nullopt => discard (cm.assign_nullopt ops this)
  | .assign_copy => discard (cm.assign_copy ops this other)
  | .assign_move => discard (cm.assign_move ops this other)
  | .assign_conv u => discard (cm.assign_conv ops this u)
  | .emplace u => discard (cm.emplace ops this (.forward u))
  | .reset => cm.reset ops this
  | .swap => cm.swap ops this other
  | .has_value => discard (cm.has_value this)
  | .operator_bool => discard (cm.operator_bool this)
  | .value => discard (cm.value this)
  | .value_or u => discard (cm.value_or ops this u)
  | .value_or_move u => discard (cm.value_or_move ops this u)

/-- The functions the source declares `noexcept`. -/
def Op.is_noexcept : Op U → Bool
  | .ctor_default | .ctor_nullopt | .ctor_move => true
  | .assign_nullopt | .assign_move => true
  | .reset | .swap | .has_value | .operator_bool => true
  | _ => false

/-- An event is the run of a destructor of `T`. -/
def Event.is_destroy : Event T E → Bool
  | .destroy _ _ => true
  | _ => false

/-- The engagement flag of a container. -/
def World.flags (w : World T E) (r : Ref) : Bool := (w.get r)._has_value

/-- The constructors among the operations. -/
def Op.is_ctor : Op U → Bool
  | .ctor_default | .ctor_nullopt | .ctor_copy | .ctor_move => true
  | .ctor_in_place _ | .ctor_conv _ | .make_optional _ | .make_optional_in_place _ => true
  | _ => false

/-- What a call means for the engagement of a container. -/
inductive Effect where
  | engaging
  | disengaging
  | neutral
  deriving DecidableEq, Repr

/-- The flag an effect leaves, given the flag before. -/
def Effect.apply : Effect → Bool → Bool
  | .engaging, _ => true
  | .disengaging, _ => false
  | .neutral, b => b

/-- The classification of the calls, in the words of the specification.
Engaging for `this`: `emplace`, converting assignment, copy or move
assignment from an engaged source, a swap that receives a value.
Disengaging for `this`: `reset`, assignment of the empty marker, copy or
move assignment from a disengaged source, a swap that gives its value away.
A swap is the one for `this` and the other for `other`.  Every other call
is neutral. -/
def Op.effect (op : Op U) (this other : Ref) (w : World T E) (r : Ref) : Effect :=
  match op with
  | .emplace _ | .assign_conv _ => if r = this then .engaging else .neutral
  | .reset | .assign_nullopt => if r = this then .disengaging else .neutral
  | .assign_copy | .assign_move =>
    if r = this then (if w.flags other then .engaging else .disengaging) else .neutral
  | .swap =>
    if r = this then
      if w.flags this && !w.flags other then .disengaging
      else if !w.flags this && w.flags other then .engaging
      else .neutral
    else if r = other then
      if w.flags other && !w.flags this then .disengaging
      else if !w.flags other && w.flags this then .engaging
      else .neutral
    else .neutral
  | _ => .neutral

/-- One call of a program: the operation, the container it is called on, and
the container passed to it. -/
structure Call (U : Type) where
  op : Op U
  this : Ref
  other : Ref
  deriving DecidableEq, Repr

/-- Run a sequence of calls, one after the other.  The caller catches what a
call throws and goes on. -/
def runCalls (ops : TOps T U E) : List (Call U) → World T E → World T E
  | [], w => w
  | c :: cs, w => runCalls ops cs (c.op.run ops c.this c.other w).2

/-- Every call of the sequence returned to its caller: normally, or with the
`bad_optional_access` of `value()`. -/
def allReturn (ops : TOps T U E) : List (Call U) → World T E → Prop
  | [], _ => True
  | c :: cs, w =>
    ((c.op.run ops c.this c.other w).1 = .ok () ∨
      (c.op.run ops c.this c.other w).1 = .throw .bad_optional_access) ∧
    allReturn ops cs (c.op.run ops c.this c.other w).2

/-- The effects of a sequence of calls on the container `r`, in order. -/
def history (ops : TOps T U E) (r : Ref) : List (Call U) → World T E → List Effect
  | [], _ => []
  | c :: cs, w =>
    c.op.effect c.this c.other w r :: history ops r cs (c.op.run ops c.this c.other w).2

/-- The call `m` in the world `w` returns normally, leaves both containers
satisfying the lifetime invariant, and leaves the flags as `f` says. -/
def M.StepOk {α : Type} (m : M T E α) (w : World T E) (f : Ref → Bool) : Prop :=
  (∃ x, (m w).1 = .ok x) ∧ (m w).2.wf ∧ ∀ r, ((m w).2.get r)._has_value = f r

/-- The errors the operations of `T` threw, in order. -/
def fails : List (Event T E) → List E
  | [] => []
  | .fail e :: evs => e :: fails evs
  | _ :: evs => fails evs

/-- An outcome agrees with the failures of `T` that were logged: a normal
return, undefined behaviour and `bad_optional_access` come with no failure
of `T`; an exception `e` from `T` and `std::terminate` come with exactly one. -/
def Outcome.Faithful {α : Type} (strict bad : Bool) : Outcome E α → List E → Prop
  | .ok _, fs => fs = []
  | .undefined, fs => fs = []
  | .throw .bad_optional_access, fs => fs = [] ∧ bad = true
  | .throw (.raised e), fs => fs = [e]
  | .terminate, fs => strict = false ∧ ∃ e, fs = [e]

/-- The computation `m` only extends the log, and its outcome always agrees
with the failures of `T` it logged.  With `bad` unset it never throws
`bad_optional_access`; with `strict` set it never ends in `std::terminate`. -/
def M.Good {α : Type} (strict bad : Bool) (m : M T E α) : Prop :=
  ∀ w, ∃ evs, (m w).2.log = w.log ++ evs ∧ (m w).1.Faithful strict bad (fails evs)

/-- The world in which both containers were default-constructed. -/
def World.fresh : World T E := ⟨⟨false, none⟩, ⟨false, none⟩, []⟩

/-- The events a call added to the log. -/
def newEvents (w w1 : World T E) : List (Event T E) := w1.log.drop w.log.length

/-! ### Lifetime bookkeeping and the native optional -/

/-- The value of the flag of `r` at each construction in the storage of `r`:
the writes of the flag are replayed from `f`, its value before the first event. -/
def flags_at_construct (r : Ref) : Bool → List (Event T E) → List Bool
  | _, [] => []
  | f, .flag q b :: evs => flags_at_construct r (if q = r then b else f) evs
  | f, .construct q _ _ :: evs =>
    if q = r then f :: flags_at_construct r f evs else flags_at_construct r f evs
  | f, _ :: evs => flags_at_construct r f evs

/-- Constructions minus destructions in the storage of `r`. -/
def net (r : Ref) : List (Event T E) → Int
  | [] => 0
  | .construct q _ _ :: evs => (if r = q then 1 else 0) + net r evs
  | .destroy q _ :: evs => (if r = q then -1 else 0) + net r evs
  | _ :: evs => net r evs

/-- No construction ran in storage that held a live object. -/
def no_live_construct : List (Event T E) → Bool
  | [] => true
  | .construct _ live _ :: evs => !live && no_live_construct evs
  | _ :: evs => no_live_construct evs

/-- Every dereference happened with the flag set, or is one of the two by
which the container takes the address of its own storage with the flag
unset: directly before the destructor runs on the object living there, or
directly before a constructor runs in the dead storage. -/
def derefs_ok : List (Event T E) → Bool
  | [] => true
  | .deref _ true :: evs => derefs_ok evs
  | .deref r false :: .destroy q _ :: evs => decide (q = r) && derefs_ok evs
  | .deref r false :: .construct q false _ :: evs => decide (q = r) && derefs_ok evs
  | .deref _ false :: _ => false
  | _ :: evs => derefs_ok evs

/-- The step from `w` to `w1` keeps the lifetime discipline: `w1` satisfies
the lifetime invariant, the log was only extended, no construction ran in
live storage, the dereferences are in order, and in each container
constructions minus destructions is the change of the flag. -/
def World.Life (w w1 : World T E) : Prop :=
  w1.wf ∧ ∃ evs, w1.log = w.log ++ evs ∧ no_live_construct evs = true ∧
    derefs_ok evs = true ∧
    ∀ r, net r evs = ((w1.flags r).toNat : Int) - ((w.flags r).toNat : Int)

/-- The call `m` in the world `w` does not run into undefined behaviour, and
keeps the lifetime discipline when it returns normally. -/
def M.Lives {α : Type} (m : M T E α) (w : World T E) : Prop :=
  (m w).1 ≠ .undefined ∧ ((∃ x, (m w).1 = .ok x) → w.Life (m w).2)

/-- What a call hands back, as a value. -/
inductive Res (T : Type) where
  | unit
  | bool (b : Bool)
  | val (v : T)
  deriving DecidableEq, Repr

/-- Call an operation on `this` and keep what it hands back: the flag for
`has_value()` and the conversion to `bool`, the value the returned reference
designates for `value()` and `emplace`, the returned value for `value_or`. -/
def Op.eval (ops : TOps T U E) (this other : Ref) : Op U → M T E (Res T)
  | .has_value => do return .bool (← cm.has_value this)
  | .operator_bool => do return .bool (← cm.operator_bool this)
  | .value => do
    let p ← cm.value this
    return .val (← load p)
  | .emplace u => do
    let p ← cm.emplace ops this (.forward u)
    return .val (← load p)
  | .value_or u => do return .val (← cm.value_or ops this u)
  | .value_or_move u => do return .val (← cm.value_or_move ops this u)
  | op => do
    op.run ops this other
    return .unit

/-- The abstraction of a container: the value it holds when the flag is set. -/
def optional.abs (o : optional T) : Option T := if o._has_value then o._mem else none

/-- The states of two native optionals. -/
structure NWorld (T : Type) where
  a : Option T
  b : Option T
  deriving DecidableEq, Repr

/-- Look a native optional up. -/
def NWorld.get (n : NWorld T) : Ref → Option T
  | .a => n.a
  | .b => n.b

/-- Replace a native optional. -/
def NWorld.set (n : NWorld T) (r : Ref) (o : Option T) : NWorld T :=
  match r with
  | .a => { n with a := o }
  | .b => { n with b := o }

/-- The abstraction of the world: the log is forgotten. -/
def World.abs (w : World T E) : NWorld T := ⟨w.a.abs, w.b.abs⟩

/-- Modelled from the spec: the native optional (`std::optional`, which the
alias `using std::optional` selects when `CMake_HAVE_CXX_OPTIONAL` is
defined) is not part of the sources.  This is the behaviour the
specification gives for each operation, on the states `none` (disengaged)
and `some v` (engaged), for a `T` whose operations do not throw: `conv`
converts a raw value to `T`, and `ops` only tells what a move of `T` leaves
in its source and in an object that is move-assigned to itself.  Default and empty construction, `reset` and assignment of
the empty marker disengage; copy construction and assignment take the state
of the source; move construction and assignment take the state of the
source and leave an engaged source engaged, holding what the move left
(move assignment of an engaged optional to itself leaves it engaged, holding
what the move assignment of `T` left); in-place and converting construction, converting assignment and `emplace`
engage with the converted value; `swap` exchanges the two states;
`has_value` reports engagement; `value` fails with `bad_optional_access` on
`none` and gives the value otherwise; `value_or` gives the value or the
converted default. -/
def Op.native (ops : TOps T U E) (conv : U → T) (this other : Ref) :
    Op U → NWorld T → Outcome E (Res T) × NWorld T
  | .ctor_default, n => (.ok .unit, n.set this none)
  | .ctor_nullopt, n => (.ok .unit, n.set this none)
  | .ctor_copy, n => (.ok .unit, n.set this (n.get other))
  | .ctor_move, n =>
    match n.get other with
    | some s => (.ok .unit, (n.set other (some (ops.moveCtor s).2)).set this (some s))
    | none => (.ok .unit, n.set this none)
  | .ctor_in_place u, n => (.ok .unit, n.set this (some (conv u)))
  | .ctor_conv u, n => (.ok .unit, n.set this (some (conv u)))
  | .make_optional u, n => (.ok .unit, n.set this (some (conv u)))
  | .make_optional_in_place u, n => (.ok .unit, n.set this (some (conv u)))
  | .assign_nullopt, n => (.ok .unit, n.set this none)
  | .assign_copy, n => (.ok .unit, n.set this (n.get other))
  | .assign_move, n =>
    match n.get other, n.get this with
    | some s, some d =>
      if this = other then (.ok .unit, n.set this (some (ops.selfMoveAssign d).1))
      else (.ok .unit, (n.set other (some (ops.moveAssign d s).2.1)).set this (some s))
    | some s, none => (.ok .unit, (n.set other (some (ops.moveCtor s).2)).set this (some s))
    | none, _ => (.ok .unit, n.set this none)
  | .assign_conv u, n => (.ok .unit, n.set this (some (conv u)))
  | .emplace u, n => (.ok (.val (conv u)), n.set this (some (conv u)))
  | .reset, n => (.ok .unit, n.set this none)
  | .swap, n => (.ok .unit, (n.set this (n.get other)).set other (n.get this))
  | .has_value, n => (.ok (.bool (n.get this).isSome), n)
  | .operator_bool, n => (.ok (.bool (n.get this).isSome), n)
  | .value, n =>
    match n.get this with
    | some v => (.ok (.val v), n)
    | none => (.throw .bad_optional_access, n)
  | .value_or u, n => (.ok (.val ((n.get this).getD (conv u))), n)
  | .value_or_move u, n =>
    match n.get this with
    | some v => (.ok (.val v), n.set this (some (ops.moveCtor v).2))
    | none => (.ok (.val (conv u)), n)

/-! ### A call, whatever its outcome -/

/-- As `derefs_ok`, for a call that may fail: every dereference happened
with the flag set, or is one of the two by which the container takes the
address of its own storage with the flag unset: directly before the
destructor runs on the object living there, or directly before a
constructor runs in the dead storage, whether it completes or throws. -/
def derefs_guarded : List (Event T E) → Bool
  | [] => true
  | .deref _ true :: evs => derefs_guarded evs
  | .deref r false :: .destroy q _ :: evs => decide (q = r) && derefs_guarded evs
  | .deref r false :: .construct q false _ :: evs => decide (q = r) && derefs_guarded evs
  | .deref _ false :: .fail _ :: evs => derefs_guarded evs
  | .deref _ false :: _ => false
  | _ :: evs => derefs_guarded evs

/-- A constructor of `T` threw in the storage of a container: the address of
the storage was taken with the flag unset, and the next step is a failure. -/
def construct_failed : List (Event T E) → Bool
  | [] => false
  | .deref _ false :: .fail _ :: _ => true
  | _ :: evs => construct_failed evs

/-- The call `m` in the world `w`, whatever its outcome, does not run into
undefined behaviour, leaves both containers satisfying the lifetime
invariant and only extends the log, by events in which the dereferences are
guarded; and when it neither ends in `std::terminate` nor had a constructor
of `T` throw in the storage of a container, it leaves the flags as `f`
says. -/
def M.Sound {α : Type} (m : M T E α) (w : World T E) (f : Ref → Bool) : Prop :=
  (m w).1 ≠ .undefined ∧ (m w).2.wf ∧ ∃ evs, (m w).2.log = w.log ++ evs ∧
    derefs_guarded evs = true ∧
    ((m w).1 ≠ .terminate → construct_failed evs = false → ∀ r, (m w).2.flags r = f r)

/-- The arguments of `emplace` can be read while the value of `this` is
rebuilt: they do not refer into a container, or they refer to the value of
an engaged container other than `this`. -/
def Args.readable (w : World T E) (this : Ref) : Args U → Prop
  | .lvalue q => q ≠ this ∧ ∃ s, w.get q = ⟨true, some s⟩
  | .rvalue q => q ≠ this ∧ ∃ s, w.get q = ⟨true, some s⟩
  | .forward _ => True

/-- Every call of the sequence completed: it did not end in `std::terminate`,
and no constructor of `T` threw in the storage of a container. -/
def allComplete (ops : TOps T U E) : List (Call U) → World T E → Prop
  | [], _ => True
  | c :: cs, w =>
    (c.op.run ops c.this c.other w).1 ≠ .terminate ∧
    construct_failed (newEvents w (c.op.run ops c.this c.other w).2) = false ∧
    allComplete ops cs (c.op.run ops c.this c.other w).2

end model

/-! ## Instances of `T` -/

/-- The operations of `int`: nothing throws, a move is a copy. -/
def intOps : TOps Int Int String where
  copyCtor v := .ok v
  moveCtor v := (.ok v, v)
  convCtor u := .ok u
  copyAssign _ s := (s, none)
  moveAssign _ s := (s, s, none)
  convAssign _ u := (u, none)
  swap x y := (y, x, none)
  dtor _ := none
  selfMoveAssign v := (v, none)

/-- The operations of a vector of `int`: nothing throws, a move leaves its
source empty, and so does a move assignment of a vector to itself. -/
def vecOps : TOps (List Int) (List Int) String where
  copyCtor v := .ok v
  moveCtor v := (.ok v, [])
  convCtor u := .ok u
  copyAssign _ s := (s, none)
  moveAssign _ s := (s, [], none)
  convAssign _ u := (u, none)
  swap x y := (y, x, none)
  dtor _ := none
  selfMoveAssign _ := ([], none)

/-- A type over `int` every operation of which throws its own name. -/
def throwingOps : TOps Int Int String where
  copyCtor _ := .error "copy constructor"
  moveCtor v := (.error "move constructor", v)
  convCtor _ := .error "converting constructor"
  copyAssign d _ := (d, some "copy assignment")
  moveAssign d s := (d, s, some "move assignment")
  convAssign d _ := (d, some "converting assignment")
  swap x y := (x, y, some "swap")
  dtor _ := some "destructor"
  selfMoveAssign d := (d, some "move assignment")

/-- A type over `int` whose constructors throw; assignment, swap and
destructor do not. -/
def ctorThrowingOps : TOps Int Int String :=
  { intOps with
    copyCtor := fun _ => .error "copy constructor"
    moveCtor := fun v => (.error "move constructor", v)
    convCtor := fun _ => .error "converting constructor" }

/-- A type over `int` that rejects negative values: its converting
constructor and its converting assignment throw on a negative argument, the
assignment leaving its target as it was; nothing else throws. -/
def pickyOps : TOps Int Int String :=
  { intOps with
    convCtor := fun u => if u < 0 then .error "negative" else .ok u
    convAssign := fun d u => if u < 0 then (d, some "negative") else (u, none) }

/-! ## Lemmas on the world and the monad -/

section lemmas

variable {T U E : Type}

@[simp] theorem M.bind_apply {α β : Type} (m : M T E α) (f : α → M T E β) (w : World T E) :
    (m >>= f) w = M.bind m f w := rfl

@[simp] theorem M.pure_apply {α : Type} (x : α) (w : World T E) :
    (pure x : M T E α) w = (.ok x, w) := rfl

@[simp] theorem World.get_set (w : World T E) (r s : Ref) (o : optional T) :
    (w.set r o).get s = if s = r then o else w.get s := by
  cases r <;> cases s <;> simp [World.get, World.set]

@[simp] theorem World.get_emit (w : World T E) (r : Ref) (ev : Event T E) :
    (w.emit ev).get r = w.get r := by
  cases r <;> rfl

@[simp] theorem World.log_set (w : World T E) (r : Ref) (o : optional T) :
    (w.set r o).log = w.log := by
  cases r <;> rfl

@[simp] theorem World.a_emit (w : World T E) (ev : Event T E) : (w.emit ev).a = w.a := rfl

@[simp] theorem World.b_emit (w : World T E) (ev : Event T E) : (w.emit ev).b = w.b := rfl

@[simp] theorem World.log_emit (w : World T E) (ev : Event T E) :
    (w.emit ev).log = w.log ++ [ev] := rfl

@[simp] theorem World.get_logs (w : World T E) (r : Ref) (evs : List (Event T E)) :
    (w.logs evs).get r = w.get r := by
  cases r <;> rfl

@[simp] theorem World.log_logs (w : World T E) (evs : List (Event T E)) :
    (w.logs evs).log = w.log ++ evs := rfl

@[simp] theorem World.logs_logs (w : World T E) (l1 l2 : List (Event T E)) :
    (w.logs l1).logs l2 = w.logs (l1 ++ l2) := by
  simp [World.logs]

@[simp] theorem World.set_logs (w : World T E) (r : Ref) (o : optional T)
    (l : List (Event T E)) : (w.logs l).set r o = (w.set r o).logs l := by
  cases r <;> rfl

theorem World.ext_get {w1 w2 : World T E} (h : ∀ r, w1.get r = w2.get r)
    (hl : w1.log = w2.log) : w1 = w2 := by
  rcases w1 with ⟨a1, b1, l1⟩
  rcases w2 with ⟨a2, b2, l2⟩
  have ha := h Ref.a
  have hb := h Ref.b
  simp only [World.get] at ha hb hl
  simp [ha, hb, hl]

theorem newEvents_of_log (w w1 : World T E) (l : List (Event T E))
    (h : w1.log = w.log ++ l) : newEvents w w1 = l := by
  simp [newEvents, h]

theorem World.wf_get {w : World T E} (h : w.wf) (r : Ref) : (w.get r).wf := by
  cases r
  · exact h.1
  · exact h.2

theorem optional.wf_cases (o : optional T) (h : o.wf) : o.empty ∨ ∃ v, o.holds v := by
  rcases o with ⟨f, m⟩
  cases f <;> cases m <;> simp [optional.wf, optional.empty, optional.holds] at h ⊢

/-! ### What each member function does, state by state -/

theorem has_value_apply (this : Ref) (w : World T E) :
    has_value this w = (.ok (w.get this)._has_value, w) := by
  simp [has_value, M.bind, M.noexcept, M.read]

theorem operator_bool_apply (this : Ref) (w : World T E) :
    operator_bool this w = (.ok (w.get this)._has_value, w) := by
  simp [operator_bool, has_value, M.bind, M.noexcept, M.read]

theorem operator_star_apply (this : Ref) (w : World T E) :
    operator_star this w = (.ok this, w.logs [.deref this (w.get this)._has_value]) := by
  simp [operator_star, M.bind, M.read, M.emit, World.emit, World.logs]

theorem value_engaged (this : Ref) (w : World T E) (h : (w.get this)._has_value = true) :
    value this w = (.ok this, w.logs [.deref this true]) := by
  simp [value, has_value, operator_star, M.bind, M.noexcept, M.read, M.emit, h, World.emit,
    World.logs]

theorem value_disengaged (this : Ref) (w : World T E) (h : (w.get this)._has_value = false) :
    value this w = (.throw .bad_optional_access, w) := by
  simp [value, has_value, M.bind, M.noexcept, M.read, M.raise, h]

theorem reset_disengaged (ops : TOps T U E) (this : Ref) (w : World T E)
    (h : (w.get this)._has_value = false) : reset ops this w = (.ok (), w) := by
  simp [reset, has_value, M.bind, M.noexcept, M.read, h]

theorem reset_engaged (ops : TOps T U E) (this : Ref) (w : World T E) (v : T)
    (h : w.get this = ⟨true, some v⟩) (hd : ops.dtor v = none) :
    reset ops this w = (.ok (), (w.set this ⟨false, none⟩).logs
      [.flag this false, .deref this false, .destroy this v]) := by
  simp [reset, destroy, T_throw, has_value, operator_star, M.bind, M.noexcept, M.read, M.emit,
    M.set_has_value, M.set_mem, M.load, h, hd]
  apply World.ext_get
  · intro r; by_cases h1 : r = this <;> simp [h1]
  · simp

theorem reset_engaged_fail (ops : TOps T U E) (this : Ref) (w : World T E) (v : T) (e : E)
    (h : w.get this = ⟨true, some v⟩) (hd : ops.dtor v = some e) :
    reset ops this w = (.terminate, (w.set this ⟨false, none⟩).logs
      [.flag this false, .deref this false, .destroy this v, .fail e]) := by
  simp [reset, destroy, T_throw, has_value, operator_star, M.bind, M.noexcept, M.read, M.emit,
    M.raise, M.set_has_value, M.set_mem, M.load, h, hd]
  apply World.ext_get
  · intro r; by_cases h1 : r = this <;> simp [h1]
  · simp

theorem reset_flag (ops : TOps T U E) (this : Ref) (w : World T E) :
    ((reset ops this w).2.get this)._has_value = false := by
  rcases h : w.get this with ⟨f, m⟩
  cases f
  · rw [reset_disengaged ops this w (by simp [h])]
    simp [h]
  · cases m with
    | none =>
      simp [reset, destroy, has_value, operator_star, M.bind, M.noexcept, M.read, M.emit,
        M.set_has_value, M.load, h]
    | some v =>
      cases hd : ops.dtor v with
      | none => rw [reset_engaged ops this w v h hd]; simp
      | some e => rw [reset_engaged_fail ops this w v e h hd]; simp

theorem assign_copy_both (ops : TOps T U E) (this other : Ref) (w : World T E) (d s : T)
    (hd : w.get this = ⟨true, some d⟩) (hs : w.get other = ⟨true, some s⟩)
    (hok : (ops.copyAssign d s).2 = none) :
    assign_copy ops this other w = (.ok this, (w.set this ⟨true, some (ops.copyAssign d s).1⟩).logs
      [.deref other true, .deref this true, .assign this (ops.copyAssign d s).1]) := by
  simp [assign_copy, T_copy_assign, T_throw, value, has_value, operator_star, M.bind, M.noexcept,
    M.read, M.raise, M.emit, M.set_has_value, M.set_mem, M.load, hd, hs, hok]
  apply World.ext_get
  · intro r; simp
  · simp

theorem assign_move_both (ops : TOps T U E) (this other : Ref) (w : World T E) (d s : T)
    (hne : this ≠ other)
    (hd : w.get this = ⟨true, some d⟩) (hs : w.get other = ⟨true, some s⟩)
    (hok : (ops.moveAssign d s).2.2 = none) :
    assign_move ops this other w = (.ok this,
      ((w.set other ⟨true, some (ops.moveAssign d s).2.1⟩).set this
        ⟨true, some (ops.moveAssign d s).1⟩).logs
      [.deref other true, .deref this true, .assign this (ops.moveAssign d s).1]) := by
  simp [assign_move, T_move_assign, T_throw, value, has_value, operator_star, M.bind, M.noexcept,
    M.read, M.raise, M.emit, M.set_has_value, M.set_mem, M.load, hd, hs, hok, hne]
  apply World.ext_get
  · intro r; by_cases h1 : r = this <;> simp [h1, hne, hd, hs]
  · simp

theorem assign_move_both_fail (ops : TOps T U E) (this other : Ref) (w : World T E) (d s : T)
    (e : E) (hne : this ≠ other)
    (hd : w.get this = ⟨true, some d⟩) (hs : w.get other = ⟨true, some s⟩)
    (hok : (ops.moveAssign d s).2.2 = some e) :
    assign_move ops this other w = (.terminate,
      ((w.set other ⟨true, some (ops.moveAssign d s).2.1⟩).set this
        ⟨true, some (ops.moveAssign d s).1⟩).logs
      [.deref other true, .deref this true, .assign this (ops.moveAssign d s).1, .fail e]) := by
  simp [assign_move, T_move_assign, T_throw, value, has_value, operator_star, M.bind, M.noexcept,
    M.read, M.raise, M.emit, M.set_has_value, M.set_mem, M.load, hd, hs, hok, hne]
  apply World.ext_get
  · intro r; by_cases h1 : r = this <;> simp [h1, hne, hd, hs]
  · simp

theorem assign_move_self (ops : TOps T U E) (this : Ref) (w : World T E) (d : T)
    (hd : w.get this = ⟨true, some d⟩) (hok : (ops.selfMoveAssign d).2 = none) :
    assign_move ops this this w = (.ok this,
      (w.set this ⟨true, some (ops.selfMoveAssign d).1⟩).logs
      [.deref this true, .deref this true, .assign this (ops.selfMoveAssign d).1]) := by
  simp [assign_move, T_move_assign, T_throw, value, has_value, operator_star, M.bind, M.noexcept,
    M.read, M.raise, M.emit, M.set_has_value, M.set_mem, M.load, hd, hok]
  apply World.ext_get
  · intro r; by_cases h1 : r = this <;> simp [h1, hd]
  · simp

theorem assign_move_self_fail (ops : TOps T U E) (this : Ref) (w : World T E) (d : T) (e : E)
    (hd : w.get this = ⟨true, some d⟩) (hok : (ops.selfMoveAssign d).2 = some e) :
    assign_move ops this this w = (.terminate,
      (w.set this ⟨true, some (ops.selfMoveAssign d).1⟩).logs
      [.deref this true, .deref this true, .assign this (ops.selfMoveAssign d).1, .fail e]) := by
  simp [assign_move, T_move_assign, T_throw, value, has_value, operator_star, M.bind, M.noexcept,
    M.read, M.raise, M.emit, M.set_has_value, M.set_mem, M.load, hd, hok]
  apply World.ext_get
  · intro r; by_cases h1 : r = this <;> simp [h1, hd]
  · simp

theorem emplace_forward_empty (ops : TOps T U E) (this : Ref) (w : World T E) (x : U) (v : T)
    (h : w.get this = ⟨false, none⟩) (hc : ops.convCtor x = .ok v) :
    emplace ops this (.forward x) w = (.ok this, (w.set this ⟨true, some v⟩).logs
      [.deref this false, .construct this false v, .flag this true, .deref this true]) := by
  simp [emplace, reset, construct, T_made_at, value, has_value, operator_star, M.bind,
    M.noexcept, M.read, M.emit, M.set_has_value, M.set_mem, h, hc]
  apply World.ext_get
  · intro r; by_cases h1 : r = this <;> simp [h1]
  · simp

theorem emplace_forward_engaged (ops : TOps T U E) (this : Ref) (w : World T E) (x : U)
    (old v : T) (h : w.get this = ⟨true, some old⟩) (hd : ops.dtor old = none)
    (hc : ops.convCtor x = .ok v) :
    emplace ops this (.forward x) w = (.ok this, (w.set this ⟨true, some v⟩).logs
      [.flag this false, .deref this false, .destroy this old,
       .deref this false, .construct this false v, .flag this true, .deref this true]) := by
  simp [emplace, reset, destroy, construct, T_made_at, T_throw, value, has_value, operator_star,
    M.bind, M.noexcept, M.read, M.emit, M.set_has_value, M.set_mem, M.load, h, hc, hd]
  apply World.ext_get
  · intro r; by_cases h1 : r = this <;> simp [h1]
  · simp

theorem assign_copy_src_only (ops : TOps T U E) (this other : Ref) (w : World T E) (s v : T)
    (hd : w.get this = ⟨false, none⟩) (hs : w.get other = ⟨true, some s⟩)
    (hc : ops.copyCtor s = .ok v) :
    assign_copy ops this other w = (.ok this, (w.set this ⟨true, some v⟩).logs
      [.deref other true, .deref this false, .construct this false v, .flag this true,
       .deref this true]) := by
  have hne : other ≠ this := by
    intro h; rw [h, hd] at hs; simp at hs
  simp [assign_copy, emplace, reset, construct, T_made_at, value, has_value, operator_star,
    M.bind, M.noexcept, M.read, M.emit, M.set_has_value, M.set_mem, M.load, hd, hs, hc, hne]
  apply World.ext_get
  · intro r; by_cases h1 : r = this <;> simp [h1]
  · simp

theorem assign_move_src_only (ops : TOps T U E) (this other : Ref) (w : World T E) (s v : T)
    (hd : w.get this = ⟨false, none⟩) (hs : w.get other = ⟨true, some s⟩)
    (hc : (ops.moveCtor s).1 = .ok v) :
    assign_move ops this other w = (.ok this,
      ((w.set other ⟨true, some (ops.moveCtor s).2⟩).set this ⟨true, some v⟩).logs
      [.deref other true, .deref this false, .construct this false v, .flag this true,
       .deref this true]) := by
  have hne : other ≠ this := by
    intro h; rw [h, hd] at hs; simp at hs
  have hne2 : this ≠ other := fun h => hne h.symm
  simp [assign_move, emplace, reset, construct, T_made_at, value, has_value, operator_star,
    M.bind, M.noexcept, M.read, M.emit, M.set_has_value, M.set_mem, M.load, hd, hs, hc, hne,
    hne2]
  apply World.ext_get
  · intro r; by_cases h1 : r = this <;> by_cases h2 : r = other <;> simp [h1, h2, hs, hne, hne2]
  · simp

theorem emplace_lvalue_empty (ops : TOps T U E) (this other : Ref) (w : World T E) (s v : T)
    (hd : w.get this = ⟨false, none⟩) (hs : w.get other = ⟨true, some s⟩)
    (hc : ops.copyCtor s = .ok v) :
    emplace ops this (.lvalue other) w = (.ok this, (w.set this ⟨true, some v⟩).logs
      [.deref this false, .construct this false v, .flag this true, .deref this true]) := by
  have hne : other ≠ this := by
    intro h; rw [h, hd] at hs; simp at hs
  simp [emplace, reset, construct, T_made_at, value, has_value, operator_star,
    M.bind, M.noexcept, M.read, M.emit, M.set_has_value, M.set_mem, M.load, hd, hs, hc, hne]
  apply World.ext_get
  · intro r; by_cases h1 : r = this <;> simp [h1]
  · simp

theorem emplace_rvalue_empty (ops : TOps T U E) (this other : Ref) (w : World T E) (s v : T)
    (hd : w.get this = ⟨false, none⟩) (hs : w.get other = ⟨true, some s⟩)
    (hc : (ops.moveCtor s).1 = .ok v) :
    emplace ops this (.rvalue other) w = (.ok this,
      ((w.set other ⟨true, some (ops.moveCtor s).2⟩).set this ⟨true, some v⟩).logs
      [.deref this false, .construct this false v, .flag this true, .deref this true]) := by
  have hne : other ≠ this := by
    intro h; rw [h, hd] at hs; simp at hs
  have hne2 : this ≠ other := fun h => hne h.symm
  simp [emplace, reset, construct, T_made_at, value, has_value, operator_star,
    M.bind, M.noexcept, M.read, M.emit, M.set_has_value, M.set_mem, M.load, hd, hs, hc, hne,
    hne2]
  apply World.ext_get
  · intro r; by_cases h1 : r = this <;> by_cases h2 : r = other <;> simp [h1, h2, hs, hne, hne2]
  · simp

theorem assign_copy_src_empty (ops : TOps T U E) (this other : Ref) (w w1 : World T E)
    (hs : (w.get other)._has_value = false) (hr : reset ops this w = (.ok (), w1)) :
    assign_copy ops this other w = (.ok this, w1) := by
  simp [assign_copy, has_value_apply, M.bind, hs, hr]

theorem assign_move_src_empty (ops : TOps T U E) (this other : Ref) (w w1 : World T E)
    (hs : (w.get other)._has_value = false) (hr : reset ops this w = (.ok (), w1)) :
    assign_move ops this other w = (.ok this, w1) := by
  simp [assign_move, has_value_apply, M.bind, M.noexcept, hs, hr]

theorem World.wf_iff (w : World T E) : w.wf ↔ ∀ r, (w.get r).wf := by
  constructor
  · intro h r; exact World.wf_get h r
  · intro h; exact ⟨h Ref.a, h Ref.b⟩

theorem World.wf_set {w : World T E} (h : w.wf) (r : Ref) (o : optional T) (ho : o.wf) :
    (w.set r o).wf := by
  rw [World.wf_iff] at h ⊢
  intro q
  by_cases hq : q = r <;> simp [hq, ho, h q]

@[simp] theorem World.wf_logs (w : World T E) (l : List (Event T E)) :
    (w.logs l).wf ↔ w.wf := by
  simp [World.wf_iff]

theorem optional.wf_engaged (v : T) : (⟨true, some v⟩ : optional T).wf := rfl

theorem optional.wf_disengaged : (⟨false, none⟩ : optional T).wf := rfl

theorem M.StepOk.of_eq {α : Type} {m : M T E α} {w w1 : World T E} {x : α} {f : Ref → Bool}
    (h : m w = (.ok x, w1)) (hw : w1.wf) (hf : ∀ r, (w1.get r)._has_value = f r) :
    m.StepOk w f := by
  simp only [M.StepOk, h]
  exact ⟨⟨x, rfl⟩, hw, hf⟩

theorem M.StepOk.of_discard {α : Type} {m : M T E α} {w : World T E} {f : Ref → Bool}
    (h : m.StepOk w f) : (discard m).StepOk w f := by
  obtain ⟨⟨x, hx⟩, hw, hf⟩ := h
  rcases hm : m w with ⟨o, w1⟩
  rw [hm] at hx hw hf
  simp only at hx
  subst hx
  have hd : cm.discard m w = (.ok (), w1) := by simp [cm.discard, M.bind, hm]
  exact M.StepOk.of_eq hd hw hf

theorem swap_both (ops : TOps T U E) (this other : Ref) (w : World T E) (x y : T)
    (hx : w.get this = ⟨true, some x⟩) (hy : w.get other = ⟨true, some y⟩)
    (hok : (ops.swap x y).2.2 = none) :
    swap ops this other w = (.ok (),
      ((w.set other ⟨true, some (ops.swap x y).2.1⟩).set this
        ⟨true, some (ops.swap x y).1⟩).logs
      [.deref this true, .deref other true, .swap this other]) := by
  simp [swap, T_swap, T_throw, has_value, operator_star, M.bind, M.noexcept,
    M.read, M.emit, M.set_mem, M.load, hx, hy, hok]
  apply World.ext_get
  · intro r; by_cases h1 : r = this <;> by_cases h2 : this = other <;> simp [h1, h2, hx, hy]
  · simp

theorem swap_first_only (ops : TOps T U E) (this other : Ref) (w : World T E) (x v : T)
    (hx : w.get this = ⟨true, some x⟩) (hy : w.get other = ⟨false, none⟩)
    (hc : (ops.moveCtor x).1 = .ok v) (hd : ops.dtor (ops.moveCtor x).2 = none) :
    swap ops this other w = (.ok (),
      ((w.set other ⟨true, some v⟩).set this ⟨false, none⟩).logs
      [.deref this true, .deref other false, .construct other false v, .flag other true,
       .deref other true, .flag this false, .deref this false,
       .destroy this (ops.moveCtor x).2]) := by
  have hne : this ≠ other := by
    intro h; rw [h, hy] at hx; simp at hx
  have hne2 : other ≠ this := fun h => hne h.symm
  simp [swap, emplace, reset, destroy, construct, T_made_at, T_throw, value, has_value,
    operator_star, M.bind, M.noexcept, M.read, M.emit, M.set_has_value, M.set_mem, M.load,
    hx, hy, hc, hd, hne, hne2]
  apply World.ext_get
  · intro r; by_cases h1 : r = this <;> by_cases h2 : r = other <;> simp [h1, h2, hne, hne2]
  · simp

theorem swap_second_only (ops : TOps T U E) (this other : Ref) (w : World T E) (y v : T)
    (hx : w.get this = ⟨false, none⟩) (hy : w.get other = ⟨true, some y⟩)
    (hc : (ops.moveCtor y).1 = .ok v) (hd : ops.dtor (ops.moveCtor y).2 = none) :
    swap ops this other w = (.ok (),
      ((w.set this ⟨true, some v⟩).set other ⟨false, none⟩).logs
      [.deref other true, .deref this false, .construct this false v, .flag this true,
       .deref this true, .flag other false, .deref other false,
       .destroy other (ops.moveCtor y).2]) := by
  have hne : other ≠ this := by
    intro h; rw [h, hx] at hy; simp at hy
  have hne2 : this ≠ other := fun h => hne h.symm
  simp [swap, emplace, reset, destroy, construct, T_made_at, T_throw, value, has_value,
    operator_star, M.bind, M.noexcept, M.read, M.emit, M.set_has_value, M.set_mem, M.load,
    hx, hy, hc, hd, hne, hne2]
  apply World.ext_get
  · intro r; by_cases h1 : r = this <;> by_cases h2 : r = other <;> simp [h1, h2, hne, hne2]
  · simp

theorem swap_neither (ops : TOps T U E) (this other : Ref) (w : World T E)
    (hx : (w.get this)._has_value = false) (hy : (w.get other)._has_value = false) :
    swap ops this other w = (.ok (), w) := by
  simp [swap, has_value, M.bind, M.noexcept, M.read, hx, hy]

theorem assign_conv_engaged (ops : TOps T U E) (this : Ref) (w : World T E) (d : T) (u : U)
    (hd : w.get this = ⟨true, some d⟩) (hok : (ops.convAssign d u).2 = none) :
    assign_conv ops this u w = (.ok this,
      (w.set this ⟨true, some (ops.convAssign d u).1⟩).logs
      [.deref this true, .assign this (ops.convAssign d u).1]) := by
  simp [assign_conv, T_conv_assign, T_throw, value, has_value, operator_star, M.bind,
    M.noexcept, M.read, M.emit, M.set_mem, M.load, hd, hok]
  apply World.ext_get
  · intro r; by_cases h1 : r = this <;> simp [h1]
  · simp

theorem assign_conv_empty (ops : TOps T U E) (this : Ref) (w : World T E) (u : U) (v : T)
    (hd : w.get this = ⟨false, none⟩) (hc : ops.convCtor u = .ok v) :
    assign_conv ops this u w = (.ok this, (w.set this ⟨true, some v⟩).logs
      [.deref this false, .construct this false v, .flag this true, .deref this true]) := by
  simp [assign_conv, has_value_apply, M.bind, hd, emplace_forward_empty ops this w u v hd hc]

theorem value_or_engaged (ops : TOps T U E) (this : Ref) (w : World T E) (u : U) (v r : T)
    (h : w.get this = ⟨true, some v⟩) (hc : ops.copyCtor v = .ok r) :
    value_or ops this u w = (.ok r, w.logs [.deref this true]) := by
  simp [value_or, T_return_copy, T_made, operator_bool_apply, operator_star_apply, M.bind,
    M.load, h, hc]

theorem value_or_disengaged (ops : TOps T U E) (this : Ref) (w : World T E) (u : U) (r : T)
    (h : (w.get this)._has_value = false) (hc : ops.convCtor u = .ok r) :
    value_or ops this u w = (.ok r, w) := by
  simp [value_or, T_return_conv, T_made, operator_bool_apply, M.bind, h, hc]

theorem value_or_move_engaged (ops : TOps T U E) (this : Ref) (w : World T E) (u : U)
    (v r : T) (h : w.get this = ⟨true, some v⟩) (hc : (ops.moveCtor v).1 = .ok r) :
    value_or_move ops this u w = (.ok r,
      (w.set this ⟨true, some (ops.moveCtor v).2⟩).logs [.deref this true]) := by
  simp [value_or_move, T_return_move, T_made, operator_bool_apply, operator_star_apply, M.bind,
    M.load, M.set_mem, h, hc]

theorem value_or_move_disengaged (ops : TOps T U E) (this : Ref) (w : World T E) (u : U)
    (r : T) (h : (w.get this)._has_value = false) (hc : ops.convCtor u = .ok r) :
    value_or_move ops this u w = (.ok r, w) := by
  simp [value_or_move, T_return_conv, T_made, operator_bool_apply, M.bind, h, hc]

/-! ### Every call returns when `T` does not throw -/

theorem step_reset (ops : TOps T U E) (hnf : ops.NoFail) (this : Ref) (w : World T E)
    (hw : w.wf) :
    (reset ops this).StepOk w (fun r => if r = this then false else w.flags r) := by
  obtain ht | ⟨d, ht⟩ := optional.wf_cases _ (World.wf_get hw this) <;>
  simp only [optional.holds, optional.empty] at ht
  · refine M.StepOk.of_eq (reset_disengaged ops this w (by simp [ht])) hw ?_
    intro r; by_cases h : r = this <;> simp [h, ht, World.flags]
  · refine M.StepOk.of_eq (reset_engaged ops this w d ht (hnf.dtor d)) ?_ ?_
    · simpa using World.wf_set hw _ _ optional.wf_disengaged
    · intro r; by_cases h : r = this <;> simp [h, World.flags]

theorem step_emplace (ops : TOps T U E) (hnf : ops.NoFail) (this : Ref) (w : World T E)
    (hw : w.wf) (u : U) :
    (emplace ops this (.forward u)).StepOk w (fun r => if r = this then true else w.flags r) := by
  obtain ⟨v, hv⟩ := hnf.convCtor u
  obtain ht | ⟨d, ht⟩ := optional.wf_cases _ (World.wf_get hw this) <;>
  simp only [optional.holds, optional.empty] at ht
  · refine M.StepOk.of_eq (emplace_forward_empty ops this w u v ht hv) ?_ ?_
    · simpa using World.wf_set hw _ _ (optional.wf_engaged v)
    · intro r; by_cases h : r = this <;> simp [h, World.flags]
  · refine M.StepOk.of_eq (emplace_forward_engaged ops this w u d v ht (hnf.dtor d) hv) ?_ ?_
    · simpa using World.wf_set hw _ _ (optional.wf_engaged v)
    · intro r; by_cases h : r = this <;> simp [h, World.flags]

theorem step_assign_conv (ops : TOps T U E) (hnf : ops.NoFail) (this : Ref) (w : World T E)
    (hw : w.wf) (u : U) :
    (assign_conv ops this u).StepOk w (fun r => if r = this then true else w.flags r) := by
  obtain ⟨v, hv⟩ := hnf.convCtor u
  obtain ht | ⟨d, ht⟩ := optional.wf_cases _ (World.wf_get hw this) <;>
  simp only [optional.holds, optional.empty] at ht
  · refine M.StepOk.of_eq (assign_conv_empty ops this w u v ht hv) ?_ ?_
    · simpa using World.wf_set hw _ _ (optional.wf_engaged v)
    · intro r; by_cases h : r = this <;> simp [h, World.flags]
  · refine M.StepOk.of_eq (assign_conv_engaged ops this w d u ht (hnf.convAssign d u)) ?_ ?_
    · simpa using World.wf_set hw _ _ (optional.wf_engaged _)
    · intro r; by_cases h : r = this <;> simp [h, World.flags]

theorem step_assign_copy (ops : TOps T U E) (hnf : ops.NoFail) (this other : Ref)
    (w : World T E) (hw : w.wf) :
    (assign_copy ops this other).StepOk w
      (fun r => if r = this then w.flags other else w.flags r) := by
  obtain ht | ⟨d, ht⟩ := optional.wf_cases _ (World.wf_get hw this) <;>
  obtain hs | ⟨s, hs⟩ := optional.wf_cases _ (World.wf_get hw other) <;>
  simp only [optional.holds, optional.empty] at ht hs
  · have hr := reset_disengaged ops this w (by simp [ht])
    refine M.StepOk.of_eq (assign_copy_src_empty ops this other w w (by simp [hs]) hr) hw ?_
    intro r; by_cases h : r = this <;> simp [h, ht, hs, World.flags]
  · obtain ⟨v, hv⟩ := hnf.copyCtor s
    refine M.StepOk.of_eq (assign_copy_src_only ops this other w s v ht hs hv) ?_ ?_
    · simpa using World.wf_set hw _ _ (optional.wf_engaged v)
    · intro r; by_cases h : r = this <;> simp [h, hs, World.flags]
  · have hr := reset_engaged ops this w d ht (hnf.dtor d)
    refine M.StepOk.of_eq (assign_copy_src_empty ops this other w _ (by simp [hs]) hr) ?_ ?_
    · simpa using World.wf_set hw _ _ optional.wf_disengaged
    · intro r; by_cases h : r = this <;> simp [h, hs, World.flags]
  · refine M.StepOk.of_eq (assign_copy_both ops this other w d s ht hs (hnf.copyAssign d s)) ?_ ?_
    · simpa using World.wf_set hw _ _ (optional.wf_engaged _)
    · intro r; by_cases h : r = this <;> simp [h, hs, World.flags]

theorem step_assign_move (ops : TOps T U E) (hnf : ops.NoFail) (this other : Ref)
    (w : World T E) (hw : w.wf) :
    (assign_move ops this other).StepOk w
      (fun r => if r = this then w.flags other else w.flags r) := by
  obtain ht | ⟨d, ht⟩ := optional.wf_cases _ (World.wf_get hw this) <;>
  obtain hs | ⟨s, hs⟩ := optional.wf_cases _ (World.wf_get hw other) <;>
  simp only [optional.holds, optional.empty] at ht hs
  · have hr := reset_disengaged ops this w (by simp [ht])
    refine M.StepOk.of_eq (assign_move_src_empty ops this other w w (by simp [hs]) hr) hw ?_
    intro r; by_cases h : r = this <;> simp [h, ht, hs, World.flags]
  · obtain ⟨v, hv⟩ := hnf.moveCtor s
    refine M.StepOk.of_eq (assign_move_src_only ops this other w s v ht hs hv) ?_ ?_
    · simpa using World.wf_set (World.wf_set hw other _ (optional.wf_engaged _)) this _
        (optional.wf_engaged v)
    · intro r; by_cases h : r = this <;> by_cases h2 : r = other <;>
        simp_all [World.flags]
  · have hr := reset_engaged ops this w d ht (hnf.dtor d)
    refine M.StepOk.of_eq (assign_move_src_empty ops this other w _ (by simp [hs]) hr) ?_ ?_
    · simpa using World.wf_set hw _ _ optional.wf_disengaged
    · intro r; by_cases h : r = this <;> simp [h, hs, World.flags]
  · by_cases hne : this = other
    · subst hne
      refine M.StepOk.of_eq (assign_move_self ops this w d ht (hnf.selfMoveAssign d)) ?_ ?_
      · simpa using World.wf_set hw this _ (optional.wf_engaged _)
      · intro r; by_cases h : r = this <;> simp_all [World.flags]
    · refine M.StepOk.of_eq
        (assign_move_both ops this other w d s hne ht hs (hnf.moveAssign d s)) ?_ ?_
      · simpa using World.wf_set (World.wf_set hw other _ (optional.wf_engaged _)) this _
          (optional.wf_engaged _)
      · intro r; by_cases h : r = this <;> by_cases h2 : r = other <;>
          simp_all [World.flags]

theorem step_swap (ops : TOps T U E) (hnf : ops.NoFail) (this other : Ref)
    (w : World T E) (hw : w.wf) :
    (swap ops this other).StepOk w
      (fun r => if r = this then w.flags other else if r = other then w.flags this
        else w.flags r) := by
  obtain ht | ⟨x, ht⟩ := optional.wf_cases _ (World.wf_get hw this) <;>
  obtain hs | ⟨y, hs⟩ := optional.wf_cases _ (World.wf_get hw other) <;>
  simp only [optional.holds, optional.empty] at ht hs
  · refine M.StepOk.of_eq (swap_neither ops this other w (by simp [ht]) (by simp [hs])) hw ?_
    intro r; by_cases h : r = this <;> by_cases h2 : r = other <;>
      simp [h, h2, ht, hs, World.flags]
  · obtain ⟨v, hv⟩ := hnf.moveCtor y
    have hne : other ≠ this := by
      intro h; rw [h, ht] at hs; simp at hs
    refine M.StepOk.of_eq (swap_second_only ops this other w y v ht hs hv (hnf.dtor _)) ?_ ?_
    · simpa using World.wf_set (World.wf_set hw this _ (optional.wf_engaged v)) other _
        optional.wf_disengaged
    · intro r; by_cases h : r = this <;> by_cases h2 : r = other <;>
        simp_all [World.flags]
  · obtain ⟨v, hv⟩ := hnf.moveCtor x
    have hne : other ≠ this := by
      intro h; rw [h, ht] at hs; simp at hs
    refine M.StepOk.of_eq (swap_first_only ops this other w x v ht hs hv (hnf.dtor _)) ?_ ?_
    · simpa using World.wf_set (World.wf_set hw other _ (optional.wf_engaged v)) this _
        optional.wf_disengaged
    · intro r; by_cases h : r = this <;> by_cases h2 : r = other <;>
        simp_all [World.flags]
  · refine M.StepOk.of_eq (swap_both ops this other w x y ht hs (hnf.swap x y)) ?_ ?_
    · simpa using World.wf_set (World.wf_set hw other _ (optional.wf_engaged _)) this _
        (optional.wf_engaged _)
    · intro r; by_cases h : r = this <;> by_cases h2 : r = other <;>
        simp_all [World.flags]

theorem step_value_or (ops : TOps T U E) (hnf : ops.NoFail) (this : Ref)
    (w : World T E) (hw : w.wf) (u : U) :
    (value_or ops this u).StepOk w w.flags ∧ (value_or_move ops this u).StepOk w w.flags := by
  obtain ⟨c, hc⟩ := hnf.convCtor u
  obtain ht | ⟨x, ht⟩ := optional.wf_cases _ (World.wf_get hw this) <;>
  simp only [optional.holds, optional.empty] at ht
  · exact ⟨M.StepOk.of_eq (value_or_disengaged ops this w u c (by simp [ht]) hc) hw
        (fun _ => rfl),
      M.StepOk.of_eq (value_or_move_disengaged ops this w u c (by simp [ht]) hc) hw
        (fun _ => rfl)⟩
  · obtain ⟨v, hv⟩ := hnf.copyCtor x
    obtain ⟨v2, hv2⟩ := hnf.moveCtor x
    refine ⟨M.StepOk.of_eq (value_or_engaged ops this w u x v ht hv) (by simpa using hw)
        (fun r => by simp [World.flags]),
      M.StepOk.of_eq (value_or_move_engaged ops this w u x v2 ht hv2) ?_ ?_⟩
    · simpa using World.wf_set hw _ _ (optional.wf_engaged _)
    · intro r; by_cases h : r = this <;> simp [h, ht, World.flags]

theorem M.StepOk.of_noexcept {α : Type} {m : M T E α} {w : World T E} {f : Ref → Bool}
    (h : m.StepOk w f) : (M.noexcept m).StepOk w f := by
  obtain ⟨⟨x, hx⟩, hw, hf⟩ := h
  rcases hm : m w with ⟨o, w1⟩
  rw [hm] at hx hw hf
  simp only at hx
  subst hx
  have hd : M.noexcept m w = (.ok x, w1) := by simp [M.noexcept, hm]
  exact M.StepOk.of_eq hd hw hf

theorem M.StepOk.after_init {α : Type} {m : M T E α} {w : World T E} {f : Ref → Bool}
    (this : Ref) (h : m.StepOk (w.set this ⟨false, none⟩) f) :
    (do init this; let _ ← m).StepOk w f := by
  obtain ⟨⟨x, hx⟩, hw, hf⟩ := h
  rcases hm : m (w.set this ⟨false, none⟩) with ⟨o, w1⟩
  rw [hm] at hx hw hf
  simp only at hx
  subst hx
  have hd : (do init this; let _ ← m : M T E Unit) w = (.ok (), w1) := by
    simp [init, M.bind, hm]
  exact M.StepOk.of_eq hd hw hf

theorem step_init (this : Ref) (w : World T E) (hw : w.wf) :
    (init this : M T E Unit).StepOk w (fun r => if r = this then false else w.flags r) := by
  have h0 : (init this : M T E Unit) w = (.ok (), w.set this ⟨false, none⟩) := rfl
  refine M.StepOk.of_eq h0 (World.wf_set hw _ _ optional.wf_disengaged) ?_
  intro r; by_cases h : r = this <;> simp [h, World.flags]

theorem step_has_value (this : Ref) (w : World T E) (hw : w.wf) :
    (has_value this).StepOk w w.flags ∧ (operator_bool this).StepOk w w.flags :=
  ⟨M.StepOk.of_eq (has_value_apply this w) hw (fun _ => rfl),
   M.StepOk.of_eq (operator_bool_apply this w) hw (fun _ => rfl)⟩

theorem step_value (this : Ref) (w : World T E) (hw : w.wf) (h : w.flags this = true) :
    (value this).StepOk w w.flags :=
  M.StepOk.of_eq (value_engaged this w h) (by simpa using hw) (fun r => by simp [World.flags])

theorem step_assign_nullopt (ops : TOps T U E) (hnf : ops.NoFail) (this : Ref) (w : World T E)
    (hw : w.wf) :
    (assign_nullopt ops this).StepOk w (fun r => if r = this then false else w.flags r) := by
  obtain ⟨⟨x, hx⟩, hw1, hf⟩ := step_reset ops hnf this w hw
  rcases hm : reset ops this w with ⟨o, w1⟩
  rw [hm] at hx hw1 hf
  simp only at hx
  subst hx
  have hd : assign_nullopt ops this w = (.ok this, w1) := by
    simp [assign_nullopt, M.bind, M.noexcept, hm]
  exact M.StepOk.of_eq hd hw1 hf

/-- Every operation but `value()` returns normally and keeps the lifetime
invariant when `T` does not throw; so does `value()` on an engaged container. -/
theorem Op.run_stepOk (ops : TOps T U E) (hnf : ops.NoFail) (op : Op U) (this other : Ref)
    (w : World T E) (hw : w.wf) (hv : op = .value → w.flags this = true) :
    ∃ f, (op.run ops this other).StepOk w f := by
  have hi : (w.set this ⟨false, none⟩).wf := World.wf_set hw _ _ optional.wf_disengaged
  cases op with
  | ctor_default => exact ⟨_, (step_init this w hw).of_noexcept⟩
  | ctor_nullopt =>
    refine ⟨_, M.StepOk.of_noexcept (f := fun r => if r = this then false else w.flags r) ?_⟩
    exact step_init this w hw
  | ctor_copy => exact ⟨_, M.StepOk.after_init this (step_assign_copy ops hnf this other _ hi)⟩
  | ctor_move =>
    exact ⟨_, (M.StepOk.after_init this (step_assign_move ops hnf this other _ hi)).of_noexcept⟩
  | ctor_in_place u => exact ⟨_, M.StepOk.after_init this (step_emplace ops hnf this _ hi u)⟩
  | ctor_conv u => exact ⟨_, M.StepOk.after_init this (step_emplace ops hnf this _ hi u)⟩
  | make_optional u => exact ⟨_, M.StepOk.after_init this (step_emplace ops hnf this _ hi u)⟩
  | make_optional_in_place u =>
    exact ⟨_, M.StepOk.after_init this (step_emplace ops hnf this _ hi u)⟩
  | assign_nullopt => exact ⟨_, (step_assign_nullopt ops hnf this w hw).of_discard⟩
  | assign_copy => exact ⟨_, (step_assign_copy ops hnf this other w hw).of_discard⟩
  | assign_move => exact ⟨_, (step_assign_move ops hnf this other w hw).of_discard⟩
  | assign_conv u => exact ⟨_, (step_assign_conv ops hnf this w hw u).of_discard⟩
  | emplace u => exact ⟨_, (step_emplace ops hnf this w hw u).of_discard⟩
  | reset => exact ⟨_, step_reset ops hnf this w hw⟩
  | swap => exact ⟨_, step_swap ops hnf this other w hw⟩
  | has_value => exact ⟨_, (step_has_value this w hw).1.of_discard⟩
  | operator_bool => exact ⟨_, (step_has_value this w hw).2.of_discard⟩
  | value => exact ⟨_, (step_value this w hw (hv rfl)).of_discard⟩
  | value_or u => exact ⟨_, (step_value_or ops hnf this w hw u).1.of_discard⟩
  | value_or_move u => exact ⟨_, (step_value_or ops hnf this w hw u).2.of_discard⟩

/-- After a call that is not a constructor, when `T` does not throw, the
lifetime invariant holds and every flag is what the effect of the call
makes of it. -/
theorem Op.run_flags (ops : TOps T U E) (hnf : ops.NoFail) (op : Op U)
    (hc : op.is_ctor = false) (this other : Ref) (w : World T E) (hw : w.wf) :
    (op.run ops this other w).2.wf ∧
    ∀ r, (op.run ops this other w).2.flags r = (op.effect this other w r).apply (w.flags r) := by
  have key : ∀ {f : Ref → Bool}, (op.run ops this other).StepOk w f →
      (∀ r, f r = (op.effect this other w r).apply (w.flags r)) →
      (op.run ops this other w).2.wf ∧
      ∀ r, (op.run ops this other w).2.flags r
        = (op.effect this other w r).apply (w.flags r) :=
    fun h hf => ⟨h.2.1, fun r => (h.2.2 r).trans (hf r)⟩
  cases op with
  | ctor_default => simp [Op.is_ctor] at hc
  | ctor_nullopt => simp [Op.is_ctor] at hc
  | ctor_copy => simp [Op.is_ctor] at hc
  | ctor_move => simp [Op.is_ctor] at hc
  | ctor_in_place u => simp [Op.is_ctor] at hc
  | ctor_conv u => simp [Op.is_ctor] at hc
  | make_optional u => simp [Op.is_ctor] at hc
  | make_optional_in_place u => simp [Op.is_ctor] at hc
  | assign_nullopt =>
    refine key (step_assign_nullopt ops hnf this w hw).of_discard ?_
    intro r; by_cases h1 : r = this <;> simp [Op.effect, Effect.apply, h1]
  | assign_copy =>
    refine key (step_assign_copy ops hnf this other w hw).of_discard ?_
    intro r; by_cases h1 : r = this <;> cases hfo : w.flags other <;>
      simp [Op.effect, Effect.apply, h1, hfo]
  | assign_move =>
    refine key (step_assign_move ops hnf this other w hw).of_discard ?_
    intro r; by_cases h1 : r = this <;> cases hfo : w.flags other <;>
      simp [Op.effect, Effect.apply, h1, hfo]
  | assign_conv u =>
    refine key (step_assign_conv ops hnf this w hw u).of_discard ?_
    intro r; by_cases h1 : r = this <;> simp [Op.effect, Effect.apply, h1]
  | emplace u =>
    refine key (step_emplace ops hnf this w hw u).of_discard ?_
    intro r; by_cases h1 : r = this <;> simp [Op.effect, Effect.apply, h1]
  | reset =>
    refine key (step_reset ops hnf this w hw) ?_
    intro r; by_cases h1 : r = this <;> simp [Op.effect, Effect.apply, h1]
  | swap =>
    refine key (step_swap ops hnf this other w hw) ?_
    intro r
    by_cases h1 : r = this <;> by_cases h2 : r = other <;>
      cases hft : w.flags this <;> cases hfo : w.flags other <;>
      simp_all [Op.effect, Effect.apply]
  | has_value =>
    exact key (step_has_value this w hw).1.of_discard (fun r => by simp [Op.effect, Effect.apply])
  | operator_bool =>
    exact key (step_has_value this w hw).2.of_discard (fun r => by simp [Op.effect, Effect.apply])
  | value =>
    cases hf : w.flags this with
    | true =>
      exact key (step_value this w hw hf).of_discard (fun r => by simp [Op.effect, Effect.apply])
    | false =>
      have hv : Op.run ops this other Op.value w = (.throw .bad_optional_access, w) := by
        simp [Op.run, cm.discard, M.bind, value_disengaged this w hf]
      rw [hv]
      exact ⟨hw, fun r => by simp [Op.effect, Effect.apply]⟩
  | value_or u =>
    exact key (step_value_or ops hnf this w hw u).1.of_discard
      (fun r => by simp [Op.effect, Effect.apply])
  | value_or_move u =>
    exact key (step_value_or ops hnf this w hw u).2.of_discard
      (fun r => by simp [Op.effect, Effect.apply])

/-- Folding the effects over a flag gives `true` exactly when an engaging
effect is followed by no disengaging one, or the flag was set and no
disengaging effect occurs at all. -/
theorem Effect.foldl_apply (l : List Effect) (f0 : Bool) :
    l.foldl (fun b e => e.apply b) f0 = true ↔
      (∃ l1 l2, l = l1 ++ Effect.engaging :: l2 ∧ Effect.disengaging ∉ l2) ∨
      (f0 = true ∧ Effect.disengaging ∉ l) := by
  induction l generalizing f0 with
  | nil => simp
  | cons e t ih =>
    rw [List.foldl_cons, ih]
    constructor
    · rintro (⟨l1, l2, rfl, h2⟩ | ⟨ha, ht⟩)
      · exact Or.inl ⟨e :: l1, l2, rfl, h2⟩
      · cases e with
        | engaging => exact Or.inl ⟨[], t, rfl, ht⟩
        | disengaging => simp [Effect.apply] at ha
        | neutral =>
          refine Or.inr ⟨by simpa [Effect.apply] using ha, ?_⟩
          simpa using ht
    · rintro (⟨l1, l2, h1, h2⟩ | ⟨hf, hd⟩)
      · cases l1 with
        | nil =>
          simp only [List.nil_append, List.cons.injEq] at h1
          obtain ⟨rfl, rfl⟩ := h1
          exact Or.inr ⟨rfl, h2⟩
        | cons x l1 =>
          simp only [List.cons_append, List.cons.injEq] at h1
          exact Or.inl ⟨l1, l2, h1.2, h2⟩
      · simp only [List.mem_cons, not_or] at hd
        refine Or.inr ⟨?_, hd.2⟩
        cases e with
        | engaging => rfl
        | disengaging => exact absurd rfl hd.1
        | neutral => simpa [Effect.apply] using hf

/-! ### Failures of `T`: what reaches the caller -/

theorem fails_append (l1 l2 : List (Event T E)) : fails (l1 ++ l2) = fails l1 ++ fails l2 := by
  induction l1 with
  | nil => rfl
  | cons ev t ih => cases ev <;> simp [fails, ih]

theorem M.Good.pure {α : Type} (s b : Bool) (x : α) : (Pure.pure x : M T E α).Good s b := by
  intro w
  exact ⟨[], by simp, by simp [Outcome.Faithful, fails]⟩

theorem M.Good.bind {α β : Type} {s b : Bool} {m : M T E α} {f : α → M T E β}
    (hm : m.Good s b) (hf : ∀ x, (f x).Good s b) : (m >>= f).Good s b := by
  intro w
  obtain ⟨evs1, hl1, h1⟩ := hm w
  rcases hmw : m w with ⟨o, w1⟩
  rw [hmw] at hl1 h1
  simp only at hl1 h1
  cases o with
  | ok x =>
    obtain ⟨evs2, hl2, h2⟩ := hf x w1
    simp only [Outcome.Faithful] at h1
    refine ⟨evs1 ++ evs2, ?_, ?_⟩
    · simp [M.bind, hmw, hl2, hl1]
    · simpa [M.bind, hmw, fails_append, h1] using h2
  | throw x =>
    refine ⟨evs1, by simp [M.bind, hmw, hl1], ?_⟩
    simp only [M.bind_apply, M.bind, hmw]
    cases x <;> simpa [Outcome.Faithful] using h1
  | terminate =>
    refine ⟨evs1, by simp [M.bind, hmw, hl1], ?_⟩
    simp only [M.bind_apply, M.bind, hmw]
    simpa [Outcome.Faithful] using h1
  | undefined =>
    refine ⟨evs1, by simp [M.bind, hmw, hl1], ?_⟩
    simp only [M.bind_apply, M.bind, hmw]
    simpa [Outcome.Faithful] using h1

theorem M.Good.noexcept {α : Type} {s : Bool} {m : M T E α}
    (hm : m.Good s false) : (M.noexcept m).Good false false := by
  intro w
  obtain ⟨evs1, hl1, h1⟩ := hm w
  rcases hmw : m w with ⟨o, w1⟩
  rw [hmw] at hl1 h1
  simp only at hl1 h1
  refine ⟨evs1, ?_, ?_⟩
  · cases o <;> simp [M.noexcept, hmw, hl1]
  · cases o with
    | ok x => simpa [M.noexcept, hmw, Outcome.Faithful] using h1
    | throw x =>
      cases x with
      | bad_optional_access => simp [Outcome.Faithful] at h1
      | raised e =>
        simp only [Outcome.Faithful] at h1
        simpa [M.noexcept, hmw, Outcome.Faithful] using ⟨e, h1⟩
    | terminate =>
      simp only [Outcome.Faithful] at h1
      simpa [M.noexcept, hmw, Outcome.Faithful] using h1.2
    | undefined => simpa [M.noexcept, hmw, Outcome.Faithful] using h1

theorem M.Good.ite {α : Type} {s b : Bool} (c : Prop) [Decidable c] {m1 m2 : M T E α}
    (h1 : m1.Good s b) (h2 : m2.Good s b) : (if c then m1 else m2).Good s b := by
  split
  · exact h1
  · exact h2

theorem M.Good.of_silent {α : Type} (s b : Bool) {m : M T E α}
    (h : ∀ w, ∃ evs, (m w).2.log = w.log ++ evs ∧ fails evs = [] ∧
      ((∃ x, (m w).1 = .ok x) ∨ (m w).1 = .undefined)) : m.Good s b := by
  intro w
  obtain ⟨evs, hl, hf, ho⟩ := h w
  refine ⟨evs, hl, ?_⟩
  rcases ho with ⟨x, hx⟩ | hx <;> rw [hx] <;> simpa [Outcome.Faithful] using hf

theorem M.Good.emit (s b : Bool) (ev : Event T E) (h : fails [ev] = []) :
    (M.emit ev).Good s b :=
  M.Good.of_silent s b (fun w => ⟨[ev], by simp [M.emit], h, Or.inl ⟨(), rfl⟩⟩)

theorem M.Good.read (s b : Bool) (r : Ref) : (M.read r : M T E _).Good s b :=
  M.Good.of_silent s b (fun w => ⟨[], by simp [M.read], rfl, Or.inl ⟨_, rfl⟩⟩)

theorem M.Good.set_has_value (s b : Bool) (r : Ref) (v : Bool) :
    (M.set_has_value r v : M T E _).Good s b :=
  M.Good.of_silent s b (fun w => ⟨[.flag r v], by simp [M.set_has_value], rfl, Or.inl ⟨_, rfl⟩⟩)

theorem M.Good.set_mem (s b : Bool) (r : Ref) (v : Option T) :
    (M.set_mem r v : M T E _).Good s b :=
  M.Good.of_silent s b (fun w => ⟨[], by simp [M.set_mem], rfl, Or.inl ⟨_, rfl⟩⟩)

theorem M.Good.load (s b : Bool) (r : Ref) : (M.load r : M T E _).Good s b :=
  M.Good.of_silent s b (fun w => ⟨[], by
    simp only [M.load]; split <;> simp, rfl, by
    simp only [M.load]; split <;> simp⟩)

theorem T_throw_none (w : World T E) : T_throw (none : Option E) w = (.ok (), w) := rfl

theorem T_throw_some (e : E) (w : World T E) :
    T_throw (some e) w = (.throw (.raised e), w.emit (.fail e)) := rfl

theorem T_made_ok (v : T) (w : World T E) : T_made (.ok v : Except E T) w = (.ok v, w) := rfl

theorem T_made_error (e : E) (w : World T E) :
    T_made (.error e : Except E T) w = (.throw (.raised e), w.emit (.fail e)) := rfl

theorem T_made_at_ok (p : Ref) (live : Bool) (v : T) (w : World T E) :
    T_made_at p live (.ok v : Except E T) w
      = (.ok (), (w.set p { w.get p with _mem := some v }).emit (.construct p live v)) := rfl

theorem T_made_at_error (p : Ref) (live : Bool) (e : E) (w : World T E) :
    T_made_at p live (.error e : Except E T) w
      = (.throw (.raised e), w.emit (.fail e)) := rfl

theorem M.Good.T_throw (s b : Bool) (err : Option E) : (T_throw err : M T E _).Good s b := by
  intro w
  cases err with
  | none => exact ⟨[], by simp [T_throw_none], by simp [T_throw_none, Outcome.Faithful, fails]⟩
  | some e =>
    exact ⟨[.fail e], by simp [T_throw_some], by simp [T_throw_some, Outcome.Faithful, fails]⟩

theorem M.Good.T_made (s b : Bool) (r : Except E T) : (T_made r : M T E _).Good s b := by
  intro w
  cases r with
  | ok v => exact ⟨[], by simp [T_made_ok], by simp [T_made_ok, Outcome.Faithful, fails]⟩
  | error e =>
    exact ⟨[.fail e], by simp [T_made_error], by simp [T_made_error, Outcome.Faithful, fails]⟩

theorem M.Good.T_made_at (s b : Bool) (p : Ref) (live : Bool) (r : Except E T) :
    (T_made_at p live r : M T E _).Good s b := by
  intro w
  cases r with
  | ok v =>
    exact ⟨[.construct p live v], by simp [T_made_at_ok],
      by simp [T_made_at_ok, Outcome.Faithful, fails]⟩
  | error e =>
    exact ⟨[.fail e], by simp [T_made_at_error],
      by simp [T_made_at_error, Outcome.Faithful, fails]⟩

theorem good_has_value (s b : Bool) (this : Ref) : (has_value this : M T E _).Good s b :=
  M.Good.of_silent s b (fun w => ⟨[], by simp [has_value_apply], rfl,
    Or.inl ⟨_, by rw [has_value_apply]⟩⟩)

theorem good_operator_star (s b : Bool) (this : Ref) :
    (operator_star this : M T E _).Good s b :=
  M.Good.of_silent s b (fun w => ⟨[.deref this (w.get this)._has_value],
    by rw [operator_star_apply]; rfl, rfl, Or.inl ⟨_, by rw [operator_star_apply]⟩⟩)

theorem good_destroy (s b : Bool) (ops : TOps T U E) (p : Ref) : (destroy ops p).Good s b := by
  unfold destroy
  refine M.Good.bind (M.Good.load s b p) (fun v => ?_)
  refine M.Good.bind (M.Good.set_mem s b p none) (fun _ => ?_)
  refine M.Good.bind (M.Good.emit s b _ rfl) (fun _ => ?_)
  exact M.Good.T_throw s b _

theorem good_reset (ops : TOps T U E) (this : Ref) : (reset ops this).Good false false := by
  unfold reset
  refine M.Good.noexcept (s := false) ?_
  refine M.Good.bind (good_has_value _ _ this) (fun f => ?_)
  refine M.Good.ite _ ?_ (M.Good.pure _ _ _)
  refine M.Good.bind (M.Good.set_has_value _ _ _ _) (fun _ => ?_)
  refine M.Good.bind (good_operator_star _ _ _) (fun _ => ?_)
  exact good_destroy _ _ _ _

theorem good_value (s : Bool) (this : Ref) : (value this : M T E _).Good s true := by
  intro w
  cases h : (w.get this)._has_value with
  | false =>
    exact ⟨[], by simp [value_disengaged this w h],
      by simp [value_disengaged this w h, Outcome.Faithful, fails]⟩
  | true =>
    exact ⟨[.deref this true], by simp [value_engaged this w h],
      by simp [value_engaged this w h, Outcome.Faithful, fails]⟩

theorem good_engage_value (s : Bool) (this : Ref) :
    (M.set_has_value this true >>= fun _ => value this : M T E _).Good s false := by
  refine M.Good.of_silent s false (fun w => ⟨[.flag this true, .deref this true], ?_, rfl, ?_⟩)
  · simp only [M.bind_apply, M.bind, M.set_has_value]
    rw [value_engaged _ _ (by simp)]
    simp
  · simp only [M.bind_apply, M.bind, M.set_has_value]
    rw [value_engaged _ _ (by simp)]
    exact Or.inl ⟨_, rfl⟩

theorem good_guarded_value {β : Type} {s : Bool} (this : Ref) {k : Ref → M T E β}
    {m2 : M T E β} (hk : ∀ d, (k d).Good s false) (h2 : m2.Good s false) :
    (has_value this >>= fun f => if f = true then (value this >>= k) else m2).Good s false := by
  intro w
  cases h : (w.get this)._has_value with
  | false =>
    obtain ⟨evs, hl, hf⟩ := h2 w
    exact ⟨evs, by simpa [M.bind, has_value_apply, h] using hl,
      by simpa [M.bind, has_value_apply, h] using hf⟩
  | true =>
    obtain ⟨evs, hl, hf⟩ := hk this (w.logs [.deref this true])
    refine ⟨.deref this true :: evs, ?_, ?_⟩
    · simpa [M.bind, has_value_apply, h, value_engaged this w h] using hl
    · simpa [M.bind, has_value_apply, h, value_engaged this w h, fails] using hf

theorem good_guarded_operands {β : Type} {s : Bool} (this other : Ref)
    {k : Ref → Ref → M T E β} {m2 : M T E β} (hk : ∀ r d, (k r d).Good s false)
    (h2 : m2.Good s false) :
    (has_value this >>= fun f =>
      if f = true then (operator_star other >>= fun r => value this >>= k r) else m2).Good
      s false := by
  intro w
  cases h : (w.get this)._has_value with
  | false =>
    obtain ⟨evs, hl, hf⟩ := h2 w
    exact ⟨evs, by simpa [M.bind, has_value_apply, h] using hl,
      by simpa [M.bind, has_value_apply, h] using hf⟩
  | true =>
    have hv := value_engaged this (w.logs [.deref other (w.get other)._has_value])
      (by simpa using h)
    obtain ⟨evs, hl, hf⟩ := hk other this
      (w.logs [.deref other (w.get other)._has_value, .deref this true])
    refine ⟨.deref other (w.get other)._has_value :: .deref this true :: evs, ?_, ?_⟩
    · simpa [M.bind, has_value_apply, h, operator_star_apply, hv] using hl
    · simpa [M.bind, has_value_apply, h, operator_star_apply, hv, fails] using hf

theorem good_construct (s b : Bool) (ops : TOps T U E) (p : Ref) (args : Args U) :
    (construct ops p args).Good s b := by
  unfold construct
  refine M.Good.bind (M.Good.read s b p) (fun o => ?_)
  cases args with
  | lvalue q =>
    exact M.Good.bind (M.Good.load s b q) (fun v => M.Good.T_made_at s b _ _ _)
  | rvalue q =>
    exact M.Good.bind (M.Good.load s b q) (fun v =>
      M.Good.bind (M.Good.set_mem s b _ _) (fun _ => M.Good.T_made_at s b _ _ _))
  | forward u => exact M.Good.T_made_at s b _ _ _

theorem good_emplace {s : Bool} (ops : TOps T U E) (this : Ref) (args : Args U)
    (hr : (reset ops this).Good s false) : (emplace ops this args).Good s false := by
  unfold emplace
  refine M.Good.bind hr (fun _ => ?_)
  refine M.Good.bind (good_operator_star _ _ _) (fun p => ?_)
  refine M.Good.bind (good_construct _ _ _ _ _) (fun _ => ?_)
  exact good_engage_value s this

theorem good_T_copy_assign (s b : Bool) (ops : TOps T U E) (d r : Ref) :
    (T_copy_assign ops d r).Good s b := by
  unfold T_copy_assign
  refine M.Good.bind (M.Good.load s b d) (fun dv => ?_)
  refine M.Good.bind (M.Good.load s b r) (fun sv => ?_)
  refine M.Good.bind (M.Good.set_mem s b _ _) (fun _ => ?_)
  refine M.Good.bind (M.Good.emit s b _ rfl) (fun _ => ?_)
  exact M.Good.T_throw s b _

theorem good_T_move_assign (s b : Bool) (ops : TOps T U E) (d r : Ref) :
    (T_move_assign ops d r).Good s b := by
  unfold T_move_assign
  refine M.Good.bind (M.Good.load s b d) (fun dv => ?_)
  refine M.Good.bind (M.Good.load s b r) (fun sv => ?_)
  refine M.Good.ite _ ?_ ?_
  · refine M.Good.bind (M.Good.set_mem s b _ _) (fun _ => ?_)
    refine M.Good.bind (M.Good.emit s b _ rfl) (fun _ => ?_)
    exact M.Good.T_throw s b _
  · refine M.Good.bind (M.Good.set_mem s b _ _) (fun _ => ?_)
    refine M.Good.bind (M.Good.set_mem s b _ _) (fun _ => ?_)
    refine M.Good.bind (M.Good.emit s b _ rfl) (fun _ => ?_)
    exact M.Good.T_throw s b _

theorem good_T_conv_assign (s b : Bool) (ops : TOps T U E) (d : Ref) (u : U) :
    (T_conv_assign ops d u).Good s b := by
  unfold T_conv_assign
  refine M.Good.bind (M.Good.load s b d) (fun dv => ?_)
  refine M.Good.bind (M.Good.set_mem s b _ _) (fun _ => ?_)
  refine M.Good.bind (M.Good.emit s b _ rfl) (fun _ => ?_)
  exact M.Good.T_throw s b _

theorem good_T_swap (s b : Bool) (ops : TOps T U E) (x y : Ref) :
    (T_swap ops x y).Good s b := by
  unfold T_swap
  refine M.Good.bind (M.Good.load s b x) (fun xv => ?_)
  refine M.Good.bind (M.Good.load s b y) (fun yv => ?_)
  refine M.Good.bind (M.Good.set_mem s b _ _) (fun _ => ?_)
  refine M.Good.bind (M.Good.set_mem s b _ _) (fun _ => ?_)
  refine M.Good.bind (M.Good.emit s b _ rfl) (fun _ => ?_)
  exact M.Good.T_throw s b _

theorem good_assign_copy {s : Bool} (ops : TOps T U E) (this other : Ref)
    (hr : (reset ops this).Good s false) : (assign_copy ops this other).Good s false := by
  unfold assign_copy
  refine M.Good.bind (good_has_value _ _ other) (fun f1 => ?_)
  dsimp only
  refine M.Good.ite _ ?_ ?_
  · refine good_guarded_operands this other (fun r d => ?_) ?_
    · exact M.Good.bind (good_T_copy_assign _ _ _ _ _) (fun _ => M.Good.pure _ _ _)
    · refine M.Good.bind (good_operator_star _ _ _) (fun r => ?_)
      refine M.Good.bind (good_emplace ops this _ hr) (fun _ => ?_)
      exact M.Good.bind (M.Good.pure _ _ _) (fun _ => M.Good.pure _ _ _)
  · exact M.Good.bind hr (fun _ => M.Good.pure _ _ _)

theorem good_operator_bool (s b : Bool) (this : Ref) :
    (operator_bool this : M T E _).Good s b :=
  M.Good.of_silent s b (fun w => ⟨[], by simp [operator_bool_apply], rfl,
    Or.inl ⟨_, by rw [operator_bool_apply]⟩⟩)

theorem good_reset_strict (ops : TOps T U E) (hd : ∀ v, ops.dtor v = none) (this : Ref) :
    (reset ops this).Good true false := by
  refine M.Good.of_silent _ _ (fun w => ?_)
  rcases h : w.get this with ⟨f, m⟩
  cases f with
  | false =>
    exact ⟨[], by simp [reset_disengaged ops this w (by simp [h])], rfl,
      Or.inl ⟨(), by rw [reset_disengaged ops this w (by simp [h])]⟩⟩
  | true =>
    cases m with
    | none =>
      refine ⟨[.flag this false, .deref this false], ?_, rfl, Or.inr ?_⟩ <;>
      simp [reset, destroy, has_value, operator_star, M.bind, M.noexcept, M.read, M.emit,
        M.set_has_value, M.load, h]
    | some v =>
      exact ⟨[.flag this false, .deref this false, .destroy this v],
        by rw [reset_engaged ops this w v h (hd v)]; simp, rfl,
        Or.inl ⟨(), by rw [reset_engaged ops this w v h (hd v)]⟩⟩

theorem good_assign_move (ops : TOps T U E) (this other : Ref) :
    (assign_move ops this other).Good false false := by
  unfold assign_move
  refine M.Good.noexcept (s := false) ?_
  refine M.Good.bind (good_has_value _ _ other) (fun f1 => ?_)
  dsimp only
  refine M.Good.ite _ ?_ ?_
  · refine good_guarded_operands this other (fun r d => ?_) ?_
    · exact M.Good.bind (good_T_move_assign _ _ _ _ _) (fun _ => M.Good.pure _ _ _)
    · refine M.Good.bind (good_operator_star _ _ _) (fun r => ?_)
      refine M.Good.bind (good_emplace ops this _ (good_reset ops this)) (fun _ => ?_)
      exact M.Good.bind (M.Good.pure _ _ _) (fun _ => M.Good.pure _ _ _)
  · exact M.Good.bind (good_reset ops this) (fun _ => M.Good.pure _ _ _)

theorem good_assign_conv {s : Bool} (ops : TOps T U E) (this : Ref) (u : U)
    (hr : (reset ops this).Good s false) : (assign_conv ops this u).Good s false := by
  unfold assign_conv
  dsimp only
  refine good_guarded_value this (fun d => ?_) ?_
  · exact M.Good.bind (good_T_conv_assign _ _ _ _ _) (fun _ => M.Good.pure _ _ _)
  · refine M.Good.bind (good_emplace ops this _ hr) (fun _ => ?_)
    exact M.Good.bind (M.Good.pure _ _ _) (fun _ => M.Good.pure _ _ _)

theorem good_assign_nullopt (ops : TOps T U E) (this : Ref) :
    (assign_nullopt ops this).Good false false := by
  unfold assign_nullopt
  exact M.Good.noexcept (M.Good.bind (good_reset ops this) (fun _ => M.Good.pure _ _ _))

theorem good_swap (ops : TOps T U E) (this other : Ref) :
    (swap ops this other).Good false false := by
  unfold swap
  refine M.Good.noexcept (s := false) ?_
  refine M.Good.bind (good_has_value _ _ this) (fun f1 => ?_)
  refine M.Good.ite _ ?_ ?_
  · refine M.Good.bind (good_has_value _ _ other) (fun f2 => ?_)
    refine M.Good.ite _ ?_ ?_
    · refine M.Good.bind (good_operator_star _ _ _) (fun x => ?_)
      refine M.Good.bind (good_operator_star _ _ _) (fun y => ?_)
      exact good_T_swap _ _ _ _ _
    · refine M.Good.bind (good_operator_star _ _ _) (fun x => ?_)
      refine M.Good.bind (good_emplace ops other _ (good_reset ops other)) (fun _ => ?_)
      exact good_reset ops this
  · refine M.Good.bind (good_has_value _ _ other) (fun f2 => ?_)
    refine M.Good.ite _ ?_ (M.Good.pure _ _ _)
    refine M.Good.bind (good_operator_star _ _ _) (fun y => ?_)
    refine M.Good.bind (good_emplace ops this _ (good_reset ops this)) (fun _ => ?_)
    exact good_reset ops other

theorem good_value_or (s b : Bool) (ops : TOps T U E) (this : Ref) (u : U) :
    (value_or ops this u).Good s b ∧ (value_or_move ops this u).Good s b := by
  constructor
  · unfold value_or
    refine M.Good.bind (good_operator_bool s b this) (fun f => M.Good.ite _ ?_ ?_)
    · refine M.Good.bind (good_operator_star _ _ _) (fun p => ?_)
      unfold T_return_copy
      exact M.Good.bind (M.Good.load _ _ _) (fun v => M.Good.T_made _ _ _)
    · exact M.Good.T_made _ _ _
  · unfold value_or_move
    refine M.Good.bind (good_operator_bool s b this) (fun f => M.Good.ite _ ?_ ?_)
    · refine M.Good.bind (good_operator_star _ _ _) (fun p => ?_)
      unfold T_return_move
      exact M.Good.bind (M.Good.load _ _ _) (fun v =>
        M.Good.bind (M.Good.set_mem _ _ _ _) (fun _ => M.Good.T_made _ _ _))
    · exact M.Good.T_made _ _ _

theorem good_init (s b : Bool) (this : Ref) : (init this : M T E Unit).Good s b :=
  M.Good.of_silent s b (fun w => ⟨[], by simp [init], rfl, Or.inl ⟨(), rfl⟩⟩)

theorem M.Good.discard {α : Type} {s b : Bool} {m : M T E α} (h : m.Good s b) :
    (cm.discard m).Good s b :=
  M.Good.bind h (fun _ => M.Good.pure _ _ _)

/-- Every operation but `value()` is faithful to the failures of `T` and
never throws `bad_optional_access`. -/
theorem Op.run_good (ops : TOps T U E) (op : Op U) (hv : op ≠ .value) (this other : Ref) :
    (op.run ops this other).Good false false := by
  cases op with
  | ctor_default => exact M.Good.noexcept (good_init false false this)
  | ctor_nullopt =>
    exact M.Good.noexcept (M.Good.bind (good_init false false this)
      (fun _ => M.Good.pure _ _ _))
  | ctor_copy =>
    exact M.Good.bind (good_init _ _ this) (fun _ =>
      (good_assign_copy ops this other (good_reset ops this)).discard)
  | ctor_move =>
    exact M.Good.noexcept (M.Good.bind (good_init false false this) (fun _ =>
      (good_assign_move ops this other).discard))
  | ctor_in_place u =>
    exact M.Good.bind (good_init _ _ this) (fun _ =>
      (good_emplace ops this _ (good_reset ops this)).discard)
  | ctor_conv u =>
    exact M.Good.bind (good_init _ _ this) (fun _ =>
      (good_emplace ops this _ (good_reset ops this)).discard)
  | make_optional u =>
    exact M.Good.bind (good_init _ _ this) (fun _ =>
      (good_emplace ops this _ (good_reset ops this)).discard)
  | make_optional_in_place u =>
    exact M.Good.bind (good_init _ _ this) (fun _ =>
      (good_emplace ops this _ (good_reset ops this)).discard)
  | assign_nullopt => exact (good_assign_nullopt ops this).discard
  | assign_copy => exact (good_assign_copy ops this other (good_reset ops this)).discard
  | assign_move => exact (good_assign_move ops this other).discard
  | assign_conv u => exact (good_assign_conv ops this u (good_reset ops this)).discard
  | emplace u => exact (good_emplace ops this _ (good_reset ops this)).discard
  | reset => exact good_reset ops this
  | swap => exact good_swap ops this other
  | has_value => exact (good_has_value _ _ this).discard
  | operator_bool => exact (good_operator_bool _ _ this).discard
  | value => exact absurd rfl hv
  | value_or u => exact (good_value_or _ _ ops this u).1.discard
  | value_or_move u => exact (good_value_or _ _ ops this u).2.discard

/-- An operation that is not declared `noexcept` passes every failure of a
constructor or an assignment of `T` on, when the destructor of `T` does not throw. -/
theorem Op.run_good_strict (ops : TOps T U E) (hd : ∀ v, ops.dtor v = none) (op : Op U)
    (hn : op.is_noexcept = false) (this other : Ref) :
    (op.run ops this other).Good true true := by
  have hr := good_reset_strict ops hd this
  have up : ∀ {α : Type} {m : M T E α}, m.Good true false → m.Good true true := by
    intro α m h w
    obtain ⟨evs, hl, hf⟩ := h w
    refine ⟨evs, hl, ?_⟩
    rcases ho : (m w).1 with x | x | _ | _ <;> rw [ho] at hf
    · simpa [Outcome.Faithful] using hf
    · cases x <;> simp_all [Outcome.Faithful]
    · simp [Outcome.Faithful] at hf
    · simpa [Outcome.Faithful] using hf
  cases op with
  | ctor_default => simp [Op.is_noexcept] at hn
  | ctor_nullopt => simp [Op.is_noexcept] at hn
  | ctor_copy =>
    exact up (M.Good.bind (good_init _ _ this) (fun _ =>
      (good_assign_copy ops this other hr).discard))
  | ctor_move => simp [Op.is_noexcept] at hn
  | ctor_in_place u =>
    exact up (M.Good.bind (good_init _ _ this) (fun _ => (good_emplace ops this _ hr).discard))
  | ctor_conv u =>
    exact up (M.Good.bind (good_init _ _ this) (fun _ => (good_emplace ops this _ hr).discard))
  | make_optional u =>
    exact up (M.Good.bind (good_init _ _ this) (fun _ => (good_emplace ops this _ hr).discard))
  | make_optional_in_place u =>
    exact up (M.Good.bind (good_init _ _ this) (fun _ => (good_emplace ops this _ hr).discard))
  | assign_nullopt => simp [Op.is_noexcept] at hn
  | assign_copy => exact up (good_assign_copy ops this other hr).discard
  | assign_move => simp [Op.is_noexcept] at hn
  | assign_conv u => exact up (good_assign_conv ops this u hr).discard
  | emplace u => exact up (good_emplace ops this _ hr).discard
  | reset => simp [Op.is_noexcept] at hn
  | swap => simp [Op.is_noexcept] at hn
  | has_value => simp [Op.is_noexcept] at hn
  | operator_bool => simp [Op.is_noexcept] at hn
  | value => exact (good_value true this).discard
  | value_or u => exact (good_value_or _ _ ops this u).1.discard
  | value_or_move u => exact (good_value_or _ _ ops this u).2.discard

theorem mem_fails (evs : List (Event T E)) (e : E) : e ∈ fails evs ↔ Event.fail e ∈ evs := by
  induction evs with
  | nil => simp [fails]
  | cons ev t ih => cases ev <;> simp [fails, ih]

theorem M.noexcept_ne_throw {α : Type} (m : M T E α) (w : World T E) (x : Exc E) :
    (M.noexcept m w).1 ≠ .throw x := by
  rcases hm : m w with ⟨o, w1⟩
  cases o <;> simp [M.noexcept, hm]

theorem discard_ne_throw {α : Type} (m : M T E α) (w : World T E) (x : Exc E)
    (h : (m w).1 ≠ .throw x) : (cm.discard m w).1 ≠ .throw x := by
  rcases hm : m w with ⟨o, w1⟩
  rw [hm] at h
  cases o <;> simp_all [cm.discard, M.bind]

theorem Op.run_noexcept (ops : TOps T U E) (op : Op U) (hn : op.is_noexcept = true)
    (this other : Ref) (w : World T E) (x : Exc E) :
    (op.run ops this other w).1 ≠ .throw x := by
  cases op <;> simp only [Op.is_noexcept, Bool.false_eq_true] at hn
  · exact M.noexcept_ne_throw _ w x
  · exact M.noexcept_ne_throw _ w x
  · exact M.noexcept_ne_throw _ w x
  · exact discard_ne_throw _ w x (M.noexcept_ne_throw _ w x)
  · exact discard_ne_throw _ w x (M.noexcept_ne_throw _ w x)
  · exact M.noexcept_ne_throw _ w x
  · exact M.noexcept_ne_throw _ w x
  · exact discard_ne_throw _ w x (M.noexcept_ne_throw _ w x)
  · exact discard_ne_throw _ w x (M.noexcept_ne_throw _ w x)

/-- What a faithful outcome is when `T` threw `e`. -/
theorem M.Good.of_fail {α : Type} {s b : Bool} {m : M T E α} (h : m.Good s b) (w : World T E)
    (e : E) (hf : Event.fail e ∈ newEvents w (m w).2) :
    (m w).1 = .throw (.raised e) ∨ (s = false ∧ (m w).1 = .terminate) := by
  obtain ⟨evs, hl, hfa⟩ := h w
  rw [newEvents_of_log w _ evs hl, ← mem_fails] at hf
  rcases ho : (m w).1 with x | x | _ | _ <;> rw [ho] at hfa
  · simp only [Outcome.Faithful] at hfa; rw [hfa] at hf; simp at hf
  · cases x with
    | bad_optional_access =>
      simp only [Outcome.Faithful] at hfa; rw [hfa.1] at hf; simp at hf
    | raised e1 =>
      simp only [Outcome.Faithful] at hfa; rw [hfa] at hf
      simp only [List.mem_singleton] at hf
      subst hf
      exact Or.inl rfl
  · simp only [Outcome.Faithful] at hfa
    exact Or.inr ⟨hfa.1, rfl⟩
  · simp only [Outcome.Faithful] at hfa; rw [hfa] at hf; simp at hf

/-- What a faithful outcome that is `std::terminate` tells. -/
theorem M.Good.of_terminate {α : Type} {s b : Bool} {m : M T E α} (h : m.Good s b)
    (w : World T E) (ht : (m w).1 = .terminate) :
    ∃ e, Event.fail e ∈ newEvents w (m w).2 := by
  obtain ⟨evs, hl, hfa⟩ := h w
  rw [ht] at hfa
  simp only [Outcome.Faithful] at hfa
  obtain ⟨_, e, he⟩ := hfa
  refine ⟨e, ?_⟩
  rw [newEvents_of_log w _ evs hl, ← mem_fails, he]
  simp

theorem step_reset_of_ok (ops : TOps T U E) (this : Ref) (w : World T E) (hw : w.wf)
    (hok : ∃ x, (reset ops this w).1 = .ok x) :
    (reset ops this).StepOk w (fun r => if r = this then false else w.flags r) := by
  obtain ht | ⟨d, ht⟩ := optional.wf_cases _ (World.wf_get hw this) <;>
  simp only [optional.holds, optional.empty] at ht
  · refine M.StepOk.of_eq (reset_disengaged ops this w (by simp [ht])) hw ?_
    intro r; by_cases h : r = this <;> simp [h, ht, World.flags]
  · cases hd : ops.dtor d with
    | some e => simp [reset_engaged_fail ops this w d e ht hd] at hok
    | none =>
      refine M.StepOk.of_eq (reset_engaged ops this w d ht hd) ?_ ?_
      · simpa using World.wf_set hw _ _ optional.wf_disengaged
      · intro r; by_cases h : r = this <;> simp [h, World.flags]

theorem step_emplace_of_ok (ops : TOps T U E) (this : Ref) (w : World T E)
    (hw : w.wf) (u : U) (hok : ∃ x, (emplace ops this (.forward u) w).1 = .ok x) :
    (emplace ops this (.forward u)).StepOk w (fun r => if r = this then true else w.flags r) := by
  obtain ht | ⟨d, ht⟩ := optional.wf_cases _ (World.wf_get hw this) <;>
  simp only [optional.holds, optional.empty] at ht
  · cases hv : ops.convCtor u with
    | error e =>
      simp [emplace, reset, construct, T_made_at_error, has_value_apply, operator_star_apply,
        M.bind, M.noexcept, M.read, ht, hv] at hok
    | ok v =>
      refine M.StepOk.of_eq (emplace_forward_empty ops this w u v ht hv) ?_ ?_
      · simpa using World.wf_set hw _ _ (optional.wf_engaged v)
      · intro r; by_cases h : r = this <;> simp [h, World.flags]
  · cases hd : ops.dtor d with
    | some e =>
      simp [emplace, M.bind, reset_engaged_fail ops this w d e ht hd] at hok
    | none =>
      cases hv : ops.convCtor u with
      | error e =>
        simp [emplace, M.bind, reset_engaged ops this w d ht hd, construct, T_made_at_error,
          operator_star_apply, M.read, hv] at hok
      | ok v =>
        refine M.StepOk.of_eq (emplace_forward_engaged ops this w u d v ht hd hv) ?_ ?_
        · simpa using World.wf_set hw _ _ (optional.wf_engaged v)
        · intro r; by_cases h : r = this <;> simp [h, World.flags]

theorem step_assign_conv_of_ok (ops : TOps T U E) (this : Ref) (w : World T E)
    (hw : w.wf) (u : U) (hok : ∃ x, (assign_conv ops this u w).1 = .ok x) :
    (assign_conv ops this u).StepOk w (fun r => if r = this then true else w.flags r) := by
  obtain ht | ⟨d, ht⟩ := optional.wf_cases _ (World.wf_get hw this) <;>
  simp only [optional.holds, optional.empty] at ht
  · cases hv : ops.convCtor u with
    | error e =>
      simp [assign_conv, emplace, reset, construct, T_made_at_error, has_value_apply,
        operator_star_apply, M.bind, M.noexcept, M.read, ht, hv] at hok
    | ok v =>
      refine M.StepOk.of_eq (assign_conv_empty ops this w u v ht hv) ?_ ?_
      · simpa using World.wf_set hw _ _ (optional.wf_engaged v)
      · intro r; by_cases h : r = this <;> simp [h, World.flags]
  · cases hca : (ops.convAssign d u).2 with
    | some e =>
      simp [assign_conv, T_conv_assign, T_throw_some, has_value_apply, value_engaged,
        M.bind, M.load, M.set_mem, M.emit, ht, hca] at hok
    | none =>
      refine M.StepOk.of_eq (assign_conv_engaged ops this w d u ht hca) ?_ ?_
      · simpa using World.wf_set hw _ _ (optional.wf_engaged _)
      · intro r; by_cases h : r = this <;> simp [h, World.flags]

theorem step_assign_copy_of_ok (ops : TOps T U E) (this other : Ref)
    (w : World T E) (hw : w.wf) (hok : ∃ x, (assign_copy ops this other w).1 = .ok x) :
    (assign_copy ops this other).StepOk w
      (fun r => if r = this then w.flags other else w.flags r) := by
  obtain ht | ⟨d, ht⟩ := optional.wf_cases _ (World.wf_get hw this) <;>
  obtain hs | ⟨s, hs⟩ := optional.wf_cases _ (World.wf_get hw other) <;>
  simp only [optional.holds, optional.empty] at ht hs
  · have hr := reset_disengaged ops this w (by simp [ht])
    refine M.StepOk.of_eq (assign_copy_src_empty ops this other w w (by simp [hs]) hr) hw ?_
    intro r; by_cases h : r = this <;> simp [h, ht, hs, World.flags]
  · have hne : other ≠ this := by
      intro h; rw [h, ht] at hs; simp at hs
    cases hv : ops.copyCtor s with
    | error e =>
      simp [assign_copy, emplace, reset, construct, T_made_at_error, has_value_apply,
        operator_star_apply, M.bind, M.noexcept, M.read, M.load, ht, hs, hv, hne] at hok
    | ok v =>
      refine M.StepOk.of_eq (assign_copy_src_only ops this other w s v ht hs hv) ?_ ?_
      · simpa using World.wf_set hw _ _ (optional.wf_engaged v)
      · intro r; by_cases h : r = this <;> simp [h, hs, World.flags]
  · cases hd : ops.dtor d with
    | some e =>
      simp [assign_copy, has_value_apply, M.bind, hs,
        reset_engaged_fail ops this w d e ht hd] at hok
    | none =>
      have hr := reset_engaged ops this w d ht hd
      refine M.StepOk.of_eq (assign_copy_src_empty ops this other w _ (by simp [hs]) hr) ?_ ?_
      · simpa using World.wf_set hw _ _ optional.wf_disengaged
      · intro r; by_cases h : r = this <;> simp [h, hs, World.flags]
  · cases hca : (ops.copyAssign d s).2 with
    | some e =>
      simp [assign_copy, T_copy_assign, T_throw_some, has_value_apply, value_engaged,
        operator_star_apply, M.bind, M.load, M.set_mem, M.emit, ht, hs, hca] at hok
    | none =>
      refine M.StepOk.of_eq (assign_copy_both ops this other w d s ht hs hca) ?_ ?_
      · simpa using World.wf_set hw _ _ (optional.wf_engaged _)
      · intro r; by_cases h : r = this <;> simp [h, hs, World.flags]

theorem step_assign_move_of_ok (ops : TOps T U E) (this other : Ref)
    (w : World T E) (hw : w.wf) (hok : ∃ x, (assign_move ops this other w).1 = .ok x) :
    (assign_move ops this other).StepOk w
      (fun r => if r = this then w.flags other else w.flags r) := by
  obtain ht | ⟨d, ht⟩ := optional.wf_cases _ (World.wf_get hw this) <;>
  obtain hs | ⟨s, hs⟩ := optional.wf_cases _ (World.wf_get hw other) <;>
  simp only [optional.holds, optional.empty] at ht hs
  · have hr := reset_disengaged ops this w (by simp [ht])
    refine M.StepOk.of_eq (assign_move_src_empty ops this other w w (by simp [hs]) hr) hw ?_
    intro r; by_cases h : r = this <;> simp [h, ht, hs, World.flags]
  · have hne : other ≠ this := by
      intro h; rw [h, ht] at hs; simp at hs
    have hne2 : this ≠ other := fun h => hne h.symm
    cases hv : (ops.moveCtor s).1 with
    | error e =>
      simp [assign_move, emplace, reset, construct, T_made_at_error, has_value_apply,
        operator_star_apply, M.bind, M.noexcept, M.read, M.load, M.set_mem, ht, hs, hv, hne,
        hne2] at hok
    | ok v =>
      refine M.StepOk.of_eq (assign_move_src_only ops this other w s v ht hs hv) ?_ ?_
      · simpa using World.wf_set (World.wf_set hw other _ (optional.wf_engaged _)) this _
          (optional.wf_engaged v)
      · intro r; by_cases h : r = this <;> by_cases h2 : r = other <;>
          simp_all [World.flags]
  · cases hd : ops.dtor d with
    | some e =>
      simp [assign_move, has_value_apply, M.bind, M.noexcept, hs,
        reset_engaged_fail ops this w d e ht hd] at hok
    | none =>
      have hr := reset_engaged ops this w d ht hd
      refine M.StepOk.of_eq (assign_move_src_empty ops this other w _ (by simp [hs]) hr) ?_ ?_
      · simpa using World.wf_set hw _ _ optional.wf_disengaged
      · intro r; by_cases h : r = this <;> simp [h, hs, World.flags]
  · by_cases hne : this = other
    · subst hne
      cases hca : (ops.selfMoveAssign d).2 with
      | some e => simp [assign_move_self_fail ops this w d e ht hca] at hok
      | none =>
        refine M.StepOk.of_eq (assign_move_self ops this w d ht hca) ?_ ?_
        · simpa using World.wf_set hw this _ (optional.wf_engaged _)
        · intro r; by_cases h : r = this <;> simp_all [World.flags]
    · cases hca : (ops.moveAssign d s).2.2 with
      | some e => simp [assign_move_both_fail ops this other w d s e hne ht hs hca] at hok
      | none =>
        refine M.StepOk.of_eq (assign_move_both ops this other w d s hne ht hs hca) ?_ ?_
        · simpa using World.wf_set (World.wf_set hw other _ (optional.wf_engaged _)) this _
            (optional.wf_engaged _)
        · intro r; by_cases h : r = this <;> by_cases h2 : r = other <;>
            simp_all [World.flags]

theorem step_swap_of_ok (ops : TOps T U E) (this other : Ref)
    (w : World T E) (hw : w.wf) (hok : ∃ x, (swap ops this other w).1 = .ok x) :
    (swap ops this other).StepOk w
      (fun r => if r = this then w.flags other else if r = other then w.flags this
        else w.flags r) := by
  obtain ht | ⟨x, ht⟩ := optional.wf_cases _ (World.wf_get hw this) <;>
  obtain hs | ⟨y, hs⟩ := optional.wf_cases _ (World.wf_get hw other) <;>
  simp only [optional.holds, optional.empty] at ht hs
  · refine M.StepOk.of_eq (swap_neither ops this other w (by simp [ht]) (by simp [hs])) hw ?_
    intro r; by_cases h : r = this <;> by_cases h2 : r = other <;>
      simp [h, h2, ht, hs, World.flags]
  · have hne : other ≠ this := by
      intro h; rw [h, ht] at hs; simp at hs
    have hne2 : this ≠ other := fun h => hne h.symm
    cases hv : (ops.moveCtor y).1 with
    | error e =>
      simp [swap, emplace, reset, construct, T_made_at_error, has_value_apply,
        operator_star_apply, M.bind, M.noexcept, M.read, M.load, M.set_mem, ht, hs, hv, hne,
        hne2] at hok
    | ok v =>
      cases hd : ops.dtor (ops.moveCtor y).2 with
      | some e =>
        simp [swap, emplace, reset, destroy, construct, T_made_at_ok, T_throw_some, value,
          has_value_apply, operator_star_apply, M.bind, M.noexcept, M.read, M.load, M.set_mem,
          M.set_has_value, M.emit, ht, hs, hv, hd, hne, hne2] at hok
      | none =>
        refine M.StepOk.of_eq (swap_second_only ops this other w y v ht hs hv hd) ?_ ?_
        · simpa using World.wf_set (World.wf_set hw this _ (optional.wf_engaged v)) other _
            optional.wf_disengaged
        · intro r; by_cases h : r = this <;> by_cases h2 : r = other <;>
            simp_all [World.flags]
  · have hne : other ≠ this := by
      intro h; rw [h, ht] at hs; simp at hs
    have hne2 : this ≠ other := fun h => hne h.symm
    cases hv : (ops.moveCtor x).1 with
    | error e =>
      simp [swap, emplace, reset, construct, T_made_at_error, has_value_apply,
        operator_star_apply, M.bind, M.noexcept, M.read, M.load, M.set_mem, ht, hs, hv, hne,
        hne2] at hok
    | ok v =>
      cases hd : ops.dtor (ops.moveCtor x).2 with
      | some e =>
        simp [swap, emplace, reset, destroy, construct, T_made_at_ok, T_throw_some, value,
          has_value_apply, operator_star_apply, M.bind, M.noexcept, M.read, M.load, M.set_mem,
          M.set_has_value, M.emit, ht, hs, hv, hd, hne, hne2] at hok
      | none =>
        refine M.StepOk.of_eq (swap_first_only ops this other w x v ht hs hv hd) ?_ ?_
        · simpa using World.wf_set (World.wf_set hw other _ (optional.wf_engaged v)) this _
            optional.wf_disengaged
        · intro r; by_cases h : r = this <;> by_cases h2 : r = other <;>
            simp_all [World.flags]
  · cases hca : (ops.swap x y).2.2 with
    | some e =>
      simp [swap, T_swap, T_throw_some, has_value_apply, operator_star_apply, M.bind,
        M.noexcept, M.load, M.set_mem, M.emit, ht, hs, hca] at hok
    | none =>
      refine M.StepOk.of_eq (swap_both ops this other w x y ht hs hca) ?_ ?_
      · simpa using World.wf_set (World.wf_set hw other _ (optional.wf_engaged _)) this _
          (optional.wf_engaged _)
      · intro r; by_cases h : r = this <;> by_cases h2 : r = other <;>
          simp_all [World.flags]

theorem step_value_or_of_ok (ops : TOps T U E) (this : Ref) (w : World T E) (hw : w.wf)
    (u : U) :
    ((∃ x, (value_or ops this u w).1 = .ok x) → (value_or ops this u).StepOk w w.flags) ∧
    ((∃ x, (value_or_move ops this u w).1 = .ok x) →
      (value_or_move ops this u).StepOk w w.flags) := by
  obtain ht | ⟨x, ht⟩ := optional.wf_cases _ (World.wf_get hw this) <;>
  simp only [optional.holds, optional.empty] at ht
  · cases hc : ops.convCtor u with
    | error e =>
      constructor <;> intro hok
      · simp [value_or, T_return_conv, T_made_error, operator_bool_apply, M.bind, ht, hc] at hok
      · simp [value_or_move, T_return_conv, T_made_error, operator_bool_apply, M.bind, ht,
          hc] at hok
    | ok c =>
      exact ⟨fun _ => M.StepOk.of_eq (value_or_disengaged ops this w u c (by simp [ht]) hc) hw
          (fun _ => rfl),
        fun _ => M.StepOk.of_eq (value_or_move_disengaged ops this w u c (by simp [ht]) hc) hw
          (fun _ => rfl)⟩
  · constructor <;> intro hok
    · cases hv : ops.copyCtor x with
      | error e =>
        simp [value_or, T_return_copy, T_made_error, operator_bool_apply, operator_star_apply,
          M.bind, M.load, ht, hv] at hok
      | ok v =>
        exact M.StepOk.of_eq (value_or_engaged ops this w u x v ht hv) (by simpa using hw)
          (fun r => by simp [World.flags])
    · cases hv : (ops.moveCtor x).1 with
      | error e =>
        simp [value_or_move, T_return_move, T_made_error, operator_bool_apply,
          operator_star_apply, M.bind, M.load, M.set_mem, ht, hv] at hok
      | ok v =>
        refine M.StepOk.of_eq (value_or_move_engaged ops this w u x v ht hv) ?_ ?_
        · simpa using World.wf_set hw _ _ (optional.wf_engaged _)
        · intro r; by_cases h : r = this <;> simp [h, ht, World.flags]

theorem discard_ok {α : Type} (m : M T E α) (w : World T E)
    (h : (cm.discard m w).1 = .ok ()) : ∃ x, (m w).1 = .ok x := by
  rcases hm : m w with ⟨o, w1⟩
  cases o with
  | ok x => exact ⟨x, rfl⟩
  | throw x => simp [cm.discard, M.bind, hm] at h
  | terminate => simp [cm.discard, M.bind, hm] at h
  | undefined => simp [cm.discard, M.bind, hm] at h

/-- After a call that is not a constructor and that returned, normally or
with `bad_optional_access`, the lifetime invariant holds and every flag is
what the effect of the call makes of it, whatever `T` is. -/
theorem Op.run_flags_of_ok (ops : TOps T U E) (op : Op U)
    (hc : op.is_ctor = false) (this other : Ref) (w : World T E) (hw : w.wf)
    (hok : (op.run ops this other w).1 = .ok () ∨
      (op.run ops this other w).1 = .throw .bad_optional_access) :
    (op.run ops this other w).2.wf ∧
    ∀ r, (op.run ops this other w).2.flags r = (op.effect this other w r).apply (w.flags r) := by
  have key : ∀ {f : Ref → Bool}, (op.run ops this other).StepOk w f →
      (∀ r, f r = (op.effect this other w r).apply (w.flags r)) →
      (op.run ops this other w).2.wf ∧
      ∀ r, (op.run ops this other w).2.flags r
        = (op.effect this other w r).apply (w.flags r) :=
    fun h hf => ⟨h.2.1, fun r => (h.2.2 r).trans (hf r)⟩
  have hok1 : op ≠ .value → (op.run ops this other w).1 = .ok () := by
    intro hv
    rcases hok with h | h
    · exact h
    · obtain ⟨evs, _, hfa⟩ := Op.run_good ops op hv this other w
      rw [h] at hfa
      simp [Outcome.Faithful] at hfa
  cases op with
  | ctor_default => simp [Op.is_ctor] at hc
  | ctor_nullopt => simp [Op.is_ctor] at hc
  | ctor_copy => simp [Op.is_ctor] at hc
  | ctor_move => simp [Op.is_ctor] at hc
  | ctor_in_place u => simp [Op.is_ctor] at hc
  | ctor_conv u => simp [Op.is_ctor] at hc
  | make_optional u => simp [Op.is_ctor] at hc
  | make_optional_in_place u => simp [Op.is_ctor] at hc
  | assign_nullopt =>
    have h1 := discard_ok _ w (hok1 (by simp))
    obtain ⟨x, hx⟩ := h1
    have h2 : ∃ y, (cm.reset ops this w).1 = .ok y := by
      rcases hm : cm.reset ops this w with ⟨o, w1⟩
      cases o <;> simp_all [cm.assign_nullopt, cm.discard, Op.run, M.bind, M.noexcept]
    have h3 := step_reset_of_ok ops this w hw h2
    obtain ⟨⟨y, hy⟩, hw1, hf⟩ := h3
    rcases hm : cm.reset ops this w with ⟨o, w1⟩
    rw [hm] at hy hw1 hf
    simp only at hy
    subst hy
    have hd : cm.assign_nullopt ops this w = (.ok this, w1) := by
      simp [cm.assign_nullopt, M.bind, M.noexcept, hm]
    refine key (M.StepOk.of_eq hd hw1 hf).of_discard ?_
    intro r; by_cases h1 : r = this <;> simp [Op.effect, Effect.apply, h1]
  | assign_copy =>
    refine key (step_assign_copy_of_ok ops this other w hw
      (discard_ok _ w (hok1 (by simp)))).of_discard ?_
    intro r; by_cases h1 : r = this <;> cases hfo : w.flags other <;>
      simp [Op.effect, Effect.apply, h1, hfo]
  | assign_move =>
    refine key (step_assign_move_of_ok ops this other w hw
      (discard_ok _ w (hok1 (by simp)))).of_discard ?_
    intro r; by_cases h1 : r = this <;> cases hfo : w.flags other <;>
      simp [Op.effect, Effect.apply, h1, hfo]
  | assign_conv u =>
    refine key (step_assign_conv_of_ok ops this w hw u
      (discard_ok _ w (hok1 (by simp)))).of_discard ?_
    intro r; by_cases h1 : r = this <;> simp [Op.effect, Effect.apply, h1]
  | emplace u =>
    refine key (step_emplace_of_ok ops this w hw u
      (discard_ok _ w (hok1 (by simp)))).of_discard ?_
    intro r; by_cases h1 : r = this <;> simp [Op.effect, Effect.apply, h1]
  | reset =>
    refine key (step_reset_of_ok ops this w hw ⟨(), hok1 (by simp)⟩) ?_
    intro r; by_cases h1 : r = this <;> simp [Op.effect, Effect.apply, h1]
  | swap =>
    refine key (step_swap_of_ok ops this other w hw ⟨(), hok1 (by simp)⟩) ?_
    intro r
    by_cases h1 : r = this <;> by_cases h2 : r = other <;>
      cases hft : w.flags this <;> cases hfo : w.flags other <;>
      simp_all [Op.effect, Effect.apply]
  | has_value =>
    exact key (step_has_value this w hw).1.of_discard (fun r => by simp [Op.effect, Effect.apply])
  | operator_bool =>
    exact key (step_has_value this w hw).2.of_discard (fun r => by simp [Op.effect, Effect.apply])
  | value =>
    cases hf : w.flags this with
    | true =>
      exact key (step_value this w hw hf).of_discard (fun r => by simp [Op.effect, Effect.apply])
    | false =>
      have hv : Op.run ops this other Op.value w = (.throw .bad_optional_access, w) := by
        simp [Op.run, cm.discard, M.bind, value_disengaged this w hf]
      rw [hv]
      exact ⟨hw, fun r => by simp [Op.effect, Effect.apply]⟩
  | value_or u =>
    exact key ((step_value_or_of_ok ops this w hw u).1
      (discard_ok _ w (hok1 (by simp)))).of_discard (fun r => by simp [Op.effect, Effect.apply])
  | value_or_move u =>
    exact key ((step_value_or_of_ok ops this w hw u).2
      (discard_ok _ w (hok1 (by simp)))).of_discard (fun r => by simp [Op.effect, Effect.apply])

/-- When `T` does not throw, every call of a sequence returns. -/
theorem allReturn_of_noFail (ops : TOps T U E) (hnf : ops.NoFail) (calls : List (Call U))
    (hc : ∀ c ∈ calls, c.op.is_ctor = false) (w : World T E) (hw : w.wf) :
    allReturn ops calls w := by
  induction calls generalizing w with
  | nil => trivial
  | cons c cs ih =>
    have hstep := Op.run_flags ops hnf c.op (hc c (List.mem_cons_self _ _)) c.this c.other w hw
    refine ⟨?_, ih (fun c1 h1 => hc c1 (List.mem_cons_of_mem _ h1)) _ hstep.1⟩
    by_cases hv : c.op = .value
    · cases hf : w.flags c.this with
      | true =>
        obtain ⟨f, ⟨x, hx⟩, _⟩ := Op.run_stepOk ops hnf c.op c.this c.other w hw (fun _ => hf)
        exact Or.inl hx
      | false =>
        right
        rw [hv]
        simp [Op.run, cm.discard, M.bind, value_disengaged c.this w hf]
    · obtain ⟨f, ⟨x, hx⟩, _⟩ :=
        Op.run_stepOk ops hnf c.op c.this c.other w hw (fun h => absurd h hv)
      exact Or.inl hx

/-- The flag after a sequence of calls that returned is the fold of their effects. -/
theorem runCalls_flags (ops : TOps T U E) (r : Ref) (calls : List (Call U))
    (hc : ∀ c ∈ calls, c.op.is_ctor = false) (w : World T E) (hw : w.wf)
    (hok : allReturn ops calls w) :
    (runCalls ops calls w).flags r
      = (history ops r calls w).foldl (fun b e => e.apply b) (w.flags r) := by
  induction calls generalizing w with
  | nil => rfl
  | cons c cs ih =>
    have hstep := Op.run_flags_of_ok ops c.op (hc c (List.mem_cons_self _ _)) c.this c.other w
      hw hok.1
    simp only [runCalls, history, List.foldl_cons]
    rw [ih (fun c1 h1 => hc c1 (List.mem_cons_of_mem _ h1)) _ hstep.1 hok.2, hstep.2 r]

/-! ### Lifetime discipline and refinement of the native optional -/

theorem emplace_forward_empty_fail (ops : TOps T U E) (this : Ref) (w : World T E) (x : U)
    (e : E) (h : w.get this = ⟨false, none⟩) (hc : ops.convCtor x = .error e) :
    emplace ops this (.forward x) w = (.throw (.raised e), w.logs
      [.deref this false, .fail e]) := by
  simp [emplace, reset, construct, T_made_at_error, has_value_apply, operator_star_apply,
    M.bind, M.noexcept, M.read, h, hc]
  apply World.ext_get
  · intro r; simp
  · simp

theorem emplace_forward_engaged_fail (ops : TOps T U E) (this : Ref) (w : World T E) (x : U)
    (old : T) (e : E) (h : w.get this = ⟨true, some old⟩) (hd : ops.dtor old = none)
    (hc : ops.convCtor x = .error e) :
    emplace ops this (.forward x) w = (.throw (.raised e), (w.set this ⟨false, none⟩).logs
      [.flag this false, .deref this false, .destroy this old, .deref this false, .fail e]) := by
  simp [emplace, M.bind, reset_engaged ops this w old h hd, construct, T_made_at_error,
    operator_star_apply, M.read, hc]
  apply World.ext_get
  · intro r; simp
  · simp

theorem assign_nullopt_eq (ops : TOps T U E) (this : Ref) (w w1 : World T E)
    (h : reset ops this w = (.ok (), w1)) : assign_nullopt ops this w = (.ok this, w1) := by
  simp [assign_nullopt, M.bind, M.noexcept, h]

theorem assign_nullopt_snd (ops : TOps T U E) (this : Ref) (w : World T E) :
    (assign_nullopt ops this w).2 = (reset ops this w).2 := by
  rcases hr : reset ops this w with ⟨o, w1⟩
  cases o <;> simp [assign_nullopt, M.bind, M.noexcept, hr]

/-- What `swap` leaves in the two containers, for a regular `T`: each holds
what the other held. -/
theorem swap_exchanges (ops : TOps T U E) (conv : U → T) (hreg : ops.Regular conv)
    (this other : Ref) (hne : this ≠ other) (w : World T E) (hw : w.wf) :
    (swap ops this other w).1 = .ok () ∧
    (swap ops this other w).2.get this = w.get other ∧
    (swap ops this other w).2.get other = w.get this := by
  have hne2 : other ≠ this := fun h => hne h.symm
  obtain ht | ⟨x, ht⟩ := optional.wf_cases _ (World.wf_get hw this) <;>
  obtain hs | ⟨y, hs⟩ := optional.wf_cases _ (World.wf_get hw other) <;>
  simp only [optional.holds, optional.empty] at ht hs
  · rw [swap_neither ops this other w (by simp [ht]) (by simp [hs])]
    simp [ht, hs]
  · rw [swap_second_only ops this other w y y ht hs (hreg.moveCtor y) (hreg.dtor _)]
    simp [ht, hs, hne, hne2]
  · rw [swap_first_only ops this other w x x ht hs (hreg.moveCtor x) (hreg.dtor _)]
    simp [ht, hs, hne, hne2]
  · rw [swap_both ops this other w x y ht hs (by rw [hreg.swap]), hreg.swap]
    simp [ht, hs, hne, hne2]

theorem World.Life.of_log {w w1 : World T E} (evs : List (Event T E)) (hw : w1.wf)
    (hl : w1.log = w.log ++ evs) (h1 : no_live_construct evs = true)
    (h2 : derefs_ok evs = true)
    (h3 : ∀ r, net r evs = ((w1.flags r).toNat : Int) - ((w.flags r).toNat : Int)) :
    w.Life w1 := ⟨hw, evs, hl, h1, h2, h3⟩

theorem World.Life.same (w : World T E) (hw : w.wf) : w.Life w :=
  World.Life.of_log [] hw (by simp) rfl rfl (fun r => by simp [net])

theorem World.Life.of_logs (w W : World T E) (evs : List (Event T E)) (hW : W.wf)
    (hl : W.log = w.log) (h1 : no_live_construct evs = true) (h2 : derefs_ok evs = true)
    (h3 : ∀ r, net r evs = ((W.flags r).toNat : Int) - ((w.flags r).toNat : Int)) :
    w.Life (W.logs evs) :=
  ⟨by simpa using hW, evs, by simp [hl], h1, h2, by simpa [World.flags] using h3⟩

theorem life_reset (ops : TOps T U E) (this : Ref) (w : World T E) (hw : w.wf) :
    (reset ops this w).1 ≠ .undefined ∧
    ((∃ x, (reset ops this w).1 = .ok x) → w.Life (reset ops this w).2) := by
  obtain ht | ⟨d, ht⟩ := optional.wf_cases _ (World.wf_get hw this) <;>
  simp only [optional.holds, optional.empty] at ht
  · rw [reset_disengaged ops this w (by simp [ht])]
    exact ⟨by simp, fun _ => World.Life.same w hw⟩
  · cases hd : ops.dtor d with
    | some e => simp [reset_engaged_fail ops this w d e ht hd]
    | none =>
      rw [reset_engaged ops this w d ht hd]
      refine ⟨by simp, fun _ => World.Life.of_logs w _ _ ?_ (by simp)
        (by simp [no_live_construct]) (by simp [derefs_ok]) ?_⟩
      · exact World.wf_set hw _ _ optional.wf_disengaged
      · intro r
        by_cases h : r = this <;> simp [net, World.flags, h, ht]

theorem life_emplace (ops : TOps T U E) (this : Ref) (w : World T E) (hw : w.wf) (u : U) :
    (emplace ops this (.forward u) w).1 ≠ .undefined ∧
    ((∃ x, (emplace ops this (.forward u) w).1 = .ok x) →
      w.Life (emplace ops this (.forward u) w).2) := by
  obtain ht | ⟨d, ht⟩ := optional.wf_cases _ (World.wf_get hw this) <;>
  simp only [optional.holds, optional.empty] at ht
  · cases hv : ops.convCtor u with
    | error e => simp [emplace_forward_empty_fail ops this w u e ht hv]
    | ok v =>
      rw [emplace_forward_empty ops this w u v ht hv]
      refine ⟨by simp, fun _ => World.Life.of_logs w _ _ ?_ (by simp)
        (by simp [no_live_construct]) (by simp [derefs_ok]) ?_⟩
      · exact World.wf_set hw _ _ (optional.wf_engaged v)
      · intro r
        by_cases h : r = this <;> simp [net, World.flags, h, ht]
  · cases hd : ops.dtor d with
    | some e => simp [emplace, M.bind, reset_engaged_fail ops this w d e ht hd]
    | none =>
      cases hv : ops.convCtor u with
      | error e => simp [emplace_forward_engaged_fail ops this w u d e ht hd hv]
      | ok v =>
        rw [emplace_forward_engaged ops this w u d v ht hd hv]
        refine ⟨by simp, fun _ => World.Life.of_logs w _ _ ?_ (by simp)
          (by simp [no_live_construct]) (by simp [derefs_ok]) ?_⟩
        · exact World.wf_set hw _ _ (optional.wf_engaged v)
        · intro r
          by_cases h : r = this <;> simp [net, World.flags, h, ht]

theorem life_assign_conv (ops : TOps T U E) (this : Ref) (w : World T E) (hw : w.wf) (u : U) :
    (assign_conv ops this u w).1 ≠ .undefined ∧
    ((∃ x, (assign_conv ops this u w).1 = .ok x) → w.Life (assign_conv ops this u w).2) := by
  obtain ht | ⟨d, ht⟩ := optional.wf_cases _ (World.wf_get hw this) <;>
  simp only [optional.holds, optional.empty] at ht
  · cases hv : ops.convCtor u with
    | error e =>
      simp [assign_conv, has_value_apply, M.bind, ht,
        emplace_forward_empty_fail ops this w u e ht hv]
    | ok v =>
      rw [assign_conv_empty ops this w u v ht hv]
      refine ⟨by simp, fun _ => World.Life.of_logs w _ _ ?_ (by simp)
        (by simp [no_live_construct]) (by simp [derefs_ok]) ?_⟩
      · exact World.wf_set hw _ _ (optional.wf_engaged v)
      · intro r
        by_cases h : r = this <;> simp [net, World.flags, h, ht]
  · cases hca : (ops.convAssign d u).2 with
    | some e =>
      simp [assign_conv, T_conv_assign, T_throw_some, has_value_apply, value_engaged,
        M.bind, M.load, M.set_mem, M.emit, ht, hca]
    | none =>
      rw [assign_conv_engaged ops this w d u ht hca]
      refine ⟨by simp, fun _ => World.Life.of_logs w _ _ ?_ (by simp)
        (by simp [no_live_construct]) (by simp [derefs_ok]) ?_⟩
      · exact World.wf_set hw _ _ (optional.wf_engaged _)
      · intro r
        by_cases h : r = this <;> simp [net, World.flags, h, ht]

theorem life_assign_copy (ops : TOps T U E) (this other : Ref) (w : World T E) (hw : w.wf) :
    (assign_copy ops this other w).1 ≠ .undefined ∧
    ((∃ x, (assign_copy ops this other w).1 = .ok x) →
      w.Life (assign_copy ops this other w).2) := by
  obtain ht | ⟨d, ht⟩ := optional.wf_cases _ (World.wf_get hw this) <;>
  obtain hs | ⟨s, hs⟩ := optional.wf_cases _ (World.wf_get hw other) <;>
  simp only [optional.holds, optional.empty] at ht hs
  · have hr := reset_disengaged ops this w (by simp [ht])
    rw [assign_copy_src_empty ops this other w w (by simp [hs]) hr]
    exact ⟨by simp, fun _ => World.Life.same w hw⟩
  · have hne : other ≠ this := by
      intro h; rw [h, ht] at hs; simp at hs
    cases hv : ops.copyCtor s with
    | error e =>
      simp [assign_copy, emplace, reset, construct, T_made_at_error, has_value_apply,
        operator_star_apply, M.bind, M.noexcept, M.read, M.load, ht, hs, hv, hne]
    | ok v =>
      rw [assign_copy_src_only ops this other w s v ht hs hv]
      refine ⟨by simp, fun _ => World.Life.of_logs w _ _ ?_ (by simp)
        (by simp [no_live_construct]) (by simp [derefs_ok]) ?_⟩
      · exact World.wf_set hw _ _ (optional.wf_engaged v)
      · intro r
        by_cases h : r = this <;> simp [net, World.flags, h, ht]
  · cases hd : ops.dtor d with
    | some e =>
      simp [assign_copy, has_value_apply, M.bind, hs,
        reset_engaged_fail ops this w d e ht hd]
    | none =>
      have hr := reset_engaged ops this w d ht hd
      rw [assign_copy_src_empty ops this other w _ (by simp [hs]) hr]
      refine ⟨by simp, fun _ => World.Life.of_logs w _ _ ?_ (by simp)
        (by simp [no_live_construct]) (by simp [derefs_ok]) ?_⟩
      · exact World.wf_set hw _ _ optional.wf_disengaged
      · intro r
        by_cases h : r = this <;> simp [net, World.flags, h, ht]
  · cases hca : (ops.copyAssign d s).2 with
    | some e =>
      simp [assign_copy, T_copy_assign, T_throw_some, has_value_apply, value_engaged,
        operator_star_apply, M.bind, M.load, M.set_mem, M.emit, ht, hs, hca]
    | none =>
      rw [assign_copy_both ops this other w d s ht hs hca]
      refine ⟨by simp, fun _ => World.Life.of_logs w _ _ ?_ (by simp)
        (by simp [no_live_construct]) (by simp [derefs_ok]) ?_⟩
      · exact World.wf_set hw _ _ (optional.wf_engaged _)
      · intro r
        by_cases h : r = this <;> simp [net, World.flags, h, ht]

theorem life_assign_move (ops : TOps T U E) (this other : Ref) (w : World T E) (hw : w.wf) :
    (assign_move ops this other w).1 ≠ .undefined ∧
    ((∃ x, (assign_move ops this other w).1 = .ok x) →
      w.Life (assign_move ops this other w).2) := by
  obtain ht | ⟨d, ht⟩ := optional.wf_cases _ (World.wf_get hw this) <;>
  obtain hs | ⟨s, hs⟩ := optional.wf_cases _ (World.wf_get hw other) <;>
  simp only [optional.holds, optional.empty] at ht hs
  · have hr := reset_disengaged ops this w (by simp [ht])
    rw [assign_move_src_empty ops this other w w (by simp [hs]) hr]
    exact ⟨by simp, fun _ => World.Life.same w hw⟩
  · have hne : other ≠ this := by
      intro h; rw [h, ht] at hs; simp at hs
    have hne2 : this ≠ other := fun h => hne h.symm
    cases hv : (ops.moveCtor s).1 with
    | error e =>
      simp [assign_move, emplace, reset, construct, T_made_at_error, has_value_apply,
        operator_star_apply, M.bind, M.noexcept, M.read, M.load, M.set_mem, ht, hs, hv, hne,
        hne2]
    | ok v =>
      rw [assign_move_src_only ops this other w s v ht hs hv]
      refine ⟨by simp, fun _ => World.Life.of_logs w _ _ ?_ (by simp)
        (by simp [no_live_construct]) (by simp [derefs_ok]) ?_⟩
      · exact World.wf_set (World.wf_set hw other _ (optional.wf_engaged _)) this _
          (optional.wf_engaged v)
      · intro r
        by_cases h : r = this <;> by_cases h2 : r = other <;>
          simp_all [net, World.flags]
  · cases hd : ops.dtor d with
    | some e =>
      simp [assign_move, has_value_apply, M.bind, M.noexcept, hs,
        reset_engaged_fail ops this w d e ht hd]
    | none =>
      have hr := reset_engaged ops this w d ht hd
      rw [assign_move_src_empty ops this other w _ (by simp [hs]) hr]
      refine ⟨by simp, fun _ => World.Life.of_logs w _ _ ?_ (by simp)
        (by simp [no_live_construct]) (by simp [derefs_ok]) ?_⟩
      · exact World.wf_set hw _ _ optional.wf_disengaged
      · intro r
        by_cases h : r = this <;> simp [net, World.flags, h, ht]
  · by_cases hne : this = other
    · subst hne
      cases hca : (ops.selfMoveAssign d).2 with
      | some e => simp [assign_move_self_fail ops this w d e ht hca]
      | none =>
        rw [assign_move_self ops this w d ht hca]
        refine ⟨by simp, fun _ => World.Life.of_logs w _ _ ?_ (by simp)
          (by simp [no_live_construct]) (by simp [derefs_ok]) ?_⟩
        · exact World.wf_set hw this _ (optional.wf_engaged _)
        · intro r
          by_cases h : r = this <;> simp_all [net, World.flags]
    · cases hca : (ops.moveAssign d s).2.2 with
      | some e => simp [assign_move_both_fail ops this other w d s e hne ht hs hca]
      | none =>
        rw [assign_move_both ops this other w d s hne ht hs hca]
        refine ⟨by simp, fun _ => World.Life.of_logs w _ _ ?_ (by simp)
          (by simp [no_live_construct]) (by simp [derefs_ok]) ?_⟩
        · exact World.wf_set (World.wf_set hw other _ (optional.wf_engaged _)) this _
            (optional.wf_engaged _)
        · intro r
          by_cases h : r = this <;> by_cases h2 : r = other <;>
            simp_all [net, World.flags]

theorem life_swap (ops : TOps T U E) (this other : Ref) (w : World T E) (hw : w.wf) :
    (swap ops this other w).1 ≠ .undefined ∧
    ((∃ x, (swap ops this other w).1 = .ok x) → w.Life (swap ops this other w).2) := by
  obtain ht | ⟨x, ht⟩ := optional.wf_cases _ (World.wf_get hw this) <;>
  obtain hs | ⟨y, hs⟩ := optional.wf_cases _ (World.wf_get hw other) <;>
  simp only [optional.holds, optional.empty] at ht hs
  · rw [swap_neither ops this other w (by simp [ht]) (by simp [hs])]
    exact ⟨by simp, fun _ => World.Life.same w hw⟩
  · have hne : other ≠ this := by
      intro h; rw [h, ht] at hs; simp at hs
    have hne2 : this ≠ other := fun h => hne h.symm
    cases hv : (ops.moveCtor y).1 with
    | error e =>
      simp [swap, emplace, reset, construct, T_made_at_error, has_value_apply,
        operator_star_apply, M.bind, M.noexcept, M.read, M.load, M.set_mem, ht, hs, hv, hne,
        hne2]
    | ok v =>
      cases hd : ops.dtor (ops.moveCtor y).2 with
      | some e =>
        simp [swap, emplace, reset, destroy, construct, T_made_at_ok, T_throw_some, value,
          has_value_apply, operator_star_apply, M.bind, M.noexcept, M.read, M.load, M.set_mem,
          M.set_has_value, M.emit, ht, hs, hv, hd, hne, hne2]
      | none =>
        rw [swap_second_only ops this other w y v ht hs hv hd]
        refine ⟨by simp, fun _ => World.Life.of_logs w _ _ ?_ (by simp)
          (by simp [no_live_construct]) (by simp [derefs_ok]) ?_⟩
        · exact World.wf_set (World.wf_set hw this _ (optional.wf_engaged v)) other _
            optional.wf_disengaged
        · intro r
          by_cases h : r = this <;> by_cases h2 : r = other <;>
            simp_all [net, World.flags]
  · have hne : other ≠ this := by
      intro h; rw [h, ht] at hs; simp at hs
    have hne2 : this ≠ other := fun h => hne h.symm
    cases hv : (ops.moveCtor x).1 with
    | error e =>
      simp [swap, emplace, reset, construct, T_made_at_error, has_value_apply,
        operator_star_apply, M.bind, M.noexcept, M.read, M.load, M.set_mem, ht, hs, hv, hne,
        hne2]
    | ok v =>
      cases hd : ops.dtor (ops.moveCtor x).2 with
      | some e =>
        simp [swap, emplace, reset, destroy, construct, T_made_at_ok, T_throw_some, value,
          has_value_apply, operator_star_apply, M.bind, M.noexcept, M.read, M.load, M.set_mem,
          M.set_has_value, M.emit, ht, hs, hv, hd, hne, hne2]
      | none =>
        rw [swap_first_only ops this other w x v ht hs hv hd]
        refine ⟨by simp, fun _ => World.Life.of_logs w _ _ ?_ (by simp)
          (by simp [no_live_construct]) (by simp [derefs_ok]) ?_⟩
        · exact World.wf_set (World.wf_set hw other _ (optional.wf_engaged v)) this _
            optional.wf_disengaged
        · intro r
          by_cases h : r = this <;> by_cases h2 : r = other <;>
            simp_all [net, World.flags]
  · cases hca : (ops.swap x y).2.2 with
    | some e =>
      simp [swap, T_swap, T_throw_some, has_value_apply, operator_star_apply, M.bind,
        M.noexcept, M.load, M.set_mem, M.emit, ht, hs, hca]
    | none =>
      rw [swap_both ops this other w x y ht hs hca]
      refine ⟨by simp, fun _ => World.Life.of_logs w _ _ ?_ (by simp)
        (by simp [no_live_construct]) (by simp [derefs_ok]) ?_⟩
      · exact World.wf_set (World.wf_set hw other _ (optional.wf_engaged _)) this _
          (optional.wf_engaged _)
      · intro r
        by_cases h : r = this <;> by_cases h2 : r = other <;>
          simp_all [net, World.flags]

theorem life_value_or (ops : TOps T U E) (this : Ref) (w : World T E) (hw : w.wf) (u : U) :
    ((value_or ops this u w).1 ≠ .undefined ∧
      ((∃ x, (value_or ops this u w).1 = .ok x) → w.Life (value_or ops this u w).2)) ∧
    ((value_or_move ops this u w).1 ≠ .undefined ∧
      ((∃ x, (value_or_move ops this u w).1 = .ok x) →
        w.Life (value_or_move ops this u w).2)) := by
  obtain ht | ⟨x, ht⟩ := optional.wf_cases _ (World.wf_get hw this) <;>
  simp only [optional.holds, optional.empty] at ht
  · cases hc : ops.convCtor u with
    | error e =>
      constructor
      · simp [value_or, T_return_conv, T_made_error, operator_bool_apply, M.bind, ht, hc]
      · simp [value_or_move, T_return_conv, T_made_error, operator_bool_apply, M.bind, ht, hc]
    | ok c =>
      rw [value_or_disengaged ops this w u c (by simp [ht]) hc,
        value_or_move_disengaged ops this w u c (by simp [ht]) hc]
      exact ⟨⟨by simp, fun _ => World.Life.same w hw⟩,
        ⟨by simp, fun _ => World.Life.same w hw⟩⟩
  · constructor
    · cases hv : ops.copyCtor x with
      | error e =>
        simp [value_or, T_return_copy, T_made_error, operator_bool_apply, operator_star_apply,
          M.bind, M.load, ht, hv]
      | ok v =>
        rw [value_or_engaged ops this w u x v ht hv]
        exact ⟨by simp, fun _ => World.Life.of_logs w w _ hw rfl
          (by simp [no_live_construct]) (by simp [derefs_ok]) (fun r => by simp [net])⟩
    · cases hv : (ops.moveCtor x).1 with
      | error e =>
        simp [value_or_move, T_return_move, T_made_error, operator_bool_apply,
          operator_star_apply, M.bind, M.load, M.set_mem, ht, hv]
      | ok v =>
        rw [value_or_move_engaged ops this w u x v ht hv]
        refine ⟨by simp, fun _ => World.Life.of_logs w _ _ ?_ (by simp)
          (by simp [no_live_construct]) (by simp [derefs_ok]) ?_⟩
        · exact World.wf_set hw _ _ (optional.wf_engaged _)
        · intro r
          by_cases h : r = this <;> simp [net, World.flags, h, ht]

theorem M.Lives.discarded {α : Type} {m : M T E α} {w : World T E} (h : m.Lives w) :
    (discard m).Lives w := by
  rcases hm : m w with ⟨o, w1⟩
  simp only [M.Lives, hm] at h
  cases o <;> simp_all [M.Lives, cm.discard, M.bind]

theorem M.Lives.guarded {α : Type} {m : M T E α} {w : World T E} (h : m.Lives w) :
    (M.noexcept m).Lives w := by
  rcases hm : m w with ⟨o, w1⟩
  simp only [M.Lives, hm] at h
  cases o <;> simp_all [M.Lives, M.noexcept]

theorem World.set_same (w : World T E) (r : Ref) (o : optional T) (h : w.get r = o) :
    w.set r o = w := by
  apply World.ext_get
  · intro q; by_cases hq : q = r <;> simp [hq, h]
  · simp

theorem M.Lives.after_raw_init {α : Type} {m : M T E α} {w : World T E} (this : Ref)
    (he : w.get this = ⟨false, none⟩) (h : m.Lives w) :
    (do init this; let _ ← m : M T E Unit).Lives w := by
  have hi : (init this : M T E Unit) w = (.ok (), w) := by
    simp [init, World.set_same w this _ he]
  rcases hm : m w with ⟨o, w1⟩
  simp only [M.Lives, hm] at h
  cases o <;> simp_all [M.Lives, M.bind]

theorem life_simple (this : Ref) (w : World T E) (hw : w.wf) :
    (has_value this).Lives w ∧ (operator_bool this).Lives w ∧ (value this).Lives w := by
  refine ⟨?_, ?_, ?_⟩
  · simp only [M.Lives, has_value_apply]
    exact ⟨by simp, fun _ => World.Life.same w hw⟩
  · simp only [M.Lives, operator_bool_apply]
    exact ⟨by simp, fun _ => World.Life.same w hw⟩
  · cases hf : (w.get this)._has_value with
    | false => simp [M.Lives, value_disengaged this w hf]
    | true =>
      simp only [M.Lives, value_engaged this w hf]
      exact ⟨by simp, fun _ => World.Life.of_logs w w _ hw rfl
        (by simp [no_live_construct]) (by simp [derefs_ok]) (fun r => by simp [net])⟩

theorem life_assign_nullopt (ops : TOps T U E) (this : Ref) (w : World T E) (hw : w.wf) :
    (assign_nullopt ops this).Lives w := by
  have h := life_reset ops this w hw
  rcases hm : reset ops this w with ⟨o, w1⟩
  rw [hm] at h
  cases o <;> simp_all [M.Lives, assign_nullopt, M.bind, M.noexcept]

/-- From a state satisfying the lifetime invariant no operation runs into
undefined behaviour, and an operation that returns keeps the lifetime
discipline, whatever `T` is.  A constructor runs on raw storage. -/
theorem Op.run_life (ops : TOps T U E) (op : Op U) (this other : Ref) (w : World T E)
    (hw : w.wf) (hc : op.is_ctor = true → w.get this = ⟨false, none⟩) :
    (op.run ops this other w).1 ≠ .undefined ∧
    (((op.run ops this other w).1 = .ok () ∨
        (op.run ops this other w).1 = .throw .bad_optional_access) →
      w.Life (op.run ops this other w).2) := by
  have key : (op.run ops this other).Lives w := by
    cases op with
    | ctor_default =>
      have he := hc rfl
      have hi : Op.run ops this other Op.ctor_default w = (.ok (), w) := by
        simp [Op.run, optional_default, init, M.noexcept, World.set_same w this _ he]
      simp only [M.Lives, hi]
      exact ⟨by simp, fun _ => World.Life.same w hw⟩
    | ctor_nullopt =>
      have he := hc rfl
      have hi : Op.run ops this other Op.ctor_nullopt w = (.ok (), w) := by
        simp [Op.run, optional_nullopt, init, M.noexcept, M.bind, World.set_same w this _ he]
      simp only [M.Lives, hi]
      exact ⟨by simp, fun _ => World.Life.same w hw⟩
    | ctor_copy => exact M.Lives.after_raw_init this (hc rfl) (life_assign_copy ops this other w hw)
    | ctor_move =>
      exact (M.Lives.after_raw_init this (hc rfl) (life_assign_move ops this other w hw)).guarded
    | ctor_in_place u => exact M.Lives.after_raw_init this (hc rfl) (life_emplace ops this w hw u)
    | ctor_conv u => exact M.Lives.after_raw_init this (hc rfl) (life_emplace ops this w hw u)
    | make_optional u => exact M.Lives.after_raw_init this (hc rfl) (life_emplace ops this w hw u)
    | make_optional_in_place u =>
      exact M.Lives.after_raw_init this (hc rfl) (life_emplace ops this w hw u)
    | assign_nullopt => exact (life_assign_nullopt ops this w hw).discarded
    | assign_copy => exact M.Lives.discarded (life_assign_copy ops this other w hw)
    | assign_move => exact M.Lives.discarded (life_assign_move ops this other w hw)
    | assign_conv u => exact M.Lives.discarded (life_assign_conv ops this w hw u)
    | emplace u => exact M.Lives.discarded (life_emplace ops this w hw u)
    | reset => exact life_reset ops this w hw
    | swap => exact life_swap ops this other w hw
    | has_value => exact (life_simple this w hw).1.discarded
    | operator_bool => exact (life_simple this w hw).2.1.discarded
    | value => exact (life_simple this w hw).2.2.discarded
    | value_or u => exact M.Lives.discarded (life_value_or ops this w hw u).1
    | value_or_move u => exact M.Lives.discarded (life_value_or ops this w hw u).2
  refine ⟨key.1, ?_⟩
  rintro (h | h)
  · exact key.2 ⟨(), h⟩
  · by_cases hv : op = .value
    · subst hv
      cases hf : (w.get this)._has_value with
      | false =>
        have hw1 : Op.run ops this other Op.value w = (.throw .bad_optional_access, w) := by
          simp [Op.run, cm.discard, M.bind, value_disengaged this w hf]
        rw [hw1]
        exact World.Life.same w hw
      | true =>
        simp [Op.run, cm.discard, M.bind, value_engaged this w hf] at h
    · obtain ⟨evs, _, hfa⟩ := Op.run_good ops op hv this other w
      rw [h] at hfa
      simp [Outcome.Faithful] at hfa

@[simp] theorem NWorld.get_of_set (n : NWorld T) (r s : Ref) (o : Option T) :
    (n.set r o).get s = if s = r then o else n.get s := by
  cases r <;> cases s <;> simp [NWorld.get, NWorld.set]

theorem NWorld.ext_of_get {n1 n2 : NWorld T} (h : ∀ r, n1.get r = n2.get r) : n1 = n2 := by
  rcases n1 with ⟨a1, b1⟩
  rcases n2 with ⟨a2, b2⟩
  have ha := h Ref.a
  have hb := h Ref.b
  simp only [NWorld.get] at ha hb
  simp [ha, hb]

@[simp] theorem World.get_abs (w : World T E) (r : Ref) : w.abs.get r = (w.get r).abs := by
  cases r <;> rfl

/-- Two worlds have the same abstraction when their containers do. -/
theorem World.abs_eq_set (_w w1 : World T E) (n : NWorld T)
    (h : ∀ r, (w1.get r).abs = n.get r) : w1.abs = n :=
  NWorld.ext_of_get (fun r => by rw [World.get_abs, h r])

theorem native_reset (ops : TOps T U E) (conv : U → T) (hreg : ops.Regular conv)
    (this : Ref) (w : World T E) (hw : w.wf) :
    ((reset ops this w).1 = .ok () ∧
      (reset ops this w).2.abs = w.abs.set this none) := by
  obtain ht | ⟨d, ht⟩ := optional.wf_cases _ (World.wf_get hw this) <;>
  simp only [optional.holds, optional.empty] at ht
  · rw [reset_disengaged ops this w (by simp [ht])]
    refine ⟨rfl, World.abs_eq_set w _ _ (fun r => ?_)⟩
    by_cases h : r = this <;> simp [h, ht, optional.abs]
  · rw [reset_engaged ops this w d ht (hreg.dtor d)]
    refine ⟨rfl, World.abs_eq_set w _ _ (fun r => ?_)⟩
    by_cases h : r = this <;> simp [h, ht, optional.abs]

theorem native_emplace (ops : TOps T U E) (conv : U → T) (hreg : ops.Regular conv)
    (this : Ref) (w : World T E) (hw : w.wf) (u : U) :
    (emplace ops this (.forward u) w).1 = .ok this ∧
    (emplace ops this (.forward u) w).2.abs = w.abs.set this (some (conv u)) ∧
    ((emplace ops this (.forward u) w).2.get this)._mem = some (conv u) := by
  obtain ht | ⟨d, ht⟩ := optional.wf_cases _ (World.wf_get hw this) <;>
  simp only [optional.holds, optional.empty] at ht
  · rw [emplace_forward_empty ops this w u (conv u) ht (hreg.convCtor u)]
    refine ⟨rfl, World.abs_eq_set w _ _ (fun r => ?_), by simp⟩
    by_cases h : r = this <;> simp [h, ht, optional.abs]
  · rw [emplace_forward_engaged ops this w u d (conv u) ht (hreg.dtor d) (hreg.convCtor u)]
    refine ⟨rfl, World.abs_eq_set w _ _ (fun r => ?_), by simp⟩
    by_cases h : r = this <;> simp [h, ht, optional.abs]

theorem native_assign_conv (ops : TOps T U E) (conv : U → T) (hreg : ops.Regular conv)
    (this : Ref) (w : World T E) (hw : w.wf) (u : U) :
    (assign_conv ops this u w).1 = .ok this ∧
    (assign_conv ops this u w).2.abs = w.abs.set this (some (conv u)) := by
  obtain ht | ⟨d, ht⟩ := optional.wf_cases _ (World.wf_get hw this) <;>
  simp only [optional.holds, optional.empty] at ht
  · rw [assign_conv_empty ops this w u (conv u) ht (hreg.convCtor u)]
    refine ⟨rfl, World.abs_eq_set w _ _ (fun r => ?_)⟩
    by_cases h : r = this <;> simp [h, ht, optional.abs]
  · rw [assign_conv_engaged ops this w d u ht (by rw [hreg.convAssign]), hreg.convAssign]
    refine ⟨rfl, World.abs_eq_set w _ _ (fun r => ?_)⟩
    by_cases h : r = this <;> simp [h, ht, optional.abs]

theorem native_assign_copy (ops : TOps T U E) (conv : U → T) (hreg : ops.Regular conv)
    (this other : Ref) (w : World T E) (hw : w.wf) :
    (assign_copy ops this other w).1 = .ok this ∧
    (assign_copy ops this other w).2.abs = w.abs.set this (w.abs.get other) := by
  obtain ht | ⟨d, ht⟩ := optional.wf_cases _ (World.wf_get hw this) <;>
  obtain hs | ⟨s, hs⟩ := optional.wf_cases _ (World.wf_get hw other) <;>
  simp only [optional.holds, optional.empty] at ht hs
  · rw [assign_copy_src_empty ops this other w w (by simp [hs])
      (reset_disengaged ops this w (by simp [ht]))]
    refine ⟨rfl, World.abs_eq_set w _ _ (fun r => ?_)⟩
    by_cases h : r = this <;> simp [h, ht, hs, optional.abs]
  · rw [assign_copy_src_only ops this other w s s ht hs (hreg.copyCtor s)]
    refine ⟨rfl, World.abs_eq_set w _ _ (fun r => ?_)⟩
    by_cases h : r = this <;> simp [h, ht, hs, optional.abs]
  · rw [assign_copy_src_empty ops this other w _ (by simp [hs])
      (reset_engaged ops this w d ht (hreg.dtor d))]
    refine ⟨rfl, World.abs_eq_set w _ _ (fun r => ?_)⟩
    by_cases h : r = this <;> simp [h, ht, hs, optional.abs]
  · rw [assign_copy_both ops this other w d s ht hs (by rw [hreg.copyAssign]),
      hreg.copyAssign]
    refine ⟨rfl, World.abs_eq_set w _ _ (fun r => ?_)⟩
    by_cases h : r = this <;> simp [h, ht, hs, optional.abs]

theorem native_assign_move (ops : TOps T U E) (conv : U → T) (hreg : ops.Regular conv)
    (this other : Ref) (w : World T E) (hw : w.wf) :
    (assign_move ops this other w).1 = .ok this ∧
    (assign_move ops this other w).2.abs
      = (Op.native ops conv this other .assign_move w.abs).2 := by
  obtain ht | ⟨d, ht⟩ := optional.wf_cases _ (World.wf_get hw this) <;>
  obtain hs | ⟨s, hs⟩ := optional.wf_cases _ (World.wf_get hw other) <;>
  simp only [optional.holds, optional.empty] at ht hs
  · rw [assign_move_src_empty ops this other w w (by simp [hs])
      (reset_disengaged ops this w (by simp [ht]))]
    refine ⟨rfl, World.abs_eq_set w _ _ (fun r => ?_)⟩
    by_cases h : r = this <;> simp [Op.native, h, ht, hs, optional.abs]
  · have hne : other ≠ this := by
      intro h; rw [h, ht] at hs; simp at hs
    rw [assign_move_src_only ops this other w s s ht hs (hreg.moveCtor s)]
    refine ⟨rfl, World.abs_eq_set w _ _ (fun r => ?_)⟩
    by_cases h : r = this <;> by_cases h2 : r = other <;>
      simp_all [Op.native, optional.abs]
  · rw [assign_move_src_empty ops this other w _ (by simp [hs])
      (reset_engaged ops this w d ht (hreg.dtor d))]
    refine ⟨rfl, World.abs_eq_set w _ _ (fun r => ?_)⟩
    by_cases h : r = this <;> simp [Op.native, h, ht, hs, optional.abs]
  · by_cases hne : this = other
    · subst hne
      rw [assign_move_self ops this w d ht (hreg.selfMoveAssign d)]
      refine ⟨rfl, World.abs_eq_set w _ _ (fun r => ?_)⟩
      by_cases h : r = this <;> simp_all [Op.native, optional.abs]
    · rw [assign_move_both ops this other w d s hne ht hs (hreg.moveAssign d s).2,
        (hreg.moveAssign d s).1]
      refine ⟨rfl, World.abs_eq_set w _ _ (fun r => ?_)⟩
      by_cases h : r = this <;> by_cases h2 : r = other <;>
        simp_all [Op.native, optional.abs]

theorem native_swap (ops : TOps T U E) (conv : U → T) (hreg : ops.Regular conv)
    (this other : Ref) (w : World T E) (hw : w.wf) :
    (swap ops this other w).1 = .ok () ∧
    (swap ops this other w).2.abs
      = (w.abs.set this (w.abs.get other)).set other (w.abs.get this) := by
  obtain ht | ⟨x, ht⟩ := optional.wf_cases _ (World.wf_get hw this) <;>
  obtain hs | ⟨y, hs⟩ := optional.wf_cases _ (World.wf_get hw other) <;>
  simp only [optional.holds, optional.empty] at ht hs
  · rw [swap_neither ops this other w (by simp [ht]) (by simp [hs])]
    refine ⟨rfl, World.abs_eq_set w _ _ (fun r => ?_)⟩
    by_cases h : r = this <;> by_cases h2 : r = other <;> simp_all [optional.abs]
  · have hne : other ≠ this := by
      intro h; rw [h, ht] at hs; simp at hs
    rw [swap_second_only ops this other w y y ht hs (hreg.moveCtor y) (hreg.dtor _)]
    refine ⟨rfl, World.abs_eq_set w _ _ (fun r => ?_)⟩
    by_cases h : r = this <;> by_cases h2 : r = other <;> simp_all [optional.abs]
  · have hne : other ≠ this := by
      intro h; rw [h, ht] at hs; simp at hs
    rw [swap_first_only ops this other w x x ht hs (hreg.moveCtor x) (hreg.dtor _)]
    refine ⟨rfl, World.abs_eq_set w _ _ (fun r => ?_)⟩
    by_cases h : r = this <;> by_cases h2 : r = other <;> simp_all [optional.abs]
  · rw [swap_both ops this other w x y ht hs (by rw [hreg.swap]), hreg.swap]
    refine ⟨rfl, World.abs_eq_set w _ _ (fun r => ?_)⟩
    by_cases h : r = this <;> by_cases h2 : r = other <;> simp_all [optional.abs]

theorem native_init (this : Ref) (w : World T E) (hw : w.wf) :
    (w.set this ⟨false, none⟩).wf ∧ (w.set this ⟨false, none⟩).abs = w.abs.set this none := by
  refine ⟨World.wf_set hw _ _ optional.wf_disengaged, World.abs_eq_set w _ _ (fun r => ?_)⟩
  by_cases h : r = this <;> simp [h, optional.abs]

@[simp] theorem NWorld.set_set (n : NWorld T) (r : Ref) (o1 o2 : Option T) :
    (n.set r o1).set r o2 = n.set r o2 := by
  cases r <;> rfl

theorem net_append (r : Ref) (l1 l2 : List (Event T E)) :
    net r (l1 ++ l2) = net r l1 + net r l2 := by
  induction l1 with
  | nil => simp [net]
  | cons ev t ih => cases ev <;> simp [net, ih, add_assoc]

theorem no_live_construct_append (l1 l2 : List (Event T E)) :
    no_live_construct (l1 ++ l2) = (no_live_construct l1 && no_live_construct l2) := by
  induction l1 with
  | nil => simp [no_live_construct]
  | cons ev t ih => cases ev <;> simp [no_live_construct, ih, Bool.and_assoc]

/-- A sequence of calls that returned keeps the lifetime invariant, never
constructs in live storage, and keeps constructions minus destructions equal
to the change of the flag. -/
theorem runCalls_life (ops : TOps T U E) (calls : List (Call U))
    (hc : ∀ c ∈ calls, c.op.is_ctor = false) (w : World T E) (hw : w.wf)
    (hok : allReturn ops calls w) :
    (runCalls ops calls w).wf ∧
    ∃ evs, (runCalls ops calls w).log = w.log ++ evs ∧ no_live_construct evs = true ∧
      ∀ r, net r evs = (((runCalls ops calls w).flags r).toNat : Int)
        - ((w.flags r).toNat : Int) := by
  induction calls generalizing w with
  | nil => exact ⟨hw, [], by simp [runCalls], rfl, fun r => by simp [runCalls, net]⟩
  | cons c cs ih =>
    have hctor : c.op.is_ctor = false := hc c (List.mem_cons_self _ _)
    obtain ⟨hw1, evs1, hl1, hn1, _, hb1⟩ :=
      (Op.run_life ops c.op c.this c.other w hw (by simp [hctor])).2 hok.1
    obtain ⟨hw2, evs2, hl2, hn2, hb2⟩ :=
      ih (fun c1 h1 => hc c1 (List.mem_cons_of_mem _ h1)) _ hw1 hok.2
    refine ⟨hw2, evs1 ++ evs2, ?_, ?_, ?_⟩
    · simp only [runCalls]; rw [hl2, hl1, List.append_assoc]
    · rw [no_live_construct_append, hn1, hn2]; rfl
    · intro r
      simp only [runCalls] at hb2 ⊢
      rw [net_append, hb1 r, hb2 r]
      ring

/-! ### Every call is sound, whatever its outcome -/

theorem derefs_guarded_append (l1 l2 : List (Event T E)) (h : derefs_guarded l1 = true) :
    derefs_guarded (l1 ++ l2) = derefs_guarded l2 := by
  induction l1 with
  | nil => rfl
  | cons ev t ih =>
    cases ev with
    | deref r b =>
      cases b with
      | true => simpa [derefs_guarded] using ih (by simpa [derefs_guarded] using h)
      | false =>
        cases t with
        | nil => simp [derefs_guarded] at h
        | cons x t2 =>
          cases x with
          | destroy q v =>
            simp only [derefs_guarded, Bool.and_eq_true, decide_eq_true_eq] at h
            have := ih (by simpa [derefs_guarded] using h.2)
            simp only [List.cons_append, derefs_guarded, List.append_eq] at this ⊢
            simp [h.1, this]
          | construct q live v =>
            cases live with
            | true => simp [derefs_guarded] at h
            | false =>
              simp only [derefs_guarded, Bool.and_eq_true, decide_eq_true_eq] at h
              have := ih (by simpa [derefs_guarded] using h.2)
              simp only [List.cons_append, derefs_guarded, List.append_eq] at this ⊢
              simp [h.1, this]
          | fail e =>
            simp only [derefs_guarded] at h
            have := ih (by simpa [derefs_guarded] using h)
            simp only [List.cons_append, derefs_guarded, List.append_eq] at this ⊢
            exact this
          | flag q b => simp [derefs_guarded] at h
          | deref q b => cases b <;> simp [derefs_guarded] at h
          | assign q v => simp [derefs_guarded] at h
          | swap q s => simp [derefs_guarded] at h
    | flag q b => simpa [derefs_guarded] using ih (by simpa [derefs_guarded] using h)
    | construct q live v => simpa [derefs_guarded] using ih (by simpa [derefs_guarded] using h)
    | destroy q v => simpa [derefs_guarded] using ih (by simpa [derefs_guarded] using h)
    | assign q v => simpa [derefs_guarded] using ih (by simpa [derefs_guarded] using h)
    | swap q s => simpa [derefs_guarded] using ih (by simpa [derefs_guarded] using h)
    | fail e => simpa [derefs_guarded] using ih (by simpa [derefs_guarded] using h)

theorem construct_failed_append (l1 l2 : List (Event T E)) (h : derefs_guarded l1 = true) :
    construct_failed (l1 ++ l2) = (construct_failed l1 || construct_failed l2) := by
  induction l1 with
  | nil => rfl
  | cons ev t ih =>
    cases ev with
    | deref r b =>
      cases b with
      | true => simpa [construct_failed] using ih (by simpa [derefs_guarded] using h)
      | false =>
        cases t with
        | nil => simp [derefs_guarded] at h
        | cons x t2 =>
          cases x with
          | destroy q v =>
            simp only [derefs_guarded, Bool.and_eq_true, decide_eq_true_eq] at h
            have := ih (by simpa [derefs_guarded] using h.2)
            simpa [construct_failed] using this
          | construct q live v =>
            cases live with
            | true => simp [derefs_guarded] at h
            | false =>
              simp only [derefs_guarded, Bool.and_eq_true, decide_eq_true_eq] at h
              have := ih (by simpa [derefs_guarded] using h.2)
              simpa [construct_failed] using this
          | fail e => simp [construct_failed]
          | flag q b => simp [derefs_guarded] at h
          | deref q b => cases b <;> simp [derefs_guarded] at h
          | assign q v => simp [derefs_guarded] at h
          | swap q s => simp [derefs_guarded] at h
    | flag q b => simpa [construct_failed] using ih (by simpa [derefs_guarded] using h)
    | construct q live v => simpa [construct_failed] using ih (by simpa [derefs_guarded] using h)
    | destroy q v => simpa [construct_failed] using ih (by simpa [derefs_guarded] using h)
    | assign q v => simpa [construct_failed] using ih (by simpa [derefs_guarded] using h)
    | swap q s => simpa [construct_failed] using ih (by simpa [derefs_guarded] using h)
    | fail e => simpa [construct_failed] using ih (by simpa [derefs_guarded] using h)

theorem M.Sound.of_world {α : Type} {m : M T E α} {w W : World T E} {o : Outcome E α}
    {l : List (Event T E)} {f : Ref → Bool} (h : m w = (o, W.logs l)) (hl : W.log = w.log)
    (ho : o ≠ .undefined) (hW : W.wf) (hd : derefs_guarded l = true)
    (hf : o ≠ .terminate → construct_failed l = false → ∀ r, W.flags r = f r) :
    m.Sound w f := by
  refine ⟨by rw [h]; exact ho, by rw [h]; simpa using hW, l, by rw [h]; simp [hl], hd, ?_⟩
  rw [h]
  intro h1 h2 r
  simpa [World.flags] using hf h1 h2 r

theorem M.Sound.unchanged {α : Type} {m : M T E α} {w : World T E} {o : Outcome E α}
    {f : Ref → Bool} (h : m w = (o, w)) (ho : o ≠ .undefined) (hw : w.wf)
    (hf : ∀ r, w.flags r = f r) : m.Sound w f :=
  ⟨by rw [h]; exact ho, by rw [h]; exact hw, [], by rw [h]; simp, rfl,
    fun _ _ r => by rw [h]; exact hf r⟩

theorem M.Sound.after {α β : Type} {m : M T E α} {k : M T E β} {w W : World T E}
    {l : List (Event T E)} {f g : Ref → Bool} (h : k.Sound W g) (hl : W.log = w.log ++ l)
    (hd : derefs_guarded l = true) (hW : (m w).2 = (k W).2)
    (hu : (m w).1 = .undefined → (k W).1 = .undefined)
    (ht : (k W).1 = .terminate → (m w).1 = .terminate)
    (hf : ∀ r, g r = f r) : m.Sound w f := by
  obtain ⟨h1, h2, evs, h3, h4, h5⟩ := h
  refine ⟨fun hx => h1 (hu hx), by rw [hW]; exact h2, l ++ evs, ?_, ?_, ?_⟩
  · rw [hW, h3, hl, List.append_assoc]
  · rw [derefs_guarded_append l evs hd]; exact h4
  · intro hn hc r
    rw [construct_failed_append l evs hd] at hc
    simp only [Bool.or_eq_false_iff] at hc
    rw [hW, h5 (fun hx => hn (ht hx)) hc.2 r, hf r]

theorem M.Sound.congr {α β : Type} {m : M T E α} {k : M T E β} {w : World T E}
    {f : Ref → Bool} (h : k.Sound w f) (hW : (m w).2 = (k w).2)
    (hu : (m w).1 = .undefined → (k w).1 = .undefined)
    (ht : (k w).1 = .terminate → (m w).1 = .terminate) : m.Sound w f :=
  M.Sound.after h (by simp : w.log = w.log ++ []) rfl hW hu ht (fun _ => rfl)

theorem M.Sound.map {α β : Type} {k : M T E α} {w : World T E} {f : Ref → Bool} (x : β)
    (h : k.Sound w f) : (k >>= fun _ => (pure x : M T E β)).Sound w f := by
  refine M.Sound.congr h ?_ ?_ ?_ <;>
    (rcases hk : k w with ⟨o, w1⟩; cases o <;> simp [M.bind, hk])

theorem M.Sound.under_noexcept {α : Type} {k : M T E α} {w : World T E} {f : Ref → Bool}
    (h : k.Sound w f) : (M.noexcept k).Sound w f := by
  refine M.Sound.congr h ?_ ?_ ?_ <;>
    (rcases hk : k w with ⟨o, w1⟩; cases o <;> simp [M.noexcept, hk])

theorem M.Sound.guarded_bind {α β : Type} {k1 : M T E α} {k2 : α → M T E β} {w : World T E}
    {f g : Ref → Bool} (h1 : k1.Sound w g)
    (h2 : ∀ x, (k1 w).1 = .ok x → (k2 x).Sound (k1 w).2 f) :
    (M.noexcept (k1 >>= k2)).Sound w f := by
  obtain ⟨hu, hw1, evs, hl, hd, _⟩ := h1
  rcases hk : k1 w with ⟨o, w1⟩
  rw [hk] at hu hw1 hl h2
  simp only at hu hw1 hl h2
  cases o with
  | ok x =>
    refine M.Sound.after (M.Sound.under_noexcept (h2 x rfl)) hl hd ?_ ?_ ?_ (fun _ => rfl) <;>
      simp [M.noexcept, M.bind, hk]
  | throw e =>
    exact ⟨by simp [M.noexcept, M.bind, hk], by simpa [M.noexcept, M.bind, hk] using hw1,
      evs, by simpa [M.noexcept, M.bind, hk] using hl, hd,
      fun hn => absurd (by simp [M.noexcept, M.bind, hk]) hn⟩
  | terminate =>
    exact ⟨by simp [M.noexcept, M.bind, hk], by simpa [M.noexcept, M.bind, hk] using hw1,
      evs, by simpa [M.noexcept, M.bind, hk] using hl, hd,
      fun hn => absurd (by simp [M.noexcept, M.bind, hk]) hn⟩
  | undefined => exact absurd rfl hu

theorem sound_reset (ops : TOps T U E) (this : Ref) (w : World T E) (hw : w.wf) :
    (reset ops this).Sound w (fun r => if r = this then false else w.flags r) := by
  obtain ht | ⟨d, ht⟩ := optional.wf_cases _ (World.wf_get hw this) <;>
  simp only [optional.holds, optional.empty] at ht
  · refine M.Sound.unchanged (reset_disengaged ops this w (by simp [ht])) (by simp) hw ?_
    intro r; by_cases h : r = this <;> simp [h, ht, World.flags]
  · cases hd : ops.dtor d with
    | some e =>
      refine M.Sound.of_world (reset_engaged_fail ops this w d e ht hd) (by simp) (by simp)
        (World.wf_set hw _ _ optional.wf_disengaged) (by simp [derefs_guarded])
        (fun h => absurd rfl h)
    | none =>
      refine M.Sound.of_world (reset_engaged ops this w d ht hd) (by simp) (by simp)
        (World.wf_set hw _ _ optional.wf_disengaged) (by simp [derefs_guarded]) ?_
      intro _ _ r; by_cases h : r = this <;> simp [h, World.flags]

theorem emplace_lvalue_empty_fail (ops : TOps T U E) (this other : Ref) (w : World T E) (s : T)
    (e : E) (hd : w.get this = ⟨false, none⟩) (hs : w.get other = ⟨true, some s⟩)
    (hc : ops.copyCtor s = .error e) :
    emplace ops this (.lvalue other) w
      = (.throw (.raised e), w.logs [.deref this false, .fail e]) := by
  have hne : other ≠ this := by
    intro h; rw [h, hd] at hs; simp at hs
  simp [emplace, reset, construct, T_made_at, value, has_value, operator_star,
    M.bind, M.noexcept, M.read, M.emit, M.raise, M.set_has_value, M.set_mem, M.load, hd, hs, hc,
    hne]
  apply World.ext_get
  · intro r; simp
  · simp

theorem emplace_rvalue_empty_fail (ops : TOps T U E) (this other : Ref) (w : World T E) (s : T)
    (e : E) (hd : w.get this = ⟨false, none⟩) (hs : w.get other = ⟨true, some s⟩)
    (hc : (ops.moveCtor s).1 = .error e) :
    emplace ops this (.rvalue other) w = (.throw (.raised e),
      (w.set other ⟨true, some (ops.moveCtor s).2⟩).logs [.deref this false, .fail e]) := by
  have hne : other ≠ this := by
    intro h; rw [h, hd] at hs; simp at hs
  have hne2 : this ≠ other := fun h => hne h.symm
  simp [emplace, reset, construct, T_made_at, value, has_value, operator_star,
    M.bind, M.noexcept, M.read, M.emit, M.raise, M.set_has_value, M.set_mem, M.load, hd, hs, hc,
    hne, hne2]
  apply World.ext_get
  · intro r; by_cases h2 : r = other <;> simp [h2, hs]
  · simp

theorem sound_emplace_empty (ops : TOps T U E) (this : Ref) (args : Args U) (w : World T E)
    (hw : w.wf) (ht : w.get this = ⟨false, none⟩) (ha : args.readable w this) :
    (emplace ops this args).Sound w (fun r => if r = this then true else w.flags r) := by
  have hfl : ∀ (W : World T E) (v : T), (∀ r, r ≠ this → W.flags r = w.flags r) →
      ∀ r, (W.set this ⟨true, some v⟩).flags r = if r = this then true else w.flags r := by
    intro W v hW r
    by_cases h : r = this
    · simp [h, World.flags]
    · simpa [h, World.flags] using hW r h
  cases args with
  | forward u =>
    cases hv : ops.convCtor u with
    | error e =>
      exact M.Sound.of_world (emplace_forward_empty_fail ops this w u e ht hv) rfl (by simp) hw
        (by simp [derefs_guarded]) (fun _ h => by simp [construct_failed] at h)
    | ok v =>
      exact M.Sound.of_world (emplace_forward_empty ops this w u v ht hv) (by simp) (by simp)
        (World.wf_set hw _ _ (optional.wf_engaged v)) (by simp [derefs_guarded])
        (fun _ _ => hfl w v (fun _ _ => rfl))
  | lvalue q =>
    obtain ⟨hq, s, hs⟩ := ha
    cases hv : ops.copyCtor s with
    | error e =>
      exact M.Sound.of_world (emplace_lvalue_empty_fail ops this q w s e ht hs hv) rfl (by simp) hw
        (by simp [derefs_guarded]) (fun _ h => by simp [construct_failed] at h)
    | ok v =>
      exact M.Sound.of_world (emplace_lvalue_empty ops this q w s v ht hs hv) (by simp) (by simp)
        (World.wf_set hw _ _ (optional.wf_engaged v)) (by simp [derefs_guarded])
        (fun _ _ => hfl w v (fun _ _ => rfl))
  | rvalue q =>
    obtain ⟨hq, s, hs⟩ := ha
    have hwq : (w.set q ⟨true, some (ops.moveCtor s).2⟩).wf :=
      World.wf_set hw _ _ (optional.wf_engaged _)
    cases hv : (ops.moveCtor s).1 with
    | error e =>
      exact M.Sound.of_world (emplace_rvalue_empty_fail ops this q w s e ht hs hv) (by simp)
        (by simp) hwq (by simp [derefs_guarded]) (fun _ h => by simp [construct_failed] at h)
    | ok v =>
      refine M.Sound.of_world (emplace_rvalue_empty ops this q w s v ht hs hv) (by simp) (by simp)
        (World.wf_set hwq _ _ (optional.wf_engaged v)) (by simp [derefs_guarded])
        (fun _ _ => hfl _ v (fun r _ => ?_))
      by_cases h2 : r = q <;> simp [h2, hs, World.flags]

theorem emplace_reset_fail (ops : TOps T U E) (this : Ref) (args : Args U) (w w1 : World T E)
    (hr : reset ops this w = (.terminate, w1)) :
    emplace ops this args w = (.terminate, w1) := by
  simp [emplace, M.bind, hr]

theorem emplace_after_reset (ops : TOps T U E) (this : Ref) (args : Args U) (w w1 : World T E)
    (hr : reset ops this w = (.ok (), w1)) :
    emplace ops this args w = emplace ops this args w1 := by
  have hf := reset_flag ops this w
  rw [hr] at hf
  simp [emplace, M.bind, hr, reset_disengaged ops this w1 hf]

theorem Args.readable_of_get {w W : World T E} {this : Ref} {args : Args U}
    (h : args.readable w this) (hW : ∀ r, r ≠ this → W.get r = w.get r) :
    args.readable W this := by
  cases args with
  | forward u => trivial
  | lvalue q => exact ⟨h.1, by rw [hW q h.1]; exact h.2⟩
  | rvalue q => exact ⟨h.1, by rw [hW q h.1]; exact h.2⟩

theorem sound_emplace (ops : TOps T U E) (this : Ref) (args : Args U) (w : World T E)
    (hw : w.wf) (ha : args.readable w this) :
    (emplace ops this args).Sound w (fun r => if r = this then true else w.flags r) := by
  obtain ht | ⟨d, ht⟩ := optional.wf_cases _ (World.wf_get hw this) <;>
  simp only [optional.holds, optional.empty] at ht
  · exact sound_emplace_empty ops this args w hw ht ha
  · cases hd : ops.dtor d with
    | some e =>
      exact M.Sound.of_world
        (emplace_reset_fail ops this args w _ (reset_engaged_fail ops this w d e ht hd))
        (by simp) (by simp) (World.wf_set hw _ _ optional.wf_disengaged)
        (by simp [derefs_guarded]) (fun h => absurd rfl h)
    | none =>
      have hr := reset_engaged ops this w d ht hd
      have hW : ((w.set this ⟨false, none⟩).logs
          [.flag this false, .deref this false, .destroy this d]).wf := by
        simpa using World.wf_set hw _ _ optional.wf_disengaged
      have hs := sound_emplace_empty ops this args _ hW (by simp)
        (Args.readable_of_get ha (fun r hr => by simp [hr]))
      have he := emplace_after_reset ops this args w _ hr
      refine M.Sound.after (l := [.flag this false, .deref this false, .destroy this d]) hs
        (by simp) (by simp [derefs_guarded]) (by rw [he]) (by rw [he]; exact id)
        (by rw [he]; exact id) ?_
      intro r; by_cases h : r = this <;> simp [h, World.flags]

theorem construct_failed_of_fails (l : List (Event T E)) (h : fails l = []) :
    construct_failed l = false := by
  induction l with
  | nil => rfl
  | cons ev t ih =>
    cases ev with
    | deref r b =>
      cases b with
      | true => simpa [construct_failed] using ih (by simpa [fails] using h)
      | false =>
        cases t with
        | nil => rfl
        | cons x t2 =>
          cases x <;> first
            | (simp [fails] at h; done)
            | simpa [construct_failed] using ih (by simpa [fails] using h)
    | fail e => simp [fails] at h
    | flag q b => simpa [construct_failed] using ih (by simpa [fails] using h)
    | construct q live v => simpa [construct_failed] using ih (by simpa [fails] using h)
    | destroy q v => simpa [construct_failed] using ih (by simpa [fails] using h)
    | assign q v => simpa [construct_failed] using ih (by simpa [fails] using h)
    | swap q s => simpa [construct_failed] using ih (by simpa [fails] using h)

theorem M.Sound.flags_of_ok {α : Type} {k : M T E α} {w : World T E} {f : Ref → Bool}
    {s b : Bool} {x : α} (h : k.Sound w f) (hg : k.Good s b) (hx : (k w).1 = .ok x) (r : Ref) :
    (k w).2.flags r = f r := by
  obtain ⟨_, _, evs, hl, _, hf⟩ := h
  obtain ⟨evs2, hl2, hfa⟩ := hg w
  have he : evs = evs2 := List.append_cancel_left (hl.symm.trans hl2)
  subst he
  rw [hx] at hfa
  exact hf (by rw [hx]; simp) (construct_failed_of_fails _ hfa) r

theorem assign_conv_engaged_fail (ops : TOps T U E) (this : Ref) (w : World T E) (d : T)
    (u : U) (e : E) (hd : w.get this = ⟨true, some d⟩) (hok : (ops.convAssign d u).2 = some e) :
    assign_conv ops this u w = (.throw (.raised e),
      (w.set this ⟨true, some (ops.convAssign d u).1⟩).logs
      [.deref this true, .assign this (ops.convAssign d u).1, .fail e]) := by
  simp [assign_conv, T_conv_assign, T_throw, value, has_value, operator_star, M.bind,
    M.noexcept, M.read, M.emit, M.raise, M.set_mem, M.load, hd, hok]
  apply World.ext_get
  · intro r; by_cases h1 : r = this <;> simp [h1]
  · simp

theorem sound_assign_conv (ops : TOps T U E) (this : Ref) (u : U) (w : World T E)
    (hw : w.wf) :
    (assign_conv ops this u).Sound w (fun r => if r = this then true else w.flags r) := by
  obtain ht | ⟨d, ht⟩ := optional.wf_cases _ (World.wf_get hw this) <;>
  simp only [optional.holds, optional.empty] at ht
  · have he : assign_conv ops this u w
        = (emplace ops this (.forward u) >>= fun _ => (pure this : M T E Ref)) w := by
      simp [assign_conv, has_value_apply, M.bind, ht]
    exact M.Sound.congr (M.Sound.map this (sound_emplace ops this (.forward u) w hw trivial))
      (by rw [he]) (by rw [he]; exact id) (by rw [he]; exact id)
  · have hW := World.wf_set hw this _ (optional.wf_engaged (ops.convAssign d u).1)
    have hfl : ∀ r, (w.set this ⟨true, some (ops.convAssign d u).1⟩).flags r
        = if r = this then true else w.flags r := by
      intro r; by_cases h : r = this <;> simp [h, World.flags]
    cases hca : (ops.convAssign d u).2 with
    | some e =>
      exact M.Sound.of_world (assign_conv_engaged_fail ops this w d u e ht hca) (by simp) (by simp)
        hW (by simp [derefs_guarded]) (fun _ _ => hfl)
    | none =>
      exact M.Sound.of_world (assign_conv_engaged ops this w d u ht hca) (by simp) (by simp)
        hW (by simp [derefs_guarded]) (fun _ _ => hfl)

theorem assign_copy_both_fail (ops : TOps T U E) (this other : Ref) (w : World T E) (d s : T)
    (e : E) (hd : w.get this = ⟨true, some d⟩) (hs : w.get other = ⟨true, some s⟩)
    (hok : (ops.copyAssign d s).2 = some e) :
    assign_copy ops this other w = (.throw (.raised e),
      (w.set this ⟨true, some (ops.copyAssign d s).1⟩).logs
      [.deref other true, .deref this true, .assign this (ops.copyAssign d s).1, .fail e]) := by
  simp [assign_copy, T_copy_assign, T_throw, value, has_value, operator_star, M.bind, M.noexcept,
    M.read, M.raise, M.emit, M.set_has_value, M.set_mem, M.load, hd, hs, hok]
  apply World.ext_get
  · intro r; simp
  · simp

theorem sound_assign_copy (ops : TOps T U E) (this other : Ref) (w : World T E) (hw : w.wf) :
    (assign_copy ops this other).Sound w
      (fun r => if r = this then w.flags other else w.flags r) := by
  obtain ht | ⟨d, ht⟩ := optional.wf_cases _ (World.wf_get hw this) <;>
  obtain hs | ⟨s, hs⟩ := optional.wf_cases _ (World.wf_get hw other) <;>
  simp only [optional.holds, optional.empty] at ht hs
  · have he : assign_copy ops this other w
        = (reset ops this >>= fun _ => (pure this : M T E Ref)) w := by
      simp [assign_copy, has_value_apply, M.bind, hs]
    refine M.Sound.after (l := []) (M.Sound.map this (sound_reset ops this w hw)) (by simp) rfl
      (by rw [he]) (by rw [he]; exact id) (by rw [he]; exact id) ?_
    intro r; by_cases h : r = this <;> simp [h, hs, World.flags]
  · have hne : other ≠ this := by
      intro h; rw [h, ht] at hs; simp at hs
    have he : assign_copy ops this other w
        = (emplace ops this (.lvalue other) >>= fun _ => (pure this : M T E Ref))
            (w.logs [.deref other true]) := by
      simp [assign_copy, has_value_apply, operator_star_apply, M.bind, hs, ht]
    refine M.Sound.after (l := [.deref other true])
      (M.Sound.map this (sound_emplace ops this (.lvalue other) (w.logs [.deref other true])
        (by simpa using hw) ⟨hne, s, by simpa using hs⟩))
      (by simp) (by simp [derefs_guarded]) (by rw [he]) (by rw [he]; exact id)
      (by rw [he]; exact id) ?_
    intro r; by_cases h : r = this <;> simp [h, hs, World.flags]
  · have he : assign_copy ops this other w
        = (reset ops this >>= fun _ => (pure this : M T E Ref)) w := by
      simp [assign_copy, has_value_apply, M.bind, hs]
    refine M.Sound.after (l := []) (M.Sound.map this (sound_reset ops this w hw)) (by simp) rfl
      (by rw [he]) (by rw [he]; exact id) (by rw [he]; exact id) ?_
    intro r; by_cases h : r = this <;> simp [h, hs, World.flags]
  · have hW := World.wf_set hw this _ (optional.wf_engaged (ops.copyAssign d s).1)
    have hfl : ∀ r, (w.set this ⟨true, some (ops.copyAssign d s).1⟩).flags r
        = if r = this then w.flags other else w.flags r := by
      intro r; by_cases h : r = this <;> simp [h, hs, World.flags]
    cases hca : (ops.copyAssign d s).2 with
    | some e =>
      exact M.Sound.of_world (assign_copy_both_fail ops this other w d s e ht hs hca) (by simp)
        (by simp) hW (by simp [derefs_guarded]) (fun _ _ => hfl)
    | none =>
      exact M.Sound.of_world (assign_copy_both ops this other w d s ht hs hca) (by simp)
        (by simp) hW (by simp [derefs_guarded]) (fun _ _ => hfl)

theorem sound_assign_move (ops : TOps T U E) (this other : Ref) (w : World T E) (hw : w.wf) :
    (assign_move ops this other).Sound w
      (fun r => if r = this then w.flags other else w.flags r) := by
  obtain ht | ⟨d, ht⟩ := optional.wf_cases _ (World.wf_get hw this) <;>
  obtain hs | ⟨s, hs⟩ := optional.wf_cases _ (World.wf_get hw other) <;>
  simp only [optional.holds, optional.empty] at ht hs
  · have he : assign_move ops this other w
        = M.noexcept (reset ops this >>= fun _ => (pure this : M T E Ref)) w := by
      simp [assign_move, has_value_apply, M.bind, M.noexcept, hs]
    refine M.Sound.after (l := []) (M.Sound.under_noexcept (M.Sound.map this (sound_reset ops this w hw)))
      (by simp) rfl (by rw [he]) (by rw [he]; exact id) (by rw [he]; exact id) ?_
    intro r; by_cases h : r = this <;> simp [h, hs, World.flags]
  · have hne : other ≠ this := by
      intro h; rw [h, ht] at hs; simp at hs
    have he : assign_move ops this other w
        = M.noexcept (emplace ops this (.rvalue other) >>= fun _ => (pure this : M T E Ref))
            (w.logs [.deref other true]) := by
      simp [assign_move, has_value_apply, operator_star_apply, M.bind, M.noexcept, hs, ht]
    refine M.Sound.after (l := [.deref other true])
      (M.Sound.under_noexcept (M.Sound.map this (sound_emplace ops this (.rvalue other)
        (w.logs [.deref other true]) (by simpa using hw) ⟨hne, s, by simpa using hs⟩)))
      (by simp) (by simp [derefs_guarded]) (by rw [he]) (by rw [he]; exact id)
      (by rw [he]; exact id) ?_
    intro r; by_cases h : r = this <;> simp [h, hs, World.flags]
  · have he : assign_move ops this other w
        = M.noexcept (reset ops this >>= fun _ => (pure this : M T E Ref)) w := by
      simp [assign_move, has_value_apply, M.bind, M.noexcept, hs]
    refine M.Sound.after (l := []) (M.Sound.under_noexcept (M.Sound.map this (sound_reset ops this w hw)))
      (by simp) rfl (by rw [he]) (by rw [he]; exact id) (by rw [he]; exact id) ?_
    intro r; by_cases h : r = this <;> simp [h, hs, World.flags]
  · by_cases hne : this = other
    · subst hne
      have hW := World.wf_set hw this _ (optional.wf_engaged (ops.selfMoveAssign d).1)
      have hfl : ∀ r, (w.set this ⟨true, some (ops.selfMoveAssign d).1⟩).flags r
          = if r = this then w.flags this else w.flags r := by
        intro r; by_cases h : r = this <;> simp [h, ht, World.flags]
      cases hca : (ops.selfMoveAssign d).2 with
      | some e =>
        exact M.Sound.of_world (assign_move_self_fail ops this w d e ht hca) (by simp) (by simp)
          hW (by simp [derefs_guarded]) (fun _ _ => hfl)
      | none =>
        exact M.Sound.of_world (assign_move_self ops this w d ht hca) (by simp) (by simp)
          hW (by simp [derefs_guarded]) (fun _ _ => hfl)
    · have hW := World.wf_set (World.wf_set hw other _
        (optional.wf_engaged (ops.moveAssign d s).2.1)) this _
        (optional.wf_engaged (ops.moveAssign d s).1)
      have hfl : ∀ r, ((w.set other ⟨true, some (ops.moveAssign d s).2.1⟩).set this
          ⟨true, some (ops.moveAssign d s).1⟩).flags r
          = if r = this then w.flags other else w.flags r := by
        intro r; by_cases h : r = this <;> by_cases h2 : r = other <;>
          simp_all [World.flags]
      cases hca : (ops.moveAssign d s).2.2 with
      | some e =>
        exact M.Sound.of_world (assign_move_both_fail ops this other w d s e hne ht hs hca)
          (by simp) (by simp) hW (by simp [derefs_guarded]) (fun _ _ => hfl)
      | none =>
        exact M.Sound.of_world (assign_move_both ops this other w d s hne ht hs hca)
          (by simp) (by simp) hW (by simp [derefs_guarded]) (fun _ _ => hfl)

theorem swap_both_fail (ops : TOps T U E) (this other : Ref) (w : World T E) (x y : T) (e : E)
    (hx : w.get this = ⟨true, some x⟩) (hy : w.get other = ⟨true, some y⟩)
    (hok : (ops.swap x y).2.2 = some e) :
    swap ops this other w = (.terminate,
      ((w.set other ⟨true, some (ops.swap x y).2.1⟩).set this
        ⟨true, some (ops.swap x y).1⟩).logs
      [.deref this true, .deref other true, .swap this other, .fail e]) := by
  simp [swap, T_swap, T_throw, has_value, operator_star, M.bind, M.noexcept,
    M.read, M.emit, M.raise, M.set_mem, M.load, hx, hy, hok]
  apply World.ext_get
  · intro r; by_cases h1 : r = this <;> by_cases h2 : this = other <;> simp [h1, h2, hx, hy]
  · simp

theorem sound_swap (ops : TOps T U E) (this other : Ref) (w : World T E) (hw : w.wf) :
    (swap ops this other).Sound w
      (fun r => if r = this then w.flags other else if r = other then w.flags this
        else w.flags r) := by
  obtain ht | ⟨x, ht⟩ := optional.wf_cases _ (World.wf_get hw this) <;>
  obtain hs | ⟨y, hs⟩ := optional.wf_cases _ (World.wf_get hw other) <;>
  simp only [optional.holds, optional.empty] at ht hs
  · refine M.Sound.unchanged (swap_neither ops this other w (by simp [ht]) (by simp [hs])) (by simp)
      hw ?_
    intro r; by_cases h : r = this <;> by_cases h2 : r = other <;> simp_all [World.flags]
  · have hne : other ≠ this := by
      intro h; rw [h, ht] at hs; simp at hs
    have he : swap ops this other w
        = M.noexcept (emplace ops this (.rvalue other) >>= fun _ => reset ops other)
            (w.logs [.deref other true]) := by
      simp [swap, has_value_apply, operator_star_apply, M.bind, M.noexcept, hs, ht]
    have h1 := sound_emplace ops this (.rvalue other) (w.logs [.deref other true])
      (by simpa using hw) ⟨hne, y, by simpa using hs⟩
    refine M.Sound.after (l := [.deref other true])
      (g := fun r => if r = other then false else if r = this then true else w.flags r)
      (M.Sound.guarded_bind h1 (fun p hp => ?_))
      (by simp) (by simp [derefs_guarded]) (by rw [he]) (by rw [he]; exact id)
      (by rw [he]; exact id) ?_
    · have hfl := h1.flags_of_ok (good_emplace ops this _ (good_reset ops this)) hp
      have hr := sound_reset ops other _ h1.2.1
      obtain ⟨a1, a2, evs, a3, a4, a5⟩ := hr
      refine ⟨a1, a2, evs, a3, a4, fun b1 b2 r => ?_⟩
      rw [a5 b1 b2 r]
      by_cases h : r = other
      · simp [h]
      · have h3 := hfl r
        simp only [World.flags] at h3
        simp [h, h3, World.flags]
    · intro r; by_cases h : r = this <;> by_cases h2 : r = other <;>
        simp_all [World.flags]
  · have hne : this ≠ other := by
      intro h; rw [h, hs] at ht; simp at ht
    have he : swap ops this other w
        = M.noexcept (emplace ops other (.rvalue this) >>= fun _ => reset ops this)
            (w.logs [.deref this true]) := by
      simp [swap, has_value_apply, operator_star_apply, M.bind, M.noexcept, hs, ht]
    have h1 := sound_emplace ops other (.rvalue this) (w.logs [.deref this true])
      (by simpa using hw) ⟨hne, x, by simpa using ht⟩
    refine M.Sound.after (l := [.deref this true])
      (g := fun r => if r = this then false else if r = other then true else w.flags r)
      (M.Sound.guarded_bind h1 (fun p hp => ?_))
      (by simp) (by simp [derefs_guarded]) (by rw [he]) (by rw [he]; exact id)
      (by rw [he]; exact id) ?_
    · have hfl := h1.flags_of_ok (good_emplace ops other _ (good_reset ops other)) hp
      have hr := sound_reset ops this _ h1.2.1
      obtain ⟨a1, a2, evs, a3, a4, a5⟩ := hr
      refine ⟨a1, a2, evs, a3, a4, fun b1 b2 r => ?_⟩
      rw [a5 b1 b2 r]
      by_cases h : r = this
      · simp [h]
      · have h3 := hfl r
        simp only [World.flags] at h3
        simp [h, h3, World.flags]
    · intro r; by_cases h : r = this <;> by_cases h2 : r = other <;>
        simp_all [World.flags]
  · have hW := World.wf_set (World.wf_set hw other _
      (optional.wf_engaged (ops.swap x y).2.1)) this _ (optional.wf_engaged (ops.swap x y).1)
    have hfl : ∀ r, ((w.set other ⟨true, some (ops.swap x y).2.1⟩).set this
        ⟨true, some (ops.swap x y).1⟩).flags r
        = if r = this then w.flags other else if r = other then w.flags this
          else w.flags r := by
      intro r; by_cases h : r = this <;> by_cases h2 : r = other <;>
        simp_all [World.flags]
    cases hca : (ops.swap x y).2.2 with
    | some e =>
      exact M.Sound.of_world (swap_both_fail ops this other w x y e ht hs hca)
        (by simp) (by simp) hW (by simp [derefs_guarded]) (fun _ _ => hfl)
    | none =>
      exact M.Sound.of_world (swap_both ops this other w x y ht hs hca)
        (by simp) (by simp) hW (by simp [derefs_guarded]) (fun _ _ => hfl)

theorem sound_value_or (ops : TOps T U E) (this : Ref) (u : U) (w : World T E) (hw : w.wf) :
    (value_or ops this u).Sound w w.flags ∧ (value_or_move ops this u).Sound w w.flags := by
  obtain ht | ⟨d, ht⟩ := optional.wf_cases _ (World.wf_get hw this) <;>
  simp only [optional.holds, optional.empty] at ht
  · cases hv : ops.convCtor u with
    | error e =>
      constructor
      · refine M.Sound.of_world (l := [.fail e]) (W := w) (o := .throw (.raised e)) ?_ rfl
          (by simp) hw (by simp [derefs_guarded]) (fun _ _ _ => rfl)
        simp [value_or, T_return_conv, T_made, operator_bool_apply, M.bind, M.emit, M.raise,
          World.emit, World.logs, ht, hv]
      · refine M.Sound.of_world (l := [.fail e]) (W := w) (o := .throw (.raised e)) ?_ rfl
          (by simp) hw (by simp [derefs_guarded]) (fun _ _ _ => rfl)
        simp [value_or_move, T_return_conv, T_made, operator_bool_apply, M.bind, M.emit,
          M.raise, World.emit, World.logs, ht, hv]
    | ok v =>
      exact ⟨M.Sound.unchanged (value_or_disengaged ops this w u v (by simp [ht]) hv) (by simp) hw
          (fun _ => rfl),
        M.Sound.unchanged (value_or_move_disengaged ops this w u v (by simp [ht]) hv) (by simp) hw
          (fun _ => rfl)⟩
  · constructor
    · cases hv : ops.copyCtor d with
      | error e =>
        refine M.Sound.of_world (l := [.deref this true, .fail e]) (W := w)
          (o := .throw (.raised e)) ?_ rfl (by simp) hw (by simp [derefs_guarded])
          (fun _ _ _ => rfl)
        simp [value_or, T_return_copy, T_made, operator_bool_apply, operator_star_apply, M.bind,
          M.load, M.emit, M.raise, ht, hv]
        apply World.ext_get
        · intro r; simp
        · simp
      | ok v =>
        exact M.Sound.of_world (value_or_engaged ops this w u d v ht hv) rfl (by simp) hw
          (by simp [derefs_guarded]) (fun _ _ _ => rfl)
    · have hW := World.wf_set hw this _ (optional.wf_engaged (ops.moveCtor d).2)
      have hfl : ∀ r, (w.set this ⟨true, some (ops.moveCtor d).2⟩).flags r = w.flags r := by
        intro r; by_cases h : r = this <;> simp [h, ht, World.flags]
      cases hv : (ops.moveCtor d).1 with
      | error e =>
        refine M.Sound.of_world (l := [.deref this true, .fail e])
          (W := w.set this ⟨true, some (ops.moveCtor d).2⟩)
          (o := .throw (.raised e)) ?_ (by simp) (by simp) hW (by simp [derefs_guarded])
          (fun _ _ => hfl)
        simp [value_or_move, T_return_move, T_made, operator_bool_apply, operator_star_apply,
          M.bind, M.load, M.set_mem, M.emit, M.raise, ht, hv]
        apply World.ext_get
        · intro r; by_cases h1 : r = this <;> simp [h1]
        · simp
      | ok v =>
        exact M.Sound.of_world (value_or_move_engaged ops this w u d v ht hv) (by simp) (by simp)
          hW (by simp [derefs_guarded]) (fun _ _ => hfl)

theorem sound_simple (this : Ref) (w : World T E) (hw : w.wf) :
    (has_value this : M T E _).Sound w w.flags ∧
    (operator_bool this : M T E _).Sound w w.flags ∧
    (value this : M T E _).Sound w w.flags := by
  refine ⟨M.Sound.unchanged (has_value_apply this w) (by simp) hw (fun _ => rfl),
    M.Sound.unchanged (operator_bool_apply this w) (by simp) hw (fun _ => rfl), ?_⟩
  cases hf : (w.get this)._has_value with
  | false => exact M.Sound.unchanged (value_disengaged this w hf) (by simp) hw (fun _ => rfl)
  | true =>
    exact M.Sound.of_world (value_engaged this w hf) rfl (by simp) hw (by simp [derefs_guarded])
      (fun _ _ _ => rfl)

theorem M.Sound.on_raw_storage {α : Type} {m : M T E α} {w : World T E} {f : Ref → Bool}
    (this : Ref) (hi : w.get this = ⟨false, none⟩) (h : m.Sound w f) :
    (init this >>= fun _ => m >>= fun _ => (pure () : M T E Unit)).Sound w f := by
  have he : (init this >>= fun _ => m >>= fun _ => (pure () : M T E Unit)) w
      = (m >>= fun _ => (pure () : M T E Unit)) w := by
    simp [init, M.bind, World.set_same w this _ hi]
  exact M.Sound.congr (M.Sound.map () h) (by rw [he]) (by rw [he]; exact id)
    (by rw [he]; exact id)

/-- Every public operation is sound from a state satisfying the lifetime
invariant, a constructor running on raw storage; an operation other than a
constructor leaves the flags its classification says. -/
theorem Op.run_sound (ops : TOps T U E) (op : Op U) (this other : Ref) (w : World T E)
    (hw : w.wf) (hc : op.is_ctor = true → w.get this = ⟨false, none⟩) :
    ∃ f, (op.run ops this other).Sound w f ∧
      (op.is_ctor = false → ∀ r, f r = (op.effect this other w r).apply (w.flags r)) := by
  cases op with
  | ctor_default =>
    refine ⟨w.flags, M.Sound.unchanged (o := .ok ()) ?_ (by simp) hw (fun _ => rfl),
      fun h => by simp [Op.is_ctor] at h⟩
    simp [Op.run, optional_default, init, M.noexcept, World.set_same w this _ (hc rfl)]
  | ctor_nullopt =>
    refine ⟨w.flags, M.Sound.unchanged (o := .ok ()) ?_ (by simp) hw (fun _ => rfl),
      fun h => by simp [Op.is_ctor] at h⟩
    simp [Op.run, optional_nullopt, init, M.noexcept, M.bind, World.set_same w this _ (hc rfl)]
  | ctor_copy =>
    exact ⟨_, M.Sound.on_raw_storage this (hc rfl) (sound_assign_copy ops this other w hw),
      fun h => by simp [Op.is_ctor] at h⟩
  | ctor_move =>
    exact ⟨_, (M.Sound.on_raw_storage this (hc rfl)
      (sound_assign_move ops this other w hw)).under_noexcept,
      fun h => by simp [Op.is_ctor] at h⟩
  | ctor_in_place u =>
    exact ⟨_, M.Sound.on_raw_storage this (hc rfl) (sound_emplace ops this _ w hw trivial),
      fun h => by simp [Op.is_ctor] at h⟩
  | ctor_conv u =>
    exact ⟨_, M.Sound.on_raw_storage this (hc rfl) (sound_emplace ops this _ w hw trivial),
      fun h => by simp [Op.is_ctor] at h⟩
  | make_optional u =>
    exact ⟨_, M.Sound.on_raw_storage this (hc rfl) (sound_emplace ops this _ w hw trivial),
      fun h => by simp [Op.is_ctor] at h⟩
  | make_optional_in_place u =>
    exact ⟨_, M.Sound.on_raw_storage this (hc rfl) (sound_emplace ops this _ w hw trivial),
      fun h => by simp [Op.is_ctor] at h⟩
  | assign_nullopt =>
    refine ⟨_, M.Sound.map () (M.Sound.under_noexcept (M.Sound.map this (sound_reset ops this w hw))),
      fun _ r => ?_⟩
    by_cases h1 : r = this <;> simp [Op.effect, Effect.apply, h1]
  | assign_copy =>
    refine ⟨_, M.Sound.map () (sound_assign_copy ops this other w hw), fun _ r => ?_⟩
    by_cases h1 : r = this <;> cases hfo : w.flags other <;>
      simp [Op.effect, Effect.apply, h1, hfo]
  | assign_move =>
    refine ⟨_, M.Sound.map () (sound_assign_move ops this other w hw), fun _ r => ?_⟩
    by_cases h1 : r = this <;> cases hfo : w.flags other <;>
      simp [Op.effect, Effect.apply, h1, hfo]
  | assign_conv u =>
    refine ⟨_, M.Sound.map () (sound_assign_conv ops this u w hw), fun _ r => ?_⟩
    by_cases h1 : r = this <;> simp [Op.effect, Effect.apply, h1]
  | emplace u =>
    refine ⟨_, M.Sound.map () (sound_emplace ops this (.forward u) w hw trivial),
      fun _ r => ?_⟩
    by_cases h1 : r = this <;> simp [Op.effect, Effect.apply, h1]
  | reset =>
    refine ⟨_, sound_reset ops this w hw, fun _ r => ?_⟩
    by_cases h1 : r = this <;> simp [Op.effect, Effect.apply, h1]
  | swap =>
    refine ⟨_, sound_swap ops this other w hw, fun _ r => ?_⟩
    by_cases h1 : r = this <;> by_cases h2 : r = other <;>
      cases hft : w.flags this <;> cases hfo : w.flags other <;>
      simp_all [Op.effect, Effect.apply]
  | has_value =>
    exact ⟨_, M.Sound.map () (sound_simple this w hw).1, fun _ r => by
      simp [Op.effect, Effect.apply]⟩
  | operator_bool =>
    exact ⟨_, M.Sound.map () (sound_simple this w hw).2.1, fun _ r => by
      simp [Op.effect, Effect.apply]⟩
  | value =>
    exact ⟨_, M.Sound.map () (sound_simple this w hw).2.2, fun _ r => by
      simp [Op.effect, Effect.apply]⟩
  | value_or u =>
    exact ⟨_, M.Sound.map () (sound_value_or ops this u w hw).1, fun _ r => by
      simp [Op.effect, Effect.apply]⟩
  | value_or_move u =>
    exact ⟨_, M.Sound.map () (sound_value_or ops this u w hw).2, fun _ r => by
      simp [Op.effect, Effect.apply]⟩

theorem Op.run_complete (ops : TOps T U E) (op : Op U) (hc : op.is_ctor = false)
    (this other : Ref) (w : World T E) (hw : w.wf)
    (ht : (op.run ops this other w).1 ≠ .terminate)
    (hf : construct_failed (newEvents w (op.run ops this other w).2) = false) :
    (op.run ops this other w).2.wf ∧
    ∀ r, (op.run ops this other w).2.flags r = (op.effect this other w r).apply (w.flags r) := by
  obtain ⟨f, ⟨_, hwf, evs, hl, _, hfl⟩, hcls⟩ :=
    Op.run_sound ops op this other w hw (fun h => by rw [hc] at h; simp at h)
  rw [newEvents_of_log w _ evs hl] at hf
  exact ⟨hwf, fun r => (hfl ht hf r).trans (hcls hc r)⟩

theorem runCalls_flags_complete (ops : TOps T U E) (r : Ref) (calls : List (Call U))
    (hc : ∀ c ∈ calls, c.op.is_ctor = false) (w : World T E) (hw : w.wf)
    (hok : allComplete ops calls w) :
    (runCalls ops calls w).flags r
      = (history ops r calls w).foldl (fun b e => e.apply b) (w.flags r) := by
  induction calls generalizing w with
  | nil => rfl
  | cons c cs ih =>
    have hstep := Op.run_complete ops c.op (hc c (List.mem_cons_self _ _)) c.this c.other w
      hw hok.1 hok.2.1
    simp only [runCalls, history, List.foldl_cons]
    rw [ih (fun c1 h1 => hc c1 (List.mem_cons_of_mem _ h1)) _ hstep.1 hok.2.2, hstep.2 r]

theorem emplace_unreadable_empty (ops : TOps T U E) (this : Ref) (args : Args U)
    (w : World T E) (hw : w.wf) (ht : w.get this = ⟨false, none⟩)
    (ha : ¬ args.readable w this) : (emplace ops this args w).1 = .undefined := by
  cases args with
  | forward u => exact absurd trivial ha
  | lvalue q =>
    by_cases hq : q = this
    · subst hq
      simp [emplace, reset, construct, has_value, operator_star, M.bind, M.noexcept, M.read,
        M.emit, M.load, ht]
    · obtain hs | ⟨s, hs⟩ := optional.wf_cases _ (World.wf_get hw q)
      · simp only [optional.empty] at hs
        simp [emplace, reset, construct, has_value, operator_star, M.bind, M.noexcept, M.read,
          M.emit, M.load, ht, hs]
      · exact absurd ⟨hq, s, hs⟩ ha
  | rvalue q =>
    by_cases hq : q = this
    · subst hq
      simp [emplace, reset, construct, has_value, operator_star, M.bind, M.noexcept, M.read,
        M.emit, M.load, ht]
    · obtain hs | ⟨s, hs⟩ := optional.wf_cases _ (World.wf_get hw q)
      · simp only [optional.empty] at hs
        simp [emplace, reset, construct, has_value, operator_star, M.bind, M.noexcept, M.read,
          M.emit, M.load, ht, hs]
      · exact absurd ⟨hq, s, hs⟩ ha

theorem emplace_derefs (ops : TOps T U E) (this : Ref) (args : Args U) (w : World T E)
    (hw : w.wf) (hu : (emplace ops this args w).1 ≠ .undefined) :
    derefs_guarded (newEvents w (emplace ops this args w).2) = true := by
  have key : ∀ (W : World T E), W.wf → W.get this = ⟨false, none⟩ →
      (emplace ops this args W).1 ≠ .undefined →
      ∃ evs, (emplace ops this args W).2.log = W.log ++ evs ∧ derefs_guarded evs = true := by
    intro W hW ht hUB
    by_cases ha : args.readable W this
    · obtain ⟨_, _, evs, hl, hd, _⟩ := sound_emplace_empty ops this args W hW ht ha
      exact ⟨evs, hl, hd⟩
    · exact absurd (emplace_unreadable_empty ops this args W hW ht ha) hUB
  obtain ht | ⟨d, ht⟩ := optional.wf_cases _ (World.wf_get hw this) <;>
  simp only [optional.holds, optional.empty] at ht
  · obtain ⟨evs, hl, hd⟩ := key w hw ht hu
    rw [newEvents_of_log w _ evs hl]; exact hd
  · cases hdt : ops.dtor d with
    | some e =>
      rw [emplace_reset_fail ops this args w _ (reset_engaged_fail ops this w d e ht hdt)]
      simp [newEvents, derefs_guarded]
    | none =>
      have he := emplace_after_reset ops this args w _ (reset_engaged ops this w d ht hdt)
      rw [he] at hu ⊢
      obtain ⟨evs, hl, hd⟩ := key _
        (by simpa using World.wf_set hw this _ optional.wf_disengaged) (by simp) hu
      rw [newEvents_of_log w _ ([.flag this false, .deref this false, .destroy this d] ++ evs)
        (by rw [hl]; simp)]
      rw [derefs_guarded_append _ _ (by simp [derefs_guarded])]
      exact hd

theorem fails_of_return {α : Type} {s b : Bool} {o : Outcome E α} {fs : List E}
    (h : o.Faithful s b fs) (hr : (∃ x, o = .ok x) ∨ o = .throw .bad_optional_access) :
    fs = [] := by
  rcases hr with ⟨x, hx⟩ | hx
  · rw [hx] at h; exact h
  · rw [hx] at h; exact h.1

/-- A call that returns to its caller, normally or with the
`bad_optional_access` of `value()`, completed. -/
theorem allComplete_of_allReturn (ops : TOps T U E) (calls : List (Call U)) (w : World T E)
    (h : allReturn ops calls w) : allComplete ops calls w := by
  induction calls generalizing w with
  | nil => trivial
  | cons c cs ih =>
    obtain ⟨h1, h2⟩ := h
    have hr : (∃ x, (c.op.run ops c.this c.other w).1 = .ok x) ∨
        (c.op.run ops c.this c.other w).1 = .throw .bad_optional_access := by
      rcases h1 with h1 | h1
      · exact Or.inl ⟨(), h1⟩
      · exact Or.inr h1
    refine ⟨?_, ?_, ih _ h2⟩
    · rcases h1 with h1 | h1 <;> rw [h1] <;> simp
    · by_cases hv : c.op = .value
      · obtain ⟨evs, hl, hfa⟩ := ((good_value false c.this).discard (T := T) (E := E)) w
        have hrun : c.op.run ops c.this c.other = cm.discard (value c.this) := by
          rw [hv]; rfl
        rw [hrun] at hr ⊢
        rw [newEvents_of_log w _ evs hl]
        exact construct_failed_of_fails _ (fails_of_return hfa hr)
      · obtain ⟨evs, hl, hfa⟩ := Op.run_good ops c.op hv c.this c.other w
        rw [newEvents_of_log w _ evs hl]
        exact construct_failed_of_fails _ (fails_of_return hfa hr)

theorem intOps_regular : intOps.Regular id :=
  ⟨fun _ => rfl, fun _ => rfl, fun _ => rfl, fun _ _ => rfl, fun _ _ => ⟨rfl, rfl⟩,
    fun _ _ => rfl, fun _ _ => rfl, fun _ => rfl, fun _ => rfl⟩

theorem vecOps_regular : vecOps.Regular id :=
  ⟨fun _ => rfl, fun _ => rfl, fun _ => rfl, fun _ _ => rfl, fun _ _ => ⟨rfl, rfl⟩,
    fun _ _ => rfl, fun _ _ => rfl, fun _ => rfl, fun _ => rfl⟩

theorem TOps.Regular.noFail {ops : TOps T U E} {conv : U → T} (h : ops.Regular conv) :
    ops.NoFail :=
  ⟨fun v => ⟨v, h.copyCtor v⟩, fun v => ⟨v, h.moveCtor v⟩, fun u => ⟨conv u, h.convCtor u⟩,
    fun d s => by rw [h.copyAssign], fun d s => (h.moveAssign d s).2,
    fun d u => by rw [h.convAssign], fun x y => by rw [h.swap], h.dtor, h.selfMoveAssign⟩

end lemmas

/-! ## The claims -/

section claims

variable {T U E : Type}

/-- C1: the checked accessor `value()` throws `bad_optional_access` exactly
when the container is disengaged, and returns normally exactly when it is
engaged; on a container engaged with `v` it returns the reference unchecked
dereference returns, that reference designates `v`, and both containers are
left as they were. -/
theorem value_checked (this : Ref) (w : World T E) :
    ((value this w).1 = .throw .bad_optional_access ↔ (has_value this w).1 = .ok false) ∧
    ((value this w).1 = .ok this ↔ (has_value this w).1 = .ok true) ∧
    (∀ v, (w.get this).holds v →
      (value this w).1 = .ok this ∧
      value this w = operator_star this w ∧
      ((value this w).2.get this)._mem = some v ∧
      (value this w).2.a = w.a ∧ (value this w).2.b = w.b) := by
  refine ⟨?_, ?_, ?_⟩
  · cases h : (w.get this)._has_value <;>
      simp [value, has_value, operator_star, M.bind, M.noexcept, M.read, M.raise, M.emit, h]
  · cases h : (w.get this)._has_value <;>
      simp [value, has_value, operator_star, M.bind, M.noexcept, M.read, M.raise, M.emit, h]
  · intro v h
    simp only [optional.holds] at h
    simp [value, has_value, operator_star, M.bind, M.noexcept, M.read, M.raise, M.emit, h]

/-- Witness of C1: a container holding 7, and a default-constructed one. -/
theorem value_checked_witness :
    (value Ref.a (⟨⟨true, some 7⟩, ⟨false, none⟩, []⟩ : World Int String)).1 = .ok Ref.a ∧
    (value Ref.b (⟨⟨true, some 7⟩, ⟨false, none⟩, []⟩ : World Int String)).1
      = .throw .bad_optional_access :=
  ⟨((value_checked Ref.a (⟨⟨true, some 7⟩, ⟨false, none⟩, []⟩ : World Int String)).2.2 7 rfl).1,
   (value_checked Ref.b (⟨⟨true, some 7⟩, ⟨false, none⟩, []⟩ : World Int String)).1.2 rfl⟩

/-- C2: round trip.  From every state of the container that satisfies the
lifetime invariant, engaged or not, if the constructor of `T` makes `v` from
`x` (for a regular `T`, `v` is `x` converted to `T`) and the destructor of a
value held before does not throw, then `emplace(x)` returns normally;
afterwards the container is engaged and holds `v`, `has_value()` is true,
`value()` succeeds, and the reference `emplace` returned is the one
`value()` returns, designating `v`. -/
theorem emplace_round_trip (ops : TOps T U E) (this : Ref) (w : World T E) (x : U) (v : T)
    (hw : (w.get this).wf) (hc : ops.convCtor x = .ok v)
    (hd : ∀ old, (w.get this)._mem = some old → ops.dtor old = none) :
    (emplace ops this (.forward x) w).1 = .ok this ∧
    ((emplace ops this (.forward x) w).2.get this).holds v ∧
    (has_value this (emplace ops this (.forward x) w).2).1 = .ok true ∧
    (value this (emplace ops this (.forward x) w).2).1 = (emplace ops this (.forward x) w).1 ∧
    (((value this (emplace ops this (.forward x) w).2).2).get this)._mem = some v ∧
    (∀ conv, ops.Regular conv → v = conv x) := by
  have hreg : ∀ conv, ops.Regular conv → v = conv x := by
    intro conv h
    have := h.convCtor x
    rw [hc] at this
    exact Except.ok.inj this
  obtain ht | ⟨d, ht⟩ := optional.wf_cases _ hw <;>
  simp only [optional.holds, optional.empty] at ht
  · rw [emplace_forward_empty ops this w x v ht hc]
    simp [has_value_apply, value_engaged, optional.holds]
    exact hreg
  · rw [emplace_forward_engaged ops this w x d v ht (hd d (by simp [ht])) hc]
    simp [has_value_apply, value_engaged, optional.holds]
    exact hreg

/-- Witness of C2: `emplace(3)` on an `optional<int>` that holds 7. -/
theorem emplace_round_trip_witness :
    (emplace intOps Ref.a (.forward 3) ⟨⟨true, some 7⟩, ⟨false, none⟩, []⟩).1 = .ok Ref.a ∧
    ((emplace intOps Ref.a (.forward 3) ⟨⟨true, some 7⟩, ⟨false, none⟩, []⟩).2.get Ref.a).holds 3 :=
  ⟨(emplace_round_trip intOps Ref.a ⟨⟨true, some 7⟩, ⟨false, none⟩, []⟩ 3 3
      (by decide) rfl (fun _ _ => rfl)).1,
   (emplace_round_trip intOps Ref.a ⟨⟨true, some 7⟩, ⟨false, none⟩, []⟩ 3 3
      (by decide) rfl (fun _ _ => rfl)).2.1⟩

/-- C3: the four cases of `swap` on two distinct containers, for a regular
`T`: both engaged, the values are exchanged; only the first engaged, it ends
disengaged and the second holds its value; only the second engaged, the
first ends holding its value and the second disengaged; neither engaged,
nothing changes at all. -/
theorem swap_four_cases (ops : TOps T U E) (conv : U → T) (hreg : ops.Regular conv)
    (this other : Ref) (hne : this ≠ other) (w : World T E) :
    (∀ A B, (w.get this).holds A → (w.get other).holds B →
      (swap ops this other w).1 = .ok () ∧
      ((swap ops this other w).2.get this).holds B ∧
      ((swap ops this other w).2.get other).holds A) ∧
    (∀ A, (w.get this).holds A → (w.get other).empty →
      (swap ops this other w).1 = .ok () ∧
      ((swap ops this other w).2.get this).empty ∧
      ((swap ops this other w).2.get other).holds A) ∧
    (∀ B, (w.get this).empty → (w.get other).holds B →
      (swap ops this other w).1 = .ok () ∧
      ((swap ops this other w).2.get this).holds B ∧
      ((swap ops this other w).2.get other).empty) ∧
    ((w.get this).empty → (w.get other).empty →
      swap ops this other w = (.ok (), w)) := by
  have hne2 : other ≠ this := fun h => hne h.symm
  refine ⟨?_, ?_, ?_, ?_⟩
  · intro A B hA hB
    simp only [optional.holds] at hA hB
    simp [swap, has_value, operator_star, T_swap, T_throw, M.bind, M.noexcept,
      M.read, M.raise, M.emit, M.set_has_value, M.set_mem, M.load, hA, hB, hne, hne2, hreg.swap,
      optional.holds]
  · intro A hA hB
    simp only [optional.holds, optional.empty] at hA hB
    simp [swap, emplace, reset, destroy, construct, T_made_at, T_throw, value, has_value,
      operator_star, M.bind, M.noexcept, M.read, M.raise, M.emit, M.set_has_value, M.set_mem,
      M.load, hA, hB, hne, hne2, hreg.moveCtor, hreg.dtor, optional.holds, optional.empty]
  · intro B hA hB
    simp only [optional.holds, optional.empty] at hA hB
    simp [swap, emplace, reset, destroy, construct, T_made_at, T_throw, value, has_value,
      operator_star, M.bind, M.noexcept, M.read, M.raise, M.emit, M.set_has_value, M.set_mem,
      M.load, hA, hB, hne, hne2, hreg.moveCtor, hreg.dtor, optional.holds, optional.empty]
  · intro hA hB
    simp only [optional.empty] at hA hB
    simp [swap, has_value, M.bind, M.noexcept, M.read, hA, hB]

/-- Witness of C3: the four cases on vectors, a move emptying its source. -/
theorem swap_four_cases_witness :
    ((swap vecOps Ref.a Ref.b ⟨⟨true, some [1]⟩, ⟨true, some [2]⟩, []⟩).2.get Ref.a).holds [2] ∧
    ((swap vecOps Ref.a Ref.b ⟨⟨true, some [1]⟩, ⟨false, none⟩, []⟩).2.get Ref.b).holds [1] ∧
    ((swap vecOps Ref.a Ref.b ⟨⟨false, none⟩, ⟨true, some [2]⟩, []⟩).2.get Ref.b).empty ∧
    swap vecOps Ref.a Ref.b ⟨⟨false, none⟩, ⟨false, none⟩, []⟩
      = (.ok (), ⟨⟨false, none⟩, ⟨false, none⟩, []⟩) :=
  ⟨((swap_four_cases vecOps id vecOps_regular Ref.a Ref.b (by decide)
      ⟨⟨true, some [1]⟩, ⟨true, some [2]⟩, []⟩).1 [1] [2] rfl rfl).2.1,
   ((swap_four_cases vecOps id vecOps_regular Ref.a Ref.b (by decide)
      ⟨⟨true, some [1]⟩, ⟨false, none⟩, []⟩).2.1 [1] rfl rfl).2.2,
   ((swap_four_cases vecOps id vecOps_regular Ref.a Ref.b (by decide)
      ⟨⟨false, none⟩, ⟨true, some [2]⟩, []⟩).2.2.1 [2] rfl rfl).2.2,
   (swap_four_cases vecOps id vecOps_regular Ref.a Ref.b (by decide)
      ⟨⟨false, none⟩, ⟨false, none⟩, []⟩).2.2.2 rfl rfl⟩

/-- C4: copy and move assignment, for a regular `T` and containers that
satisfy the lifetime invariant.  Both engaged: the call returns `*this` and
its steps are the two dereferences of the operands, in either order,
followed by one assignment of `T`, so nothing is destroyed or constructed;
the assignment leaves the value of the source in the target, where for the
move target and source are distinct containers (a move assignment of a
container to itself runs the same steps and leaves what the move assignment
of `T` to itself leaves).  Only the source engaged: the call does what
`emplace` does with the dereferenced source.  Source disengaged: the call
does what `reset` does.  In every case the flag of the target ends equal to
the flag of the source, which a move leaves as it was; an engaged source
leaves its value in the target; copy assignment leaves the source
unchanged. -/
theorem assign_three_cases (ops : TOps T U E) (conv : U → T) (hreg : ops.Regular conv)
    (this other : Ref) (w : World T E) (hw : w.wf) :
    (∀ d s, (w.get this).holds d → (w.get other).holds s →
      (assign_copy ops this other w).1 = .ok this ∧
      (∃ pre, pre.Perm [.deref this true, .deref other true] ∧
        newEvents w (assign_copy ops this other w).2 = pre ++ [.assign this s]) ∧
      (assign_move ops this other w).1 = .ok this ∧
      (this ≠ other → ∃ pre, pre.Perm [.deref this true, .deref other true] ∧
        newEvents w (assign_move ops this other w).2 = pre ++ [.assign this s]) ∧
      (this = other → ∃ pre, pre.Perm [.deref this true, .deref other true] ∧
        newEvents w (assign_move ops this other w).2
          = pre ++ [.assign this (ops.selfMoveAssign d).1])) ∧
    (∀ s, (w.get this).empty → (w.get other).holds s →
      assign_copy ops this other w
        = emplace ops this (.lvalue other) (operator_star other w).2 ∧
      assign_move ops this other w
        = emplace ops this (.rvalue other) (operator_star other w).2) ∧
    ((w.get other).empty →
      assign_copy ops this other w = (.ok this, (reset ops this w).2) ∧
      assign_move ops this other w = (.ok this, (reset ops this w).2)) ∧
    (((assign_copy ops this other w).2.get this)._has_value = (w.get other)._has_value ∧
     ((assign_move ops this other w).2.get this)._has_value = (w.get other)._has_value ∧
     ((assign_move ops this other w).2.get other)._has_value = (w.get other)._has_value) ∧
    (∀ s, (w.get other).holds s →
      ((assign_copy ops this other w).2.get this).holds s ∧
      (this ≠ other → ((assign_move ops this other w).2.get this).holds s) ∧
      (this = other →
        ((assign_move ops this other w).2.get this).holds (ops.selfMoveAssign s).1)) ∧
    (assign_copy ops this other w).2.get other = w.get other := by
  obtain ht | ⟨d, ht⟩ := optional.wf_cases _ (World.wf_get hw this) <;>
  obtain hs | ⟨s, hs⟩ := optional.wf_cases _ (World.wf_get hw other) <;>
  simp only [optional.holds, optional.empty] at ht hs
  · have hr := reset_disengaged ops this w (by simp [ht])
    have hc := assign_copy_src_empty ops this other w w (by simp [hs]) hr
    have hm := assign_move_src_empty ops this other w w (by simp [hs]) hr
    simp [hc, hm, hr, ht, hs, optional.holds, optional.empty]
  · have hc := assign_copy_src_only ops this other w s s ht hs (hreg.copyCtor s)
    have hm := assign_move_src_only ops this other w s s ht hs (hreg.moveCtor s)
    have hne : other ≠ this := by
      intro h; rw [h, ht] at hs; simp at hs
    have hne2 : this ≠ other := fun h => hne h.symm
    have he1 := emplace_lvalue_empty ops this other (w.logs [.deref other true]) s s
      (by simpa using ht) (by simpa using hs) (hreg.copyCtor s)
    have he2 := emplace_rvalue_empty ops this other (w.logs [.deref other true]) s s
      (by simpa using ht) (by simpa using hs) (hreg.moveCtor s)
    simp [hc, hm, ht, hs, optional.holds, optional.empty, hne, hne2, operator_star_apply, he1, he2]
  · have hr := reset_engaged ops this w d ht (hreg.dtor d)
    have hc := assign_copy_src_empty ops this other w _ (by simp [hs]) hr
    have hm := assign_move_src_empty ops this other w _ (by simp [hs]) hr
    have hne : other ≠ this := by
      intro h; rw [h, ht] at hs; simp at hs
    simp [hc, hm, hr, ht, hs, optional.holds, optional.empty, hne]
  · have hc := assign_copy_both ops this other w d s ht hs (by rw [hreg.copyAssign])
    rw [hreg.copyAssign] at hc
    have hp : [Event.deref other true, Event.deref this true].Perm
        [(.deref this true : Event T E), .deref other true] := List.Perm.swap _ _ _
    by_cases hne : this = other
    · subst hne
      have hds : s = d := by rw [ht] at hs; simpa using hs.symm
      subst hds
      have hm := assign_move_self ops this w s ht (hreg.selfMoveAssign s)
      refine ⟨?_, ?_, ?_, ?_, ?_, ?_⟩
      · intro d1 s1 h1 h2
        simp only [optional.holds, ht, optional.mk.injEq, Option.some.injEq, true_and] at h1 h2
        subst h1; subst h2
        exact ⟨by rw [hc], ⟨_, hp, by simp [hc, newEvents]⟩, by rw [hm],
          fun h => absurd rfl h, fun _ => ⟨_, hp, by simp [hm, newEvents]⟩⟩
      · intro s1 h1; simp [optional.empty, ht] at h1
      · intro h1; simp [optional.empty, ht] at h1
      · simp [hc, hm, ht]
      · intro s1 h1
        simp only [optional.holds, ht, optional.mk.injEq, Option.some.injEq, true_and] at h1
        subst h1
        simp [hc, hm, optional.holds]
      · simp [hc, ht]
    · have hm := assign_move_both ops this other w d s hne ht hs (hreg.moveAssign d s).2
      rw [(hreg.moveAssign d s).1] at hm
      have hne2 : other ≠ this := fun h => hne h.symm
      refine ⟨?_, ?_, ?_, ?_, ?_, ?_⟩
      · intro d1 s1 h1 h2
        simp only [optional.holds, ht, hs, optional.mk.injEq, Option.some.injEq, true_and]
          at h1 h2
        subst h1; subst h2
        exact ⟨by rw [hc], ⟨_, hp, by simp [hc, newEvents]⟩, by rw [hm],
          fun _ => ⟨_, hp, by simp [hm, newEvents]⟩, fun h => absurd h hne⟩
      · intro s1 h1; simp [optional.empty, ht] at h1
      · intro h1; simp [optional.empty, hs] at h1
      · simp [hc, hm, ht, hs, hne, hne2]
      · intro s1 h1
        simp only [optional.holds, hs, optional.mk.injEq, Option.some.injEq, true_and] at h1
        subst h1
        simp [hc, hm, optional.holds, hne]
      · simp [hc, hs, hne2]

/-- Witness of C4: vectors; the target holds [1] or nothing, the source [2] or nothing. -/
theorem assign_three_cases_witness :
    (∃ pre, pre.Perm [.deref Ref.a true, .deref Ref.b true] ∧
      newEvents ⟨⟨true, some [1]⟩, ⟨true, some [2]⟩, []⟩
        (assign_copy vecOps Ref.a Ref.b ⟨⟨true, some [1]⟩, ⟨true, some [2]⟩, []⟩).2
        = pre ++ [.assign Ref.a [2]]) ∧
    assign_move vecOps Ref.a Ref.b ⟨⟨false, none⟩, ⟨true, some [2]⟩, []⟩
      = emplace vecOps Ref.a (.rvalue Ref.b)
          (operator_star Ref.b ⟨⟨false, none⟩, ⟨true, some [2]⟩, []⟩).2 ∧
    assign_copy vecOps Ref.a Ref.b ⟨⟨true, some [1]⟩, ⟨false, none⟩, []⟩
      = (.ok Ref.a, (reset vecOps Ref.a ⟨⟨true, some [1]⟩, ⟨false, none⟩, []⟩).2) ∧
    ((assign_move vecOps Ref.a Ref.b ⟨⟨true, some [1]⟩, ⟨true, some [2]⟩, []⟩).2.get
      Ref.a).holds [2] ∧
    ((assign_move vecOps Ref.a Ref.a ⟨⟨true, some [1]⟩, ⟨true, some [2]⟩, []⟩).2.get
      Ref.a).holds [] :=
  ⟨((assign_three_cases vecOps id vecOps_regular Ref.a Ref.b
      ⟨⟨true, some [1]⟩, ⟨true, some [2]⟩, []⟩ (by decide)).1 [1] [2] rfl rfl).2.1,
   ((assign_three_cases vecOps id vecOps_regular Ref.a Ref.b
      ⟨⟨false, none⟩, ⟨true, some [2]⟩, []⟩ (by decide)).2.1 [2] rfl rfl).2,
   ((assign_three_cases vecOps id vecOps_regular Ref.a Ref.b
      ⟨⟨true, some [1]⟩, ⟨false, none⟩, []⟩ (by decide)).2.2.1 rfl).1,
   ((assign_three_cases vecOps id vecOps_regular Ref.a Ref.b
      ⟨⟨true, some [1]⟩, ⟨true, some [2]⟩, []⟩ (by decide)).2.2.2.2.1 [2] rfl).2.1
      (by decide),
   ((assign_three_cases vecOps id vecOps_regular Ref.a Ref.a
      ⟨⟨true, some [1]⟩, ⟨true, some [2]⟩, []⟩ (by decide)).2.2.2.2.1 [1] rfl).2.2 rfl⟩

/-- C5: `bad_optional_access` comes from `value()` on a disengaged container
and from nowhere else.  When the operations of `T` do not throw and the
containers satisfy the lifetime invariant, every operation other than
`value()`, constructors included, returns normally.  Whatever `T` does and
whatever the state, an operation that ends in `bad_optional_access` is
`value()` called with the flag unset, so the calls of `value()` inside
`emplace` and the assignments never take their throwing branch; and an
operation other than `value()` ends in `std::terminate` only after an
operation of `T` threw. -/
theorem only_value_throws_bad_access (ops : TOps T U E) (op : Op U) (this other : Ref)
    (w : World T E) :
    (ops.NoFail → w.wf → op ≠ .value → (op.run ops this other w).1 = .ok ()) ∧
    ((op.run ops this other w).1 = .throw .bad_optional_access →
      op = .value ∧ (has_value this w).1 = .ok false) ∧
    (op ≠ .value → (op.run ops this other w).1 = .terminate →
      ∃ e, Event.fail e ∈ newEvents w (op.run ops this other w).2) := by
  refine ⟨?_, ?_, ?_⟩
  · intro hnf hw hv
    obtain ⟨f, ⟨x, hx⟩, _⟩ := Op.run_stepOk ops hnf op this other w hw (fun h => absurd h hv)
    exact hx
  · intro hb
    by_cases hv : op = .value
    · subst hv
      refine ⟨rfl, ?_⟩
      cases hf : (w.get this)._has_value with
      | false => rw [has_value_apply, hf]
      | true =>
        simp [Op.run, cm.discard, M.bind, value_engaged this w hf] at hb
    · obtain ⟨evs, _, hfa⟩ := Op.run_good ops op hv this other w
      rw [hb] at hfa
      simp [Outcome.Faithful] at hfa
  · intro hv ht
    exact (Op.run_good ops op hv this other).of_terminate w ht

/-- Witness of C5: `emplace(3)` and `swap` on `optional<int>`, and `value()` on an empty one. -/
theorem only_value_throws_bad_access_witness :
    (Op.run intOps Ref.a Ref.b (.emplace 3) ⟨⟨true, some 7⟩, ⟨false, none⟩, []⟩).1 = .ok () ∧
    (Op.run intOps Ref.a Ref.b .swap ⟨⟨true, some 7⟩, ⟨false, none⟩, []⟩).1 = .ok () ∧
    (has_value Ref.b (⟨⟨true, some 7⟩, ⟨false, none⟩, []⟩ : World Int String)).1 = .ok false :=
  ⟨(only_value_throws_bad_access intOps (.emplace 3) Ref.a Ref.b
      ⟨⟨true, some 7⟩, ⟨false, none⟩, []⟩).1 intOps_regular.noFail (by decide) (by decide),
   (only_value_throws_bad_access intOps .swap Ref.a Ref.b
      ⟨⟨true, some 7⟩, ⟨false, none⟩, []⟩).1 intOps_regular.noFail (by decide) (by decide),
   ((only_value_throws_bad_access intOps .value Ref.b Ref.a
      ⟨⟨true, some 7⟩, ⟨false, none⟩, []⟩).2.1 (by decide)).2⟩

/-- C6: for a regular `T`, `value_or(d)` returns the held value when the
container is engaged, in both overloads, and `d` converted to `T` when the
flag is not set; the const overload leaves both containers as they were,
whatever `T` does.  A default-constructed `optional<int>` gives
`value_or(5) = 5`, and one constructed from 3 gives `value_or(5) = 3`. -/
theorem value_or_spec (ops : TOps T U E) (conv : U → T) (hreg : ops.Regular conv)
    (this : Ref) (w : World T E) (d : U) (w0 : World Int String) :
    (∀ v, (w.get this).holds v →
      (value_or ops this d w).1 = .ok v ∧ (value_or_move ops this d w).1 = .ok v) ∧
    ((w.get this)._has_value = false →
      (value_or ops this d w).1 = .ok (conv d) ∧
      (value_or_move ops this d w).1 = .ok (conv d)) ∧
    (∀ (ops1 : TOps T U E) (r : Ref), (value_or ops1 this d w).2.get r = w.get r) ∧
    (value_or intOps Ref.a 5 (optional_default Ref.a w0).2).1 = .ok 5 ∧
    (value_or intOps Ref.a 5 (optional_conv intOps Ref.a 3 w0).2).1 = .ok 3 := by
  refine ⟨?_, ?_, ?_, ?_, ?_⟩
  · intro v h
    simp only [optional.holds] at h
    simp [value_or, value_or_move, T_return_copy, T_return_move, T_made, operator_bool_apply,
      operator_star_apply, M.bind, M.load, M.set_mem, h, hreg.copyCtor, hreg.moveCtor]
  · intro h
    simp [value_or, value_or_move, T_return_conv, T_made, operator_bool_apply, M.bind, h,
      hreg.convCtor]
  · intro ops1 r
    cases hf : (w.get this)._has_value
    · cases hc : ops1.convCtor d <;>
        simp [value_or, T_return_conv, T_made, operator_bool_apply, M.bind, M.emit, M.raise, hf,
          hc]
    · cases hm : (w.get this)._mem with
      | none =>
        simp [value_or, T_return_copy, operator_bool_apply, operator_star_apply, M.bind, M.load,
          hf, hm]
      | some v =>
        cases hc : ops1.copyCtor v <;>
          simp [value_or, T_return_copy, T_made, operator_bool_apply, operator_star_apply, M.bind,
            M.load, M.emit, M.raise, hf, hm, hc]
  · simp [value_or, T_return_conv, T_made, operator_bool_apply, M.bind, optional_default, init,
      M.noexcept, intOps]
  · have he := emplace_forward_empty intOps Ref.a (w0.set Ref.a ⟨false, none⟩) 3 3
      (by simp) rfl
    simp [value_or, T_return_copy, T_made, operator_bool_apply, operator_star_apply, M.bind,
      M.load, optional_conv, init, he, intOps_regular.copyCtor]

/-- Witness of C6: an `optional<int>` holding 3. -/
theorem value_or_spec_witness :
    (value_or intOps Ref.a 5 ⟨⟨true, some 3⟩, ⟨false, none⟩, []⟩).1 = .ok 3 ∧
    (value_or intOps Ref.b 5 ⟨⟨true, some 3⟩, ⟨false, none⟩, []⟩).1 = .ok 5 :=
  ⟨((value_or_spec intOps id intOps_regular Ref.a ⟨⟨true, some 3⟩, ⟨false, none⟩, []⟩ 5
      World.fresh).1 3 rfl).1,
   ((value_or_spec intOps id intOps_regular Ref.b ⟨⟨true, some 3⟩, ⟨false, none⟩, []⟩ 5
      World.fresh).2.1 rfl).1⟩

/-- C7: `reset()` is idempotent.  From every state and for every `T` it
leaves the flag unset.  On a container engaged with `v` it runs exactly one
destructor, on `v`, and leaves the storage dead; when that destructor
returns, its steps are: clear the flag, dereference, destroy `v`.  On a
container whose flag is not set it changes nothing and logs nothing.  Two
consecutive calls end as one call does: same outcome, same containers, same
log. -/
theorem reset_idempotent (ops : TOps T U E) (this : Ref) (w : World T E) :
    ((reset ops this w).2.get this)._has_value = false ∧
    (∀ v, (w.get this).holds v →
      (reset ops this w).2.get this = ⟨false, none⟩ ∧
      (newEvents w (reset ops this w).2).filter Event.is_destroy = [.destroy this v] ∧
      (ops.dtor v = none →
        (reset ops this w).1 = .ok () ∧
        newEvents w (reset ops this w).2
          = [.flag this false, .deref this false, .destroy this v])) ∧
    ((w.get this)._has_value = false → reset ops this w = (.ok (), w)) ∧
    (do reset ops this; reset ops this) w = reset ops this w := by
  refine ⟨reset_flag ops this w, ?_, reset_disengaged ops this w, ?_⟩
  · intro v h
    simp only [optional.holds] at h
    cases hd : ops.dtor v with
    | none =>
      rw [reset_engaged ops this w v h hd]
      simp [newEvents, Event.is_destroy]
    | some e =>
      rw [reset_engaged_fail ops this w v e h hd]
      simp [newEvents, Event.is_destroy]
  · have hf := reset_flag ops this w
    rcases hr : reset ops this w with ⟨o, w1⟩
    rw [hr] at hf
    cases o <;> simp [M.bind, hr]
    exact reset_disengaged ops this w1 hf

/-- Witness of C7: `reset()` on an `optional<int>` holding 7, and on an empty one. -/
theorem reset_idempotent_witness :
    newEvents ⟨⟨true, some 7⟩, ⟨false, none⟩, []⟩
      (reset intOps Ref.a ⟨⟨true, some 7⟩, ⟨false, none⟩, []⟩).2
      = [.flag Ref.a false, .deref Ref.a false, .destroy Ref.a 7] ∧
    reset intOps Ref.b ⟨⟨true, some 7⟩, ⟨false, none⟩, []⟩
      = (.ok (), ⟨⟨true, some 7⟩, ⟨false, none⟩, []⟩) :=
  ⟨(((reset_idempotent intOps Ref.a ⟨⟨true, some 7⟩, ⟨false, none⟩, []⟩).2.1 7 rfl).2.2 rfl).2,
   (reset_idempotent intOps Ref.b ⟨⟨true, some 7⟩, ⟨false, none⟩, []⟩).2.2.1 rfl⟩

/-- C8, as the claim states it, fails: in the functions declared `noexcept`
a failure of `T` does not reach the caller.  With a `T` whose operations
throw, the destructor throws inside `reset()`, the swap of `T` inside
`swap`, the move assignment of `T` inside move assignment and the move
constructor of `T` inside move construction; each call ends in
`std::terminate`, not in the error `T` threw. -/
theorem failure_of_T_lost_in_noexcept :
    (Event.fail "destructor" ∈ newEvents ⟨⟨true, some 1⟩, ⟨true, some 2⟩, []⟩
        (reset throwingOps Ref.a ⟨⟨true, some 1⟩, ⟨true, some 2⟩, []⟩).2 ∧
      (reset throwingOps Ref.a ⟨⟨true, some 1⟩, ⟨true, some 2⟩, []⟩).1 = .terminate ∧
      (reset throwingOps Ref.a ⟨⟨true, some 1⟩, ⟨true, some 2⟩, []⟩).1
        ≠ .throw (.raised "destructor")) ∧
    (Event.fail "swap" ∈ newEvents ⟨⟨true, some 1⟩, ⟨true, some 2⟩, []⟩
        (swap throwingOps Ref.a Ref.b ⟨⟨true, some 1⟩, ⟨true, some 2⟩, []⟩).2 ∧
      (swap throwingOps Ref.a Ref.b ⟨⟨true, some 1⟩, ⟨true, some 2⟩, []⟩).1 = .terminate ∧
      (swap throwingOps Ref.a Ref.b ⟨⟨true, some 1⟩, ⟨true, some 2⟩, []⟩).1
        ≠ .throw (.raised "swap")) ∧
    (Event.fail "move assignment" ∈ newEvents ⟨⟨true, some 1⟩, ⟨true, some 2⟩, []⟩
        (assign_move throwingOps Ref.a Ref.b ⟨⟨true, some 1⟩, ⟨true, some 2⟩, []⟩).2 ∧
      (assign_move throwingOps Ref.a Ref.b ⟨⟨true, some 1⟩, ⟨true, some 2⟩, []⟩).1
        = .terminate ∧
      (assign_move throwingOps Ref.a Ref.b ⟨⟨true, some 1⟩, ⟨true, some 2⟩, []⟩).1
        ≠ .throw (.raised "move assignment")) ∧
    (Event.fail "move constructor" ∈ newEvents ⟨⟨false, none⟩, ⟨true, some 2⟩, []⟩
        (optional_move throwingOps Ref.a Ref.b ⟨⟨false, none⟩, ⟨true, some 2⟩, []⟩).2 ∧
      (optional_move throwingOps Ref.a Ref.b ⟨⟨false, none⟩, ⟨true, some 2⟩, []⟩).1
        = .terminate ∧
      (optional_move throwingOps Ref.a Ref.b ⟨⟨false, none⟩, ⟨true, some 2⟩, []⟩).1
        ≠ .throw (.raised "move constructor")) := by
  decide

/-- C8, amended: a failure of `T` is never swallowed and never translated.
If an operation of `T` threw `e` during a call, the call ends with exactly
`e` or in `std::terminate`; in a function declared `noexcept` it ends in
`std::terminate`; in a function not declared `noexcept` it ends with
exactly `e` when the destructor of `T` does not throw. -/
theorem failure_of_T_propagates_or_terminates (ops : TOps T U E) (op : Op U)
    (this other : Ref) (w : World T E) (e : E)
    (hf : Event.fail e ∈ newEvents w (op.run ops this other w).2) :
    ((op.run ops this other w).1 = .throw (.raised e) ∨
      (op.run ops this other w).1 = .terminate) ∧
    (op.is_noexcept = true → (op.run ops this other w).1 = .terminate) ∧
    (op.is_noexcept = false → (∀ v, ops.dtor v = none) →
      (op.run ops this other w).1 = .throw (.raised e)) := by
  have h1 : (op.run ops this other w).1 = .throw (.raised e) ∨
      (op.run ops this other w).1 = .terminate := by
    by_cases hv : op = .value
    · subst hv
      rcases ((good_value false this).discard (T := T) (E := E)).of_fail w e hf with h | h
      · exact Or.inl h
      · exact Or.inr h.2
    · rcases (Op.run_good ops op hv this other).of_fail w e hf with h | h
      · exact Or.inl h
      · exact Or.inr h.2
  refine ⟨h1, ?_, ?_⟩
  · intro hn
    rcases h1 with h | h
    · exact absurd h (Op.run_noexcept ops op hn this other w _)
    · exact h
  · intro hn hd
    rcases (Op.run_good_strict ops hd op hn this other).of_fail w e hf with h | h
    · exact h
    · simp at h

/-- Witness of C8: the converting constructor throws inside `emplace`, and
the destructor inside `reset()`. -/
theorem failure_of_T_propagates_or_terminates_witness :
    (Op.run ctorThrowingOps Ref.a Ref.b (.emplace 3) ⟨⟨true, some 1⟩, ⟨false, none⟩, []⟩).1
      = .throw (.raised "converting constructor") ∧
    (Op.run throwingOps Ref.a Ref.b .reset ⟨⟨true, some 1⟩, ⟨false, none⟩, []⟩).1
      = .terminate :=
  ⟨(failure_of_T_propagates_or_terminates ctorThrowingOps (.emplace 3) Ref.a Ref.b
      ⟨⟨true, some 1⟩, ⟨false, none⟩, []⟩ "converting constructor" (by decide)).2.2
      (by decide) (fun _ => rfl),
   (failure_of_T_propagates_or_terminates throwingOps .reset Ref.a Ref.b
      ⟨⟨true, some 1⟩, ⟨false, none⟩, []⟩ "destructor" (by decide)).2.1 (by decide)⟩

/-- C9, as the claim states it, fails: an engaging operation can fail to
engage.  Let the constructor of `T` throw on a negative argument and run
`a.emplace(1); a.emplace(-1)` on a default-constructed `a`.  The second
`emplace` destroys the value held and its constructor throws.  Both calls
are engaging and no disengaging operation occurs at all, so the most recent
engaging operation occurred after the most recent disengaging one; yet
`has_value()` is false, while it was true after the first call. -/
theorem engaging_operation_can_fail :
    history pickyOps Ref.a [⟨.emplace 1, Ref.a, Ref.b⟩, ⟨.emplace (-1), Ref.a, Ref.b⟩]
      World.fresh = [.engaging, .engaging] ∧
    (∃ before after,
      history pickyOps Ref.a [⟨.emplace 1, Ref.a, Ref.b⟩, ⟨.emplace (-1), Ref.a, Ref.b⟩]
        World.fresh = before ++ Effect.engaging :: after ∧ Effect.disengaging ∉ after) ∧
    (has_value Ref.a
      (runCalls pickyOps [⟨.emplace 1, Ref.a, Ref.b⟩] World.fresh)).1 = .ok true ∧
    (has_value Ref.a (runCalls pickyOps
      [⟨.emplace 1, Ref.a, Ref.b⟩, ⟨.emplace (-1), Ref.a, Ref.b⟩] World.fresh)).1
      = .ok false :=
  ⟨by decide, ⟨[.engaging], [], by decide, by decide⟩, by decide, by decide⟩

/-- C9, amended: the state-machine invariant.  For every `T`, run any finite
sequence of calls other than constructors on two default-constructed
containers, each call on either container with either as its argument, and
let every call complete: none ends in `std::terminate`, and no constructor
of `T` throws while a container is being engaged (every call that returns
completes, and so does one that throws out of an assignment of `T` or out of
`value()` or `value_or`).  Then `has_value()` of a container is true exactly
when the history of the effects of the calls on it has an engaging one after
which no disengaging one occurs; with no engaging call at all it is false. -/
theorem has_value_follows_history (ops : TOps T U E) (calls : List (Call U))
    (hc : ∀ c ∈ calls, c.op.is_ctor = false)
    (hok : allComplete ops calls World.fresh) (r : Ref) :
    ((has_value r (runCalls ops calls World.fresh)).1 = .ok true ↔
      ∃ before after, history ops r calls World.fresh = before ++ Effect.engaging :: after ∧
        Effect.disengaging ∉ after) ∧
    (Effect.engaging ∉ history ops r calls World.fresh →
      (has_value r (runCalls ops calls World.fresh)).1 = .ok false) := by
  have hfresh : (World.fresh : World T E).wf := ⟨rfl, rfl⟩
  have hfl := runCalls_flags_complete ops r calls hc World.fresh hfresh hok
  have h0 : (World.fresh : World T E).flags r = false := by cases r <;> rfl
  have hiff := Effect.foldl_apply (history ops r calls World.fresh) false
  rw [h0] at hfl
  simp only [World.flags] at hfl
  simp only [Bool.false_eq_true, false_and, or_false] at hiff
  constructor
  · rw [has_value_apply]
    simp only [Outcome.ok.injEq]
    rw [hfl]
    exact hiff
  · intro hno
    rw [has_value_apply]
    simp only [Outcome.ok.injEq]
    rw [hfl]
    cases hb : (history ops r calls World.fresh).foldl (fun b e => e.apply b) false with
    | false => rfl
    | true =>
      obtain ⟨l1, l2, h1, _⟩ := hiff.1 hb
      exact absurd (by rw [h1]; simp) hno

/-- Witness of C9: `a.emplace(1); a = -1; a.swap(b); a.reset()` with a `T`
whose converting assignment throws on a negative argument: the assignment
throws and leaves `a` engaged, and `b` ends engaged. -/
theorem has_value_follows_history_witness :
    (has_value Ref.b (runCalls pickyOps
      [⟨.emplace 1, Ref.a, Ref.b⟩, ⟨.assign_conv (-1), Ref.a, Ref.b⟩, ⟨.swap, Ref.a, Ref.b⟩,
       ⟨.reset, Ref.a, Ref.b⟩]
      World.fresh)).1 = .ok true :=
  (has_value_follows_history pickyOps
    [⟨.emplace 1, Ref.a, Ref.b⟩, ⟨.assign_conv (-1), Ref.a, Ref.b⟩, ⟨.swap, Ref.a, Ref.b⟩,
     ⟨.reset, Ref.a, Ref.b⟩]
    (by decide)
    ⟨by decide, by decide, by decide, by decide, by decide, by decide, by decide, by decide,
      trivial⟩ Ref.b).1.2
    ⟨[.neutral, .neutral], [.neutral], by decide, by decide⟩

/-- C10: moving from an engaged source keeps the source engaged.  For a
regular `T`, a source `other` that holds `s`, and a distinct container
`this`: move construction of `this`, and move assignment to `this` from any
state satisfying the lifetime invariant, return normally, leave the flag
of the source set, its storage holding whatever the move of `T` left
there, and leave `this` engaged holding `s`. -/
theorem move_keeps_source_engaged (ops : TOps T U E) (conv : U → T) (hreg : ops.Regular conv)
    (this other : Ref) (hne : this ≠ other) (w : World T E) (s : T)
    (hs : (w.get other).holds s) :
    ((optional_move ops this other w).1 = .ok () ∧
      (has_value other (optional_move ops this other w).2).1 = .ok true ∧
      ((optional_move ops this other w).2.get other)
        = ⟨true, some (ops.moveCtor s).2⟩ ∧
      ((optional_move ops this other w).2.get this).holds s) ∧
    ((w.get this).wf →
      (assign_move ops this other w).1 = .ok this ∧
      (has_value other (assign_move ops this other w).2).1 = .ok true ∧
      (∃ s1, (assign_move ops this other w).2.get other = ⟨true, some s1⟩) ∧
      ((assign_move ops this other w).2.get this).holds s) := by
  have hne2 : other ≠ this := fun h => hne h.symm
  simp only [optional.holds] at hs
  constructor
  · have hm := assign_move_src_only ops this other (w.set this ⟨false, none⟩) s s
      (by simp) (by simpa [hne2] using hs) (hreg.moveCtor s)
    simp [optional_move, init, M.bind, M.noexcept, hm, has_value_apply, hne, hne2,
      optional.holds]
  · intro hw
    obtain ht | ⟨d, ht⟩ := optional.wf_cases _ hw
    · simp only [optional.empty] at ht
      have hm := assign_move_src_only ops this other w s s ht hs (hreg.moveCtor s)
      simp [hm, has_value_apply, hne, hne2, optional.holds]
    · simp only [optional.holds] at ht
      have hm := assign_move_both ops this other w d s hne ht hs (hreg.moveAssign d s).2
      rw [(hreg.moveAssign d s).1] at hm
      simp [hm, has_value_apply, hne, hne2, optional.holds]

/-- Witness of C10: moving from a vector [2]; the source stays engaged, holding []. -/
theorem move_keeps_source_engaged_witness :
    (optional_move vecOps Ref.a Ref.b ⟨⟨false, none⟩, ⟨true, some [2]⟩, []⟩).2.get Ref.b
      = ⟨true, some []⟩ ∧
    ((assign_move vecOps Ref.a Ref.b ⟨⟨true, some [1]⟩, ⟨true, some [2]⟩, []⟩).2.get
      Ref.a).holds [2] :=
  ⟨(move_keeps_source_engaged vecOps id vecOps_regular Ref.a Ref.b (by decide)
      ⟨⟨false, none⟩, ⟨true, some [2]⟩, []⟩ [2] rfl).1.2.2.1,
   ((move_keeps_source_engaged vecOps id vecOps_regular Ref.a Ref.b (by decide)
      ⟨⟨true, some [1]⟩, ⟨true, some [2]⟩, []⟩ [2] rfl).2 (by decide)).2.2.2⟩

/-- C11: copy construction yields an independent copy.  For a regular `T`, a
source that satisfies the lifetime invariant and a distinct new container:
the constructor returns normally, the flag of the new container equals the
flag of the source, an engaged source leaves its value in the new
container, and the source is unchanged.  Whatever is then done to the copy,
converting assignment, `emplace` or `reset()`, the source still is as it
was before the construction. -/
theorem copy_construct_independent (ops : TOps T U E) (conv : U → T)
    (hreg : ops.Regular conv) (this other : Ref) (hne : this ≠ other) (w : World T E)
    (hs : (w.get other).wf) :
    (optional_copy ops this other w).1 = .ok () ∧
    ((optional_copy ops this other w).2.get this)._has_value = (w.get other)._has_value ∧
    (∀ s, (w.get other).holds s → ((optional_copy ops this other w).2.get this).holds s) ∧
    (optional_copy ops this other w).2.get other = w.get other ∧
    (∀ u, (assign_conv ops this u (optional_copy ops this other w).2).2.get other
        = w.get other ∧
      ((assign_conv ops this u (optional_copy ops this other w).2).2.get this).holds (conv u) ∧
      (emplace ops this (.forward u) (optional_copy ops this other w).2).2.get other
        = w.get other) ∧
    (reset ops this (optional_copy ops this other w).2).2.get other = w.get other := by
  have hne2 : other ≠ this := fun h => hne h.symm
  have h0 : (w.set this ⟨false, none⟩).get this = ⟨false, none⟩ := by simp
  obtain he | ⟨s, hh⟩ := optional.wf_cases _ hs
  · simp only [optional.empty] at he
    have hr := reset_disengaged ops this (w.set this ⟨false, none⟩) (by simp)
    have hc := assign_copy_src_empty ops this other (w.set this ⟨false, none⟩) _
      (by simp [hne2, he]) hr
    have hcopy : optional_copy ops this other w = (.ok (), w.set this ⟨false, none⟩) := by
      simp [optional_copy, init, M.bind, hc]
    rw [hcopy]
    refine ⟨rfl, by simp [he], ?_, by simp [hne2], ?_, ?_⟩
    · intro s hh; rw [optional.holds, he] at hh; simp at hh
    · intro u
      rw [assign_conv_empty ops this _ u (conv u) h0 (hreg.convCtor u),
        emplace_forward_empty ops this _ u (conv u) h0 (hreg.convCtor u)]
      simp [hne2, optional.holds]
    · rw [hr]; simp [hne2]
  · simp only [optional.holds] at hh
    have hc := assign_copy_src_only ops this other (w.set this ⟨false, none⟩) s s h0
      (by simp [hne2, hh]) (hreg.copyCtor s)
    have hcopy : optional_copy ops this other w = (.ok (),
        ((w.set this ⟨false, none⟩).set this ⟨true, some s⟩).logs
          [.deref other true, .deref this false, .construct this false s, .flag this true,
           .deref this true]) := by
      simp [optional_copy, init, M.bind, hc]
    have h1 : ((((w.set this ⟨false, none⟩).set this ⟨true, some s⟩).logs
          [.deref other true, .deref this false, .construct this false s, .flag this true,
           .deref this true]) : World T E).get this = ⟨true, some s⟩ := by simp
    rw [hcopy]
    refine ⟨rfl, by simp [hh], ?_, by simp [hne2], ?_, ?_⟩
    · intro s1 hh1
      rw [optional.holds, hh] at hh1
      simp at hh1
      simp [optional.holds, hh1]
    · intro u
      have ha := assign_conv_engaged ops this _ s u h1 (by rw [hreg.convAssign])
      rw [hreg.convAssign] at ha
      rw [ha, emplace_forward_engaged ops this _ u s (conv u) h1 (hreg.dtor s)
        (hreg.convCtor u)]
      simp [hne2, optional.holds]
    · rw [reset_engaged ops this _ s h1 (hreg.dtor s)]
      simp [hne2]

/-- Witness of C11: copying a vector [2], then assigning [9] to the copy. -/
theorem copy_construct_independent_witness :
    ((optional_copy vecOps Ref.a Ref.b ⟨⟨false, none⟩, ⟨true, some [2]⟩, []⟩).2.get
      Ref.a).holds [2] ∧
    (assign_conv vecOps Ref.a [9]
      (optional_copy vecOps Ref.a Ref.b ⟨⟨false, none⟩, ⟨true, some [2]⟩, []⟩).2).2.get Ref.b
      = ⟨true, some [2]⟩ :=
  ⟨(copy_construct_independent vecOps id vecOps_regular Ref.a Ref.b (by decide)
      ⟨⟨false, none⟩, ⟨true, some [2]⟩, []⟩ (by decide)).2.2.1 [2] rfl,
   ((copy_construct_independent vecOps id vecOps_regular Ref.a Ref.b (by decide)
      ⟨⟨false, none⟩, ⟨true, some [2]⟩, []⟩ (by decide)).2.2.2.2.1 [9]).1⟩

/-- C12: native-facility equivalence.  Abstract a container of the fallback
to an option value, `none` when the flag is unset and `some v` when it
holds `v`.  For a regular `T` and containers that satisfy the lifetime
invariant, every operation of the fallback (both overloads of
`make_optional` among them; a constructor building a container distinct
from its source) ends with the outcome and hands back the value the native
optional does on the abstract state, and leaves the containers in the
abstract state the native optional leaves, also when a container is assigned
to itself; so `bad_optional_access` is thrown exactly when `value()` is
called on `none`. -/
theorem fallback_refines_native (ops : TOps T U E) (conv : U → T) (hreg : ops.Regular conv)
    (op : Op U) (this other : Ref) (w : World T E) (hw : w.wf)
    (hc : op.is_ctor = true → this ≠ other) :
    ((op.eval ops this other w).1, (op.eval ops this other w).2.abs)
      = op.native ops conv this other w.abs := by
  have hi := native_init this w hw
  cases op with
  | ctor_default =>
    simp [Op.eval, Op.run, Op.native, optional_default, init, M.bind, M.noexcept, hi.2]
  | ctor_nullopt =>
    simp [Op.eval, Op.run, Op.native, optional_nullopt, init, M.bind, M.noexcept, hi.2]
  | ctor_copy =>
    have hne : other ≠ this := fun h => hc rfl h.symm
    obtain ⟨ho, ha⟩ := native_assign_copy ops conv hreg this other _ hi.1
    rcases hX : assign_copy ops this other (w.set this ⟨false, none⟩) with ⟨o, w1⟩
    rw [hX] at ho ha; simp only at ho ha; subst ho
    simp [Op.eval, Op.run, Op.native, optional_copy, init, M.bind, hX, ha, hi.2, hne]
  | ctor_move =>
    have hne : other ≠ this := fun h => hc rfl h.symm
    obtain ⟨ho, ha⟩ := native_assign_move ops conv hreg this other _ hi.1
    rcases hX : assign_move ops this other (w.set this ⟨false, none⟩) with ⟨o, w1⟩
    rw [hX] at ho ha; simp only at ho ha; subst ho
    simp [Op.eval, Op.run, optional_move, init, M.bind, M.noexcept, hX, ha, hi.2]
    cases hs : (w.get other).abs <;> simp [Op.native, hne, hs]
    apply NWorld.ext_of_get
    intro r
    by_cases h : r = this <;> by_cases h2 : r = other <;> simp [h, h2, hne]
  | ctor_in_place u =>
    obtain ⟨ho, ha, _⟩ := native_emplace ops conv hreg this _ hi.1 u
    rcases hX : emplace ops this (.forward u) (w.set this ⟨false, none⟩) with ⟨o, w1⟩
    rw [hX] at ho ha; simp only at ho ha; subst ho
    simp [Op.eval, Op.run, Op.native, optional_in_place, init, M.bind, hX, ha, hi.2]
  | ctor_conv u =>
    obtain ⟨ho, ha, _⟩ := native_emplace ops conv hreg this _ hi.1 u
    rcases hX : emplace ops this (.forward u) (w.set this ⟨false, none⟩) with ⟨o, w1⟩
    rw [hX] at ho ha; simp only at ho ha; subst ho
    simp [Op.eval, Op.run, Op.native, optional_conv, init, M.bind, hX, ha, hi.2]
  | make_optional u =>
    obtain ⟨ho, ha, _⟩ := native_emplace ops conv hreg this _ hi.1 u
    rcases hX : emplace ops this (.forward u) (w.set this ⟨false, none⟩) with ⟨o, w1⟩
    rw [hX] at ho ha; simp only at ho ha; subst ho
    simp [Op.eval, Op.run, Op.native, make_optional, optional_conv, init, M.bind, hX, ha,
      hi.2]
  | make_optional_in_place u =>
    obtain ⟨ho, ha, _⟩ := native_emplace ops conv hreg this _ hi.1 u
    rcases hX : emplace ops this (.forward u) (w.set this ⟨false, none⟩) with ⟨o, w1⟩
    rw [hX] at ho ha; simp only at ho ha; subst ho
    simp [Op.eval, Op.run, Op.native, make_optional_in_place, optional_in_place, init, M.bind,
      hX, ha, hi.2]
  | assign_nullopt =>
    obtain ⟨ho, ha⟩ := native_reset ops conv hreg this w hw
    rcases hX : reset ops this w with ⟨o, w1⟩
    rw [hX] at ho ha; simp only at ho ha; subst ho
    simp [Op.eval, Op.run, Op.native, assign_nullopt, cm.discard, M.bind, M.noexcept, hX, ha]
  | assign_copy =>
    obtain ⟨ho, ha⟩ := native_assign_copy ops conv hreg this other w hw
    rcases hX : assign_copy ops this other w with ⟨o, w1⟩
    rw [hX] at ho ha; simp only at ho ha; subst ho
    simp [Op.eval, Op.run, Op.native, cm.discard, M.bind, hX, ha]
  | assign_move =>
    obtain ⟨ho, ha⟩ := native_assign_move ops conv hreg this other w hw
    rcases hX : assign_move ops this other w with ⟨o, w1⟩
    rw [hX] at ho ha; simp only at ho ha; subst ho
    simp [Op.eval, Op.run, cm.discard, M.bind, hX, ha]
    cases hs : (w.get other).abs <;> cases ht : (w.get this).abs <;>
      by_cases hne : this = other <;> simp [Op.native, hs, ht, hne]
  | assign_conv u =>
    obtain ⟨ho, ha⟩ := native_assign_conv ops conv hreg this w hw u
    rcases hX : assign_conv ops this u w with ⟨o, w1⟩
    rw [hX] at ho ha; simp only at ho ha; subst ho
    simp [Op.eval, Op.run, Op.native, cm.discard, M.bind, hX, ha]
  | emplace u =>
    obtain ⟨ho, ha, hm⟩ := native_emplace ops conv hreg this w hw u
    rcases hX : emplace ops this (.forward u) w with ⟨o, w1⟩
    rw [hX] at ho ha hm; simp only at ho ha hm; subst ho
    simp [Op.eval, Op.native, M.bind, M.load, hX, ha, hm]
  | reset =>
    obtain ⟨ho, ha⟩ := native_reset ops conv hreg this w hw
    rcases hX : reset ops this w with ⟨o, w1⟩
    rw [hX] at ho ha; simp only at ho ha; subst ho
    simp [Op.eval, Op.run, Op.native, M.bind, hX, ha]
  | swap =>
    obtain ⟨ho, ha⟩ := native_swap ops conv hreg this other w hw
    rcases hX : swap ops this other w with ⟨o, w1⟩
    rw [hX] at ho ha; simp only at ho ha; subst ho
    simp [Op.eval, Op.run, Op.native, M.bind, hX, ha]
  | has_value =>
    obtain ht | ⟨d, ht⟩ := optional.wf_cases _ (World.wf_get hw this) <;>
    simp only [optional.holds, optional.empty] at ht <;>
    simp [Op.eval, Op.native, M.bind, has_value_apply, ht, optional.abs]
  | operator_bool =>
    obtain ht | ⟨d, ht⟩ := optional.wf_cases _ (World.wf_get hw this) <;>
    simp only [optional.holds, optional.empty] at ht <;>
    simp [Op.eval, Op.native, M.bind, operator_bool_apply, ht, optional.abs]
  | value =>
    obtain ht | ⟨d, ht⟩ := optional.wf_cases _ (World.wf_get hw this) <;>
    simp only [optional.holds, optional.empty] at ht
    · simp [Op.eval, Op.native, M.bind, value_disengaged this w (by simp [ht]), ht,
        optional.abs]
    · simp [Op.eval, Op.native, M.bind, M.load, value_engaged this w (by simp [ht]), ht,
        optional.abs]
      exact World.abs_eq_set w _ _ (fun r => by simp)
  | value_or u =>
    obtain ht | ⟨d, ht⟩ := optional.wf_cases _ (World.wf_get hw this) <;>
    simp only [optional.holds, optional.empty] at ht
    · simp [Op.eval, Op.native, M.bind,
        value_or_disengaged ops this w u (conv u) (by simp [ht]) (hreg.convCtor u), ht,
        optional.abs]
    · simp [Op.eval, Op.native, M.bind,
        value_or_engaged ops this w u d d ht (hreg.copyCtor d), ht, optional.abs]
      exact World.abs_eq_set w _ _ (fun r => by simp)
  | value_or_move u =>
    obtain ht | ⟨d, ht⟩ := optional.wf_cases _ (World.wf_get hw this) <;>
    simp only [optional.holds, optional.empty] at ht
    · simp [Op.eval, Op.native, M.bind,
        value_or_move_disengaged ops this w u (conv u) (by simp [ht]) (hreg.convCtor u), ht,
        optional.abs]
    · simp [Op.eval, Op.native, M.bind,
        value_or_move_engaged ops this w u d d ht (hreg.moveCtor d), ht, optional.abs]
      refine World.abs_eq_set w _ _ (fun r => ?_)
      by_cases h : r = this <;> simp [h, optional.abs]

/-- Witness of C12: `swap` of a vector [1] with an empty container,
`value()` on a default-constructed `optional<int>`, `make_optional<T>(args)`
building a vector [4], and a vector [1] move-assigned to itself. -/
theorem fallback_refines_native_witness :
    ((Op.eval vecOps Ref.a Ref.b .swap ⟨⟨true, some [1]⟩, ⟨false, none⟩, []⟩).1,
      (Op.eval vecOps Ref.a Ref.b .swap ⟨⟨true, some [1]⟩, ⟨false, none⟩, []⟩).2.abs)
      = (.ok .unit, ⟨none, some [1]⟩) ∧
    ((Op.eval intOps Ref.a Ref.b .value World.fresh).1,
      (Op.eval intOps Ref.a Ref.b .value World.fresh).2.abs)
      = (.throw .bad_optional_access, ⟨none, none⟩) ∧
    ((Op.eval vecOps Ref.a Ref.b (.make_optional_in_place [4]) World.fresh).1,
      (Op.eval vecOps Ref.a Ref.b (.make_optional_in_place [4]) World.fresh).2.abs)
      = (.ok .unit, ⟨some [4], none⟩) ∧
    ((Op.eval vecOps Ref.a Ref.a .assign_move ⟨⟨true, some [1]⟩, ⟨false, none⟩, []⟩).1,
      (Op.eval vecOps Ref.a Ref.a .assign_move ⟨⟨true, some [1]⟩, ⟨false, none⟩, []⟩).2.abs)
      = (.ok .unit, ⟨some [], none⟩) :=
  ⟨fallback_refines_native vecOps id vecOps_regular .swap Ref.a Ref.b
      ⟨⟨true, some [1]⟩, ⟨false, none⟩, []⟩ (by decide) (by decide),
   fallback_refines_native intOps id intOps_regular .value Ref.a Ref.b World.fresh
      (by decide) (by decide),
   fallback_refines_native vecOps id vecOps_regular (.make_optional_in_place [4]) Ref.a Ref.b
      World.fresh (by decide) (by decide),
   fallback_refines_native vecOps id vecOps_regular .assign_move Ref.a Ref.a
      ⟨⟨true, some [1]⟩, ⟨false, none⟩, []⟩ (by decide) (by decide)⟩

/-- C13: converting assignment `*this = v`, for a regular `T`.  On a container
engaged with `d` the call returns `*this` and its only steps are one
dereference and one assignment of `T` that leaves `v` converted to `T`:
nothing is destroyed or constructed.  On a disengaged container the call
does what `emplace(v)` does.  From every state satisfying the lifetime
invariant it ends engaged holding `v` converted to `T`. -/
theorem assign_conv_spec (ops : TOps T U E) (conv : U → T) (hreg : ops.Regular conv)
    (this : Ref) (w : World T E) (v : U) :
    (∀ d, (w.get this).holds d →
      assign_conv ops this v w = (.ok this, (w.set this ⟨true, some (conv v)⟩).logs
        [.deref this true, .assign this (conv v)])) ∧
    ((w.get this).empty →
      assign_conv ops this v w = emplace ops this (.forward v) w ∧
      newEvents w (assign_conv ops this v w).2
        = [.deref this false, .construct this false (conv v), .flag this true,
           .deref this true]) ∧
    ((w.get this).wf →
      (assign_conv ops this v w).1 = .ok this ∧
      ((assign_conv ops this v w).2.get this).holds (conv v)) := by
  have h1 : ∀ d, (w.get this).holds d →
      assign_conv ops this v w = (.ok this, (w.set this ⟨true, some (conv v)⟩).logs
        [.deref this true, .assign this (conv v)]) := by
    intro d hd
    have h := assign_conv_engaged ops this w d v hd (by rw [hreg.convAssign])
    rw [hreg.convAssign] at h
    exact h
  have h2 : (w.get this).empty →
      assign_conv ops this v w = (.ok this, (w.set this ⟨true, some (conv v)⟩).logs
        [.deref this false, .construct this false (conv v), .flag this true,
         .deref this true]) :=
    fun he => assign_conv_empty ops this w v (conv v) he (hreg.convCtor v)
  refine ⟨h1, ?_, ?_⟩
  · intro he
    rw [h2 he, emplace_forward_empty ops this w v (conv v) he (hreg.convCtor v)]
    simp [newEvents]
  · intro hw
    obtain he | ⟨d, hd⟩ := optional.wf_cases _ hw
    · rw [h2 he]; simp [optional.holds]
    · rw [h1 d hd]; simp [optional.holds]

/-- Witness of C13: `o = 3` on an `optional<int>` holding 7, and on an empty one. -/
theorem assign_conv_spec_witness :
    assign_conv intOps Ref.a 3 ⟨⟨true, some 7⟩, ⟨false, none⟩, []⟩
      = (.ok Ref.a, ⟨⟨true, some 3⟩, ⟨false, none⟩, [.deref Ref.a true, .assign Ref.a 3]⟩) ∧
    ((assign_conv intOps Ref.b 3 ⟨⟨true, some 7⟩, ⟨false, none⟩, []⟩).2.get Ref.b).holds 3 :=
  ⟨(assign_conv_spec intOps id intOps_regular Ref.a ⟨⟨true, some 7⟩, ⟨false, none⟩, []⟩ 3).1
      7 rfl,
   ((assign_conv_spec intOps id intOps_regular Ref.b ⟨⟨true, some 7⟩, ⟨false, none⟩, []⟩ 3).2.2
      (by decide)).2⟩

/-- C14: a container built by the default constructor or from `nullopt` is
disengaged: construction returns normally, the flag is unset and the
storage dead, `has_value()` and the conversion to `bool` give false, and
`value()` throws `bad_optional_access`. -/
theorem constructed_disengaged (this : Ref) (w : World T E) :
    ((optional_default this w).1 = .ok () ∧
      (optional_default this w).2.get this = ⟨false, none⟩ ∧
      (has_value this (optional_default this w).2).1 = .ok false ∧
      (operator_bool this (optional_default this w).2).1 = .ok false ∧
      (value this (optional_default this w).2).1 = .throw .bad_optional_access) ∧
    ((optional_nullopt this w).1 = .ok () ∧
      (optional_nullopt this w).2.get this = ⟨false, none⟩ ∧
      (has_value this (optional_nullopt this w).2).1 = .ok false ∧
      (operator_bool this (optional_nullopt this w).2).1 = .ok false ∧
      (value this (optional_nullopt this w).2).1 = .throw .bad_optional_access) := by
  have h1 : optional_default this w = (.ok (), w.set this ⟨false, none⟩) := rfl
  have h2 : optional_nullopt this w = (.ok (), w.set this ⟨false, none⟩) := rfl
  rw [h1, h2]
  simp [has_value_apply, operator_bool_apply, value_disengaged]

/-- C15: assigning `nullopt`.  From every state and for every `T` it leaves
the flag unset.  On a container engaged with `v` it runs exactly one
destructor, on `v`, and leaves the storage dead; when that destructor
returns, the call returns `*this` after clearing the flag, dereferencing and
destroying `v`.  On a container whose flag is not set it changes nothing and
logs nothing.  Assigning `nullopt` twice ends as assigning it once does. -/
theorem assign_nullopt_idempotent (ops : TOps T U E) (this : Ref) (w : World T E) :
    ((assign_nullopt ops this w).2.get this)._has_value = false ∧
    (∀ v, (w.get this).holds v →
      (assign_nullopt ops this w).2.get this = ⟨false, none⟩ ∧
      (newEvents w (assign_nullopt ops this w).2).filter Event.is_destroy
        = [.destroy this v] ∧
      (ops.dtor v = none →
        (assign_nullopt ops this w).1 = .ok this ∧
        newEvents w (assign_nullopt ops this w).2
          = [.flag this false, .deref this false, .destroy this v])) ∧
    ((w.get this)._has_value = false → assign_nullopt ops this w = (.ok this, w)) ∧
    (do let _ ← assign_nullopt ops this; assign_nullopt ops this) w
      = assign_nullopt ops this w := by
  have hflag : ((assign_nullopt ops this w).2.get this)._has_value = false := by
    rw [assign_nullopt_snd]; exact reset_flag ops this w
  refine ⟨hflag, ?_, ?_, ?_⟩
  · intro v h
    simp only [optional.holds] at h
    cases hd : ops.dtor v with
    | none =>
      rw [assign_nullopt_eq ops this w _ (reset_engaged ops this w v h hd)]
      simp [newEvents, Event.is_destroy]
    | some e =>
      rw [assign_nullopt_snd, reset_engaged_fail ops this w v e h hd]
      simp [newEvents, Event.is_destroy]
  · intro h
    exact assign_nullopt_eq ops this w w (reset_disengaged ops this w h)
  · have hf := reset_flag ops this w
    rcases hr : reset ops this w with ⟨o, w1⟩
    rw [hr] at hf
    cases o with
    | ok x =>
      have h1 := assign_nullopt_eq ops this w w1 hr
      have h2 := assign_nullopt_eq ops this w1 w1 (reset_disengaged ops this w1 hf)
      simp [M.bind, h1, h2]
    | throw x => simp [M.bind, assign_nullopt, M.noexcept, hr]
    | terminate => simp [M.bind, assign_nullopt, M.noexcept, hr]
    | undefined => simp [M.bind, assign_nullopt, M.noexcept, hr]

/-- Witness of C15: `o = nullopt` on an `optional<int>` holding 7, and on an empty one. -/
theorem assign_nullopt_idempotent_witness :
    newEvents ⟨⟨true, some 7⟩, ⟨false, none⟩, []⟩
      (assign_nullopt intOps Ref.a ⟨⟨true, some 7⟩, ⟨false, none⟩, []⟩).2
      = [.flag Ref.a false, .deref Ref.a false, .destroy Ref.a 7] ∧
    assign_nullopt intOps Ref.b ⟨⟨true, some 7⟩, ⟨false, none⟩, []⟩
      = (.ok Ref.b, ⟨⟨true, some 7⟩, ⟨false, none⟩, []⟩) :=
  ⟨(((assign_nullopt_idempotent intOps Ref.a ⟨⟨true, some 7⟩, ⟨false, none⟩, []⟩).2.1
      7 rfl).2.2 rfl).2,
   (assign_nullopt_idempotent intOps Ref.b ⟨⟨true, some 7⟩, ⟨false, none⟩, []⟩).2.2.1 rfl⟩

/-- C16: the lifetime invariant, for every `T`.  From a state in which each
storage holds a live object exactly when its flag is set (a constructor
running on raw storage), no operation runs into undefined behaviour, so
none destroys or uses a dead object; and when the operation returns,
normally or with the `bad_optional_access` of `value()`, the invariant holds
again, no construction ran in storage that held a live object, and in each
container constructions minus destructions is the change of the flag.  So
after any sequence of calls on two default-constructed containers, each of
which returned, constructions minus destructions is 1 in an engaged
container and 0 in a disengaged one; and the destructor of an engaged
container leaves its storage dead. -/
theorem lifetime_invariant (ops : TOps T U E) (op : Op U) (this other : Ref) (w : World T E)
    (hw : w.wf) (hc : op.is_ctor = true → w.get this = ⟨false, none⟩) :
    (op.run ops this other w).1 ≠ .undefined ∧
    (((op.run ops this other w).1 = .ok () ∨
        (op.run ops this other w).1 = .throw .bad_optional_access) →
      (op.run ops this other w).2.wf ∧
      no_live_construct (newEvents w (op.run ops this other w).2) = true ∧
      ∀ r, net r (newEvents w (op.run ops this other w).2)
        = (((op.run ops this other w).2.flags r).toNat : Int) - ((w.flags r).toNat : Int)) ∧
    (∀ calls : List (Call U), (∀ c ∈ calls, c.op.is_ctor = false) →
      allReturn ops calls World.fresh →
      (runCalls ops calls World.fresh).wf ∧
      no_live_construct (runCalls ops calls World.fresh).log = true ∧
      ∀ r, net r (runCalls ops calls World.fresh).log
        = if (runCalls ops calls World.fresh).flags r then 1 else 0) ∧
    (optional_dtor ops this w).2.get this = ⟨false, none⟩ := by
  have h := Op.run_life ops op this other w hw hc
  refine ⟨h.1, ?_, ?_, ?_⟩
  · intro hret
    obtain ⟨hw1, evs, hl, hn, _, hb⟩ := h.2 hret
    rw [newEvents_of_log w _ evs hl]
    exact ⟨hw1, hn, hb⟩
  · intro calls hcalls hok
    obtain ⟨hw1, evs, hl, hn, hb⟩ :=
      runCalls_life ops calls hcalls World.fresh ⟨rfl, rfl⟩ hok
    have hl0 : (World.fresh : World T E).log = [] := rfl
    rw [hl0, List.nil_append] at hl
    refine ⟨hw1, by rw [hl]; exact hn, fun r => ?_⟩
    have h0 : (World.fresh : World T E).flags r = false := by cases r <;> rfl
    rw [hl, hb r, h0]
    cases (runCalls ops calls World.fresh).flags r <;> simp
  · obtain ht | ⟨d, ht⟩ := optional.wf_cases _ (World.wf_get hw this) <;>
    simp only [optional.holds, optional.empty] at ht
    · simp [optional_dtor, M.noexcept, reset_disengaged ops this w (by simp [ht]), ht]
    · cases hd : ops.dtor d with
      | none => simp [optional_dtor, M.noexcept, reset_engaged ops this w d ht hd]
      | some e => simp [optional_dtor, M.noexcept, reset_engaged_fail ops this w d e ht hd]

/-- Witness of C16: move assignment between two vectors, the target holding [1]. -/
theorem lifetime_invariant_witness :
    (Op.run vecOps Ref.a Ref.b .assign_move ⟨⟨true, some [1]⟩, ⟨true, some [2]⟩, []⟩).2.wf ∧
    (optional_dtor vecOps Ref.a ⟨⟨true, some [1]⟩, ⟨true, some [2]⟩, []⟩).2.get Ref.a
      = ⟨false, none⟩ :=
  ⟨((lifetime_invariant vecOps .assign_move Ref.a Ref.b
      ⟨⟨true, some [1]⟩, ⟨true, some [2]⟩, []⟩ (by decide) (by decide)).2.1
      (Or.inl rfl)).1,
   (lifetime_invariant vecOps .assign_move Ref.a Ref.b
      ⟨⟨true, some [1]⟩, ⟨true, some [2]⟩, []⟩ (by decide) (by decide)).2.2.2⟩

/-- C17, as the claim states it, fails: `reset()` clears the flag before it
dereferences to destroy the value, and `emplace` dereferences after
`reset()` to construct the new value; both dereferences happen with the
flag unset. -/
theorem dereference_with_flag_unset :
    Event.deref Ref.a false ∈ newEvents ⟨⟨true, some 7⟩, ⟨false, none⟩, []⟩
      (reset intOps Ref.a ⟨⟨true, some 7⟩, ⟨false, none⟩, []⟩).2 ∧
    Event.deref Ref.a false ∈ newEvents World.fresh
      (emplace intOps Ref.a (.forward 3) World.fresh).2 := by
  decide

/-- C17, amended.  From a state satisfying the lifetime invariant (a
constructor running on raw storage), for every `T` and whatever the outcome
of the operation (return, exception or `std::terminate`): each dereference
an operation makes happens with the flag set, except the two by which the
container takes the address of its storage with the flag unset: in
`reset()`, directly before the destructor runs on the value still living
there, and in `emplace`, directly before the constructor runs in the dead
storage, whether it completes or throws.  The same holds of `emplace` called
with a reference to the value of a container, as long as its behaviour is
defined.  A dereference the caller makes through `operator*` or
`operator->` happens with the flag as the caller finds it. -/
theorem dereferences_in_order (ops : TOps T U E) (op : Op U) (args : Args U)
    (this other : Ref) (w : World T E) (hw : w.wf)
    (hc : op.is_ctor = true → w.get this = ⟨false, none⟩) :
    derefs_guarded (newEvents w (op.run ops this other w).2) = true ∧
    ((emplace ops this args w).1 ≠ .undefined →
      derefs_guarded (newEvents w (emplace ops this args w).2) = true) ∧
    newEvents w (operator_star this w).2 = [.deref this (w.get this)._has_value] ∧
    newEvents w (operator_arrow this w).2 = [.deref this (w.get this)._has_value] := by
  refine ⟨?_, emplace_derefs ops this args w hw, ?_, ?_⟩
  · obtain ⟨f, ⟨_, _, evs, hl, hd, _⟩, _⟩ := Op.run_sound ops op this other w hw hc
    rw [newEvents_of_log w _ evs hl]
    exact hd
  · rw [operator_star_apply]; simp [newEvents]
  · rw [operator_arrow, operator_star_apply]; simp [newEvents]

/-- Witness of C17: `emplace(3)` on a container holding 7 whose new value
the constructor refuses to build, `swap` of a vector [1] with an empty
container, and `b.emplace(*a)` with `a` holding the vector [1]. -/
theorem dereferences_in_order_witness :
    newEvents ⟨⟨true, some 7⟩, ⟨false, none⟩, []⟩
      (Op.run ctorThrowingOps Ref.a Ref.b (.emplace 3) ⟨⟨true, some 7⟩, ⟨false, none⟩, []⟩).2
      = [.flag Ref.a false, .deref Ref.a false, .destroy Ref.a 7, .deref Ref.a false,
         .fail "converting constructor"] ∧
    derefs_guarded (newEvents ⟨⟨true, some 7⟩, ⟨false, none⟩, []⟩
      (Op.run ctorThrowingOps Ref.a Ref.b (.emplace 3)
        ⟨⟨true, some 7⟩, ⟨false, none⟩, []⟩).2) = true ∧
    derefs_guarded (newEvents ⟨⟨true, some [1]⟩, ⟨false, none⟩, []⟩
      (Op.run vecOps Ref.a Ref.b .swap ⟨⟨true, some [1]⟩, ⟨false, none⟩, []⟩).2) = true ∧
    derefs_guarded (newEvents ⟨⟨true, some [1]⟩, ⟨false, none⟩, []⟩
      (emplace vecOps Ref.b (.lvalue Ref.a) ⟨⟨true, some [1]⟩, ⟨false, none⟩, []⟩).2) = true :=
  ⟨by decide,
   (dereferences_in_order ctorThrowingOps (.emplace 3) (.forward 3) Ref.a Ref.b
    ⟨⟨true, some 7⟩, ⟨false, none⟩, []⟩ (by decide) (by decide)).1,
   (dereferences_in_order vecOps .swap (.forward []) Ref.a Ref.b
    ⟨⟨true, some [1]⟩, ⟨false, none⟩, []⟩ (by decide) (by decide)).1,
   (dereferences_in_order vecOps .reset (.lvalue Ref.a) Ref.b Ref.a
    ⟨⟨true, some [1]⟩, ⟨false, none⟩, []⟩ (by decide) (by decide)).2.1 (by decide)⟩

/-- C18: `emplace` resets first.  Whatever the arguments, once `reset()` has
returned `emplace` goes on from the world `reset()` left: dereference,
construct, set the flag, `value()`.  When the constructor of `T` makes `v`
from `x`, the steps of `emplace(x)` on a disengaged container are:
dereference, construct `v` in the dead storage, set the flag, dereference;
on a container engaged with `d` whose destructor returns they are preceded
by: clear the flag, dereference, destroy `d`.  So the old value is destroyed
before the one construction begins, and the flag is false at that
construction. -/
theorem emplace_event_sequence (ops : TOps T U E) (this : Ref) (w : World T E) (x : U) (v : T)
    (hc : ops.convCtor x = .ok v) :
    (∀ args w1, reset ops this w = (.ok (), w1) →
      emplace ops this args w =
        (do let p ← operator_star this
            construct ops p args
            M.set_has_value this true
            value this) w1) ∧
    ((w.get this).empty →
      newEvents w (emplace ops this (.forward x) w).2
        = [.deref this false, .construct this false v, .flag this true, .deref this true]) ∧
    (∀ d, (w.get this).holds d → ops.dtor d = none →
      newEvents w (emplace ops this (.forward x) w).2
        = [.flag this false, .deref this false, .destroy this d,
           .deref this false, .construct this false v, .flag this true, .deref this true]) ∧
    ((w.get this).wf → (∀ d, (w.get this)._mem = some d → ops.dtor d = none) →
      flags_at_construct this (w.flags this) (newEvents w (emplace ops this (.forward x) w).2)
        = [false]) := by
  have h2 : (w.get this).empty →
      newEvents w (emplace ops this (.forward x) w).2
        = [.deref this false, .construct this false v, .flag this true, .deref this true] := by
    intro he
    rw [emplace_forward_empty ops this w x v he hc]
    simp [newEvents]
  have h3 : ∀ d, (w.get this).holds d → ops.dtor d = none →
      newEvents w (emplace ops this (.forward x) w).2
        = [.flag this false, .deref this false, .destroy this d,
           .deref this false, .construct this false v, .flag this true, .deref this true] := by
    intro d hd hdt
    rw [emplace_forward_engaged ops this w x d v hd hdt hc]
    simp [newEvents]
  refine ⟨?_, h2, h3, ?_⟩
  · intro args w1 hr
    simp [emplace, M.bind, hr]
  · intro hw hdt
    obtain he | ⟨d, hd⟩ := optional.wf_cases _ hw
    · rw [h2 he]
      simp only [optional.empty] at he
      simp [flags_at_construct, World.flags, he]
    · rw [h3 d hd (hdt d (by rw [optional.holds] at hd; simp [hd]))]
      simp [flags_at_construct]

/-- Witness of C18: `emplace(3)` on an `optional<int>` holding 7. -/
theorem emplace_event_sequence_witness :
    newEvents ⟨⟨true, some 7⟩, ⟨false, none⟩, []⟩
      (emplace intOps Ref.a (.forward 3) ⟨⟨true, some 7⟩, ⟨false, none⟩, []⟩).2
      = [.flag Ref.a false, .deref Ref.a false, .destroy Ref.a 7,
         .deref Ref.a false, .construct Ref.a false 3, .flag Ref.a true, .deref Ref.a true] :=
  (emplace_event_sequence intOps Ref.a ⟨⟨true, some 7⟩, ⟨false, none⟩, []⟩ 3 3 rfl).2.2.1
    7 rfl rfl

/-- C19: `swap` is an involution and is symmetric.  For a regular `T` and two
distinct containers that satisfy the lifetime invariant, `a.swap(b)`
followed by `a.swap(b)` returns normally both times and leaves both
containers with their original flags and values; and `a.swap(b)` leaves
both containers as `b.swap(a)` does. -/
theorem swap_involution_symmetric (ops : TOps T U E) (conv : U → T) (hreg : ops.Regular conv)
    (this other : Ref) (hne : this ≠ other) (w : World T E) (hw : w.wf) :
    ((swap ops this other w).1 = .ok () ∧
      (swap ops this other (swap ops this other w).2).1 = .ok () ∧
      (swap ops this other (swap ops this other w).2).2.get this = w.get this ∧
      (swap ops this other (swap ops this other w).2).2.get other = w.get other) ∧
    ((swap ops this other w).2.get this = (swap ops other this w).2.get this ∧
      (swap ops this other w).2.get other = (swap ops other this w).2.get other) := by
  have hne2 : other ≠ this := fun h => hne h.symm
  have h1 := swap_exchanges ops conv hreg this other hne w hw
  have hw1 : (swap ops this other w).2.wf := by
    rw [World.wf_iff]
    intro r
    cases r <;> cases this <;> cases other <;>
      first
      | exact absurd rfl hne
      | (rw [h1.2.1]; exact World.wf_get hw _)
      | (rw [h1.2.2]; exact World.wf_get hw _)
  have h2 := swap_exchanges ops conv hreg this other hne _ hw1
  have h3 := swap_exchanges ops conv hreg other this hne2 w hw
  refine ⟨⟨h1.1, h2.1, ?_, ?_⟩, ?_, ?_⟩
  · rw [h2.2.1, h1.2.2]
  · rw [h2.2.2, h1.2.1]
  · rw [h1.2.1, h3.2.2]
  · rw [h1.2.2, h3.2.1]

/-- Witness of C19: swapping a vector [1] with an empty container, twice. -/
theorem swap_involution_symmetric_witness :
    (swap vecOps Ref.a Ref.b
      (swap vecOps Ref.a Ref.b ⟨⟨true, some [1]⟩, ⟨false, none⟩, []⟩).2).2.get Ref.a
      = ⟨true, some [1]⟩ ∧
    (swap vecOps Ref.a Ref.b ⟨⟨true, some [1]⟩, ⟨false, none⟩, []⟩).2.get Ref.b
      = (swap vecOps Ref.b Ref.a ⟨⟨true, some [1]⟩, ⟨false, none⟩, []⟩).2.get Ref.b :=
  ⟨(swap_involution_symmetric vecOps id vecOps_regular Ref.a Ref.b (by decide)
      ⟨⟨true, some [1]⟩, ⟨false, none⟩, []⟩ (by decide)).1.2.2.1,
   (swap_involution_symmetric vecOps id vecOps_regular Ref.a Ref.b (by decide)
      ⟨⟨true, some [1]⟩, ⟨false, none⟩, []⟩ (by decide)).2.2⟩

/-- C20: `emplace` is not atomic.  When the constructor of `T` throws `e` on
`x`, `emplace(x)` throws exactly `e` and leaves the container disengaged
with dead storage, so the lifetime invariant holds: on a disengaged
container nothing else happened; on a container engaged with `d` whose
destructor returns, `d` was destroyed, once, before the constructor ran, and
is not restored. -/
theorem emplace_not_atomic (ops : TOps T U E) (this : Ref) (w : World T E) (x : U) (e : E)
    (hc : ops.convCtor x = .error e) :
    ((w.get this).empty →
      emplace ops this (.forward x) w
        = (.throw (.raised e), w.logs [.deref this false, .fail e])) ∧
    (∀ d, (w.get this).holds d → ops.dtor d = none →
      (emplace ops this (.forward x) w).1 = .throw (.raised e) ∧
      newEvents w (emplace ops this (.forward x) w).2
        = [.flag this false, .deref this false, .destroy this d, .deref this false, .fail e] ∧
      (newEvents w (emplace ops this (.forward x) w).2).filter Event.is_destroy
        = [.destroy this d]) ∧
    ((w.get this).wf → (∀ d, (w.get this)._mem = some d → ops.dtor d = none) →
      (emplace ops this (.forward x) w).1 = .throw (.raised e) ∧
      (emplace ops this (.forward x) w).2.get this = ⟨false, none⟩ ∧
      ((emplace ops this (.forward x) w).2.get this).wf ∧
      ∀ r, r ≠ this → (emplace ops this (.forward x) w).2.get r = w.get r) := by
  refine ⟨fun he => emplace_forward_empty_fail ops this w x e he hc, ?_, ?_⟩
  · intro d hd hdt
    rw [emplace_forward_engaged_fail ops this w x d e hd hdt hc]
    simp [newEvents, Event.is_destroy]
  · intro hw hdt
    obtain he | ⟨d, hd⟩ := optional.wf_cases _ hw
    · rw [emplace_forward_empty_fail ops this w x e he hc]
      simp only [optional.empty] at he
      refine ⟨rfl, by simpa using he, by simp [he, optional.wf], fun r _ => by simp⟩
    · rw [emplace_forward_engaged_fail ops this w x d e hd
        (hdt d (by rw [optional.holds] at hd; simp [hd])) hc]
      refine ⟨rfl, by simp, by simp [optional.wf], fun r hr => by simp [hr]⟩

/-- Witness of C20: the converting constructor throws while the container holds 7. -/
theorem emplace_not_atomic_witness :
    (emplace ctorThrowingOps Ref.a (.forward 3) ⟨⟨true, some 7⟩, ⟨false, none⟩, []⟩).1
      = .throw (.raised "converting constructor") ∧
    (emplace ctorThrowingOps Ref.a (.forward 3) ⟨⟨true, some 7⟩, ⟨false, none⟩, []⟩).2.get Ref.a
      = ⟨false, none⟩ :=
  ⟨((emplace_not_atomic ctorThrowingOps Ref.a ⟨⟨true, some 7⟩, ⟨false, none⟩, []⟩ 3
      "converting constructor" rfl).2.2 (by decide) (fun _ _ => rfl)).1,
   ((emplace_not_atomic ctorThrowingOps Ref.a ⟨⟨true, some 7⟩, ⟨false, none⟩, []⟩ 3
      "converting constructor" rfl).2.2 (by decide) (fun _ _ => rfl)).2.1⟩

end claims

end cm
